import Mathlib

/-!
# Verification of the sift retrieval core

A shallow embedding, in Lean 4, of the core of the `sift` semantic file
search engine: the HNSW graph (`internal/hnsw/hnsw.go`,
`internal/hnsw/persist.go`), the chunker (`internal/chunker/chunker.go`)
and the indexer (`internal/index/index.go`), together with theorems
settling the specification's claims about them.

Modelling conventions:
* `float32` values (vector components, similarities, scores) are modelled
  as exact rationals `ℚ`: the properties below are about the structure of
  the algorithms, not about rounding.
* Node identifiers are `ℕ` (Go uses `uint32`; ids are assigned
  sequentially as `len(nodes)`, far below `2^32` in any reachable state).
* The level RNG (`rand.New(rand.NewSource(42))` in `New`, hnsw.go:70) is
  modelled as an explicit stream `ℕ → ℕ` of levels, one draw per insert;
  the graph stores the constant seed `42`. Because the seed is a fixed
  constant, every build from a fresh graph consumes the same stream.
* Go slice indexing that the code guards (or that cannot go out of range
  in reachable states) is modelled with `getD` defaults; each such place
  is commented.
-/

set_option maxHeartbeats 1000000

namespace Sift

/-- A `(id, similarity)` pair, hnsw.go `candidate`. -/
structure Cand where
  id : ℕ
  dist : ℚ
deriving DecidableEq, Repr

instance : Inhabited Cand := ⟨⟨0, 0⟩⟩

/-- A graph vertex, hnsw.go `node`: `neighbors[layer]` lists adjacent ids. -/
structure Node where
  neighbors : List (List ℕ)
  vec : List ℚ
deriving DecidableEq, Repr

instance : Inhabited Node := ⟨⟨[], []⟩⟩

/-- The HNSW graph, hnsw.go `Graph`. The derived float field `ml = 1/ln m`
is consumed only by `randomLevel`, whose draws we model as an explicit
level stream, so it is not stored; `rngSeed` records the constant passed
to `rand.NewSource` in `New` and `Load`. -/
structure Graph where
  nodes : List Node
  entryPoint : ℕ
  maxLayer : ℕ
  m : ℕ
  efConstruction : ℕ
  efSearch : ℕ
  rngSeed : ℤ
deriving DecidableEq, Repr

/-- hnsw.go `New`: every non-positive parameter is replaced by its
default (`DefaultM = 16`, `DefaultEfConstruction = 200`,
`DefaultEfSearch = 50`); the RNG is seeded with the constant 42. -/
def GraphNew (m efConstruction efSearch : ℤ) : Graph :=
  { nodes := []
    entryPoint := 0
    maxLayer := 0
    m := if m ≤ 0 then 16 else m.toNat
    efConstruction := if efConstruction ≤ 0 then 200 else efConstruction.toNat
    efSearch := if efSearch ≤ 0 then 50 else efSearch.toNat
    rngSeed := 42 }

/-- hnsw.go `Len`. -/
def Graph.len (g : Graph) : ℕ := g.nodes.length

/-- hnsw.go `sim`: plain dot product of pre-normalised vectors. Go
iterates over the indices of `a` reading `b[i]`, which PANICS when `b`
is shorter than `a`; `zip` instead truncates at the shorter list, so
this model is faithful exactly when `a.length ≤ b.length` (then both sum
`a[i]*b[i]` over `i < a.length`). Every theorem below evaluates `sim`
only in that regime: builds insert vectors of one common dimension, and
the mismatched-insert theorem (C3) restricts its quantifiers to a
shorter new vector and a prune-free insert, the executions in which Go's
`sim` is never called with a longer first argument. -/
def sim (a b : List ℚ) : ℚ := ((a.zip b).map fun p => p.1 * p.2).sum

/-- `g.nodes[i]`; out-of-range reads (a Go panic, unreachable in the
states the claims quantify over) default to the empty node. -/
def Graph.node (g : Graph) (i : ℕ) : Node := g.nodes.getD i default

/-- `g.nodes[i].neighbors[lc]`; the Go call sites guard `lc` with
`lc < len(neighbors)` (hnsw.go:242,297), which `getD _ []` reproduces. -/
def Graph.nbrs (g : Graph) (i lc : ℕ) : List ℕ := (g.node i).neighbors.getD lc []

/-- `g.nodes[i].vec`. -/
def Graph.vecOf (g : Graph) (i : ℕ) : List ℚ := (g.node i).vec

/-- `len(g.nodes[i].neighbors)`: 1 + the node's top layer. -/
def Graph.layerCount (g : Graph) (i : ℕ) : ℕ := (g.node i).neighbors.length

/-- Sum of the layer-`lc` list lengths over all nodes: used to size the
fuel of the search loops (see `Graph.searchLayer`). -/
def Graph.layerSize (g : Graph) (lc : ℕ) : ℕ :=
  (g.nodes.map fun n => (n.neighbors.getD lc []).length).sum

/-- Extract a maximal-`key` element (first occurrence on ties) and the
remaining list. Models popping Go's `maxHeap` and one round of the
descending selection sorts in `searchLayer`/`pruneNeighbours`
(hnsw.go:326-332, 363-370); ties never arise in the concrete runs the
claims are settled on, and the theorems proved about non-concrete runs
are independent of tie order. -/
def extractMaxBy {α : Type} (key : α → ℚ) : List α → Option (α × List α)
  | [] => none
  | c :: rest =>
    match extractMaxBy key rest with
    | none => some (c, [])
    | some (mx, rest') =>
      if key c < key mx then some (mx, c :: rest') else some (c, rest)

/-- Selection sort, descending by `key`, by repeated max extraction: the
result of Go's strict-comparison double-loop selection sorts. The fuel
argument makes the recursion structural (each extraction shortens the
list by one, so `l.length` rounds always finish the list). -/
def sortByDescAux {α : Type} (key : α → ℚ) : ℕ → List α → List α
  | 0, _ => []
  | fuel + 1, l =>
    match extractMaxBy key l with
    | none => []
    | some (c, rest) => c :: sortByDescAux key fuel rest

def sortByDesc {α : Type} (key : α → ℚ) (l : List α) : List α :=
  sortByDescAux key l.length l

/-- First value index of the strict minimum `dist` (Go's `minIdx` scan in
hnsw.go:310-315 keeps the first index on ties). Helper state: remaining
list, best dist so far, its index, current index. -/
def firstMinIdxAux : List Cand → ℚ → ℕ → ℕ → ℕ
  | [], _, bi, _ => bi
  | c :: rest, bd, bi, i =>
    if c.dist < bd then firstMinIdxAux rest c.dist i (i + 1)
    else firstMinIdxAux rest bd bi (i + 1)

def firstMinIdx : List Cand → ℕ
  | [] => 0
  | c :: rest => firstMinIdxAux rest c.dist 0 1

/-- Go's swap-removal of the worst element of `W` (hnsw.go:316-317):
`W[minIdx] = W[len(W)-1]; W = W[:len(W)-1]`. -/
def swapRemoveMin (l : List Cand) : List Cand :=
  (l.set (firstMinIdx l) (l.getLastD ⟨0, 0⟩)).dropLast

/-- `minSimInW` (hnsw.go:277-285): minimum `dist` over `W` (never called
on an empty `W` by the Go code; `0` is the unused default). -/
def minDist : List Cand → ℚ
  | [] => 0
  | c :: rest => rest.foldl (fun mn x => if x.dist < mn then x.dist else mn) c.dist

/-- Beam-search state: the visited set (a Go map, modelled as the list of
ids in insertion order), the to-explore pool `C`, the bounded result set
`W`, and the cached worst similarity in `W`. -/
structure SLState where
  visited : List ℕ
  cpool : List Cand
  w : List Cand
  worst : ℚ
deriving Repr

/-- The inner neighbour loop of `searchLayer` (hnsw.go:298-321): mark each
unvisited neighbour visited, and push it into `C` and `W` when `W` is not
full or it beats the worst member; evict the worst on overflow and
recompute the cached minimum. -/
def slVisit (vecf : ℕ → List ℚ) (q : List ℚ) (ef : ℕ) :
    List ℕ → SLState → SLState
  | [], st => st
  | nb :: rest, st =>
    if st.visited.contains nb then slVisit vecf q ef rest st
    else
      let s := sim q (vecf nb)
      let visited' := st.visited ++ [nb]
      if st.w.length < ef ∨ st.worst < s then
        let cpool' := st.cpool ++ [⟨nb, s⟩]
        let w' := st.w ++ [⟨nb, s⟩]
        let w'' := if ef < w'.length then swapRemoveMin w' else w'
        slVisit vecf q ef rest
          { visited := visited', cpool := cpool', w := w'', worst := minDist w'' }
      else slVisit vecf q ef rest { st with visited := visited' }

/-- The outer loop of `searchLayer` (hnsw.go:287-323): pop the best
unexplored candidate, stop when `W` is full and it cannot improve, else
expand its neighbours; finally sort `W` descending (hnsw.go:326-332).
The fuel only bounds the iteration count; `Graph.searchLayer` passes
enough fuel that the loop always ends by `C` emptying or the early break,
exactly as Go's unbounded `for`: every id enters `C` at most once
(visited guard), and ids entering `C` are the start point or occur in a
layer-`lc` neighbour list, so pops ≤ 1 + (sum of layer-`lc` list
lengths). -/
def slLoop (adj : ℕ → List ℕ) (vecf : ℕ → List ℚ) (q : List ℚ) (ef : ℕ) :
    ℕ → SLState → List Cand
  | 0, st => sortByDesc Cand.dist st.w
  | fuel + 1, st =>
    match extractMaxBy Cand.dist st.cpool with
    | none => sortByDesc Cand.dist st.w
    | some (c, rest) =>
      if ef ≤ st.w.length ∧ c.dist < st.worst then sortByDesc Cand.dist st.w
      else slLoop adj vecf q ef fuel (slVisit vecf q ef (adj c.id) { st with cpool := rest })

/-- `searchLayer` over explicit adjacency and vector functions, so that
its dependence on only the layer-`lc` lists is manifest. -/
def searchLayerF (adj : ℕ → List ℕ) (vecf : ℕ → List ℚ) (q : List ℚ)
    (ep ef fuel : ℕ) : List Cand :=
  let s0 := sim q (vecf ep)
  slLoop adj vecf q ef fuel { visited := [ep], cpool := [⟨ep, s0⟩], w := [⟨ep, s0⟩], worst := s0 }

/-- hnsw.go `searchLayer` on the graph: beam search at layer `lc`. -/
def Graph.searchLayer (g : Graph) (q : List ℚ) (ep ef lc : ℕ) : List Cand :=
  searchLayerF (fun i => g.nbrs i lc) g.vecOf q ep ef (g.layerSize lc + 2)

/-- One scan of the current best node's layer-`lc` neighbours in
`greedySearchLayer` (hnsw.go:240-252), updating `(best, bestSim,
changed)` as the Go `for` does. -/
def greedyScan (vecf : ℕ → List ℚ) (q : List ℚ) :
    List ℕ → ℕ × ℚ × Bool → ℕ × ℚ × Bool
  | [], acc => acc
  | nb :: rest, (best, bestSim, ch) =>
    let s := sim q (vecf nb)
    if bestSim < s then greedyScan vecf q rest (nb, s, true)
    else greedyScan vecf q rest (best, bestSim, ch)

/-- The `for changed` loop of `greedySearchLayer`. Fuel as in `slLoop`:
each changed round strictly increases `bestSim` and moves `best` to a
fresh id drawn from the layer's lists, so rounds ≤ 1 + (sum of layer-`lc`
list lengths) and the fuel passed by `Graph.greedySearchLayer` never runs
out before the fixpoint. -/
def greedyF (adj : ℕ → List ℕ) (vecf : ℕ → List ℚ) (q : List ℚ) :
    ℕ → ℕ → ℚ → ℕ
  | 0, best, _ => best
  | fuel + 1, best, bestSim =>
    match greedyScan vecf q (adj best) (best, bestSim, false) with
    | (b, s, ch) => if ch then greedyF adj vecf q fuel b s else best

/-- hnsw.go `greedySearchLayer`: one-best hill climb at layer `lc`. -/
def Graph.greedySearchLayer (g : Graph) (q : List ℚ) (ep lc : ℕ) : ℕ :=
  greedyF (fun i => g.nbrs i lc) g.vecOf q (g.layerSize lc + 2) ep (sim q (g.vecOf ep))

/-- `cnt` greedy descent steps at layers `lo+cnt, …, lo+1` (the
`for lc := epLevel; lc > level; lc--` loops in `Insert` and `Search`). -/
def descendAux (g : Graph) (q : List ℚ) (lo : ℕ) : ℕ → ℕ → ℕ
  | 0, ep => ep
  | cnt + 1, ep => descendAux g q lo cnt (g.greedySearchLayer q ep (lo + cnt + 1))

/-- Greedy descent from layer `hi` down to layer `lo+1` inclusive. -/
def Graph.descend (g : Graph) (q : List ℚ) (hi lo ep : ℕ) : ℕ :=
  descendAux g q lo (hi - lo) ep

/-- hnsw.go `selectNeighbours`: the ids of the best `m` candidates of an
already-sorted list (all of them when fewer than `m`). -/
def selectNeighbours (cands : List Cand) (m : ℕ) : List ℕ :=
  (cands.take m).map Cand.id

/-- hnsw.go `pruneNeighbours`: rescore `nbs` by similarity to the pruned
node's own vector `selfVec`, sort descending, keep the best `maxConn`. -/
def pruneF (vecf : ℕ → List ℚ) (selfVec : List ℚ) (nbs : List ℕ) (maxConn : ℕ) : List ℕ :=
  let scored := nbs.map fun n => Cand.mk n (sim selfVec (vecf n))
  ((sortByDesc Cand.dist scored).take maxConn).map Cand.id

/-- Replace element `i` of a list by `f` of it (out of range: no change;
the Go indexings this models are in range in every reachable state). -/
def listModify {α : Type} : List α → ℕ → (α → α) → List α
  | [], _, _ => []
  | x :: xs, 0, f => f x :: xs
  | x :: xs, i + 1, f => x :: listModify xs i f

/-- `g.nodes[i].neighbors[lc] = v` (`List.set` is a no-op out of range;
the Go write sites are in range in every reachable state). -/
def setNbrsAt (g : Graph) (i lc : ℕ) (v : List ℕ) : Graph :=
  { g with nodes := listModify g.nodes i fun n => { n with neighbors := n.neighbors.set lc v } }

/-- `g.nodes[nb].neighbors[lc] = append(g.nodes[nb].neighbors[lc], id)`
(hnsw.go:140). -/
def appendNbr (g : Graph) (nb lc id : ℕ) : Graph :=
  setNbrsAt g nb lc (g.nbrs nb lc ++ [id])

/-- The bidirectional-connect loop of `Insert` (hnsw.go:139-149): append
the new id to each selected neighbour's list and prune any list that now
exceeds `maxConn`. Also reports whether any prune ran. -/
def backlinkAll (id lc maxConn : ℕ) : List ℕ → Graph → Graph × Bool
  | [], g => (g, false)
  | nb :: rest, g =>
    let g1 := appendNbr g nb lc id
    let pr := decide (maxConn < (g1.nbrs nb lc).length)
    let g2 :=
      if maxConn < (g1.nbrs nb lc).length then
        setNbrsAt g1 nb lc (pruneF g1.vecOf (g1.vecOf nb) (g1.nbrs nb lc) maxConn)
      else g1
    let p := backlinkAll id lc maxConn rest g2
    (p.1, pr || p.2)

/-- One iteration of the per-layer insert loop (hnsw.go:131-154): beam
search at layer `lc`, select the top `m`, wire the new node both ways,
and advance the entry point to the closest candidate. Returns
((graph, pruned?), next entry point). -/
def insertStep (v : List ℚ) (id lc : ℕ) (g : Graph) (ep : ℕ) : (Graph × Bool) × ℕ :=
  let cands := g.searchLayer v ep g.efConstruction lc
  let selected := selectNeighbours cands g.m
  let g1 := setNbrsAt g id lc selected
  let maxConn := if lc = 0 then 2 * g.m else g.m
  let gp := backlinkAll id lc maxConn selected g1
  let ep' := match cands with
    | [] => ep
    | c :: _ => c.id
  (gp, ep')

/-- The `for lc := min(level, epLevel); lc >= 0; lc--` loop of `Insert`. -/
def insertLoop (v : List ℚ) (id : ℕ) : ℕ → Graph → ℕ → Graph × Bool
  | 0, g, ep => (insertStep v id 0 g ep).1
  | lc + 1, g, ep =>
    let s := insertStep v id (lc + 1) g ep
    let p := insertLoop v id lc s.1.1 s.2
    (p.1, s.1.2 || p.2)

/-- hnsw.go `Insert` with the level draw made explicit (`Insert` samples
`level = randomLevel()`, hnsw.go:102; we pass that draw in). Returns the
new graph and whether any neighbour list was pruned during the call. -/
def Graph.insertLeveled (g : Graph) (v : List ℚ) (level : ℕ) : Graph × Bool :=
  let id := g.nodes.length
  let g1 : Graph := { g with nodes := g.nodes ++ [⟨List.replicate (level + 1) [], v⟩] }
  if id = 0 then ({ g1 with entryPoint := 0, maxLayer := level }, false)
  else
    let epLevel := g.maxLayer
    let ep0 := g1.descend v epLevel level g.entryPoint
    let p := insertLoop v id (min level epLevel) g1 ep0
    if epLevel < level then ({ p.1 with entryPoint := id, maxLayer := level }, p.2)
    else p

/-- `Insert`, keeping only the graph. -/
def Graph.insertL (g : Graph) (v : List ℚ) (level : ℕ) : Graph :=
  (g.insertLeveled v level).1

/-- hnsw.go `Result`. -/
structure SearchResult where
  id : ℕ
  score : ℚ
deriving DecidableEq, Repr

/-- hnsw.go `Search`: greedy descent to layer 1, beam search at layer 0
with `ef = max(efSearch, k)`, return the top `k`. -/
def Graph.search (g : Graph) (q : List ℚ) (k : ℕ) : List SearchResult :=
  if g.nodes.length = 0 then []
  else
    let ep := g.descend q g.maxLayer 0 g.entryPoint
    let ef := max g.efSearch k
    let cands := g.searchLayer q ep ef 0
    (cands.take k).map fun c => ⟨c.id, c.dist⟩

/-- Insert each vector in order, drawing levels from the stream
`levels` (draw `i` for the `i`-th insert, as the seeded RNG does);
accumulates whether any prune ran. -/
def buildAux (levels : ℕ → ℕ) : List (List ℚ) → ℕ → Graph → Graph × Bool
  | [], _, g => (g, false)
  | v :: vs, i, g =>
    let p := g.insertLeveled v (levels i)
    let q := buildAux levels vs (i + 1) p.1
    (q.1, p.2 || q.2)

/-- The graph after inserting `vecs` in order into `g`. -/
def buildL (g : Graph) (levels : ℕ → ℕ) (vecs : List (List ℚ)) : Graph :=
  (buildAux levels vecs 0 g).1

/-- Whether any prune ran while inserting `vecs` in order into `g`. -/
def buildPruned (g : Graph) (levels : ℕ → ℕ) (vecs : List (List ℚ)) : Bool :=
  (buildAux levels vecs 0 g).2

/-! ## C3: no dimension check in Insert -/

/-- The graph's established dimension: the dimension of the first stored
vector (all stored vectors share it in reachable states, spec §3). -/
def establishedDim (g : Graph) : ℕ := (g.node 0).vec.length

/-- A concrete one-node graph of dimension 3, reached by inserting a
3-dimensional vector into a fresh graph. -/
def exGraph3 : Graph := (GraphNew 16 200 50).insertL [1, 0, 0] 2

/-! ## C5: capacity bound -/

/-- The Go write `g.nodes[i].neighbors[lc] = …` is in range. -/
def inRangeN (g : Graph) (j lc : ℕ) : Prop :=
  j < g.nodes.length ∧ lc < (g.node j).neighbors.length

instance (g : Graph) (j lc : ℕ) : Decidable (inRangeN g j lc) := by
  unfold inRangeN; infer_instance

/-! ## Well-formedness: every neighbour entry names a node that occupies
that layer. Maintained by every insert (pruning only removes entries). -/

/-- Spec §3 invariant scaffolding: each entry of a layer-`lc` list is a
valid node id whose node occupies layer `lc`. The Go code relies on this
to index `g.nodes[nb].neighbors[lc]` without panicking. -/
def entriesBound (g : Graph) : Prop :=
  ∀ a lc b, b ∈ g.nbrs a lc → b < g.nodes.length ∧ lc < g.layerCount b

/-! ## C4: symmetry of the neighbour relation -/

/-- The symmetric-neighbours property of spec §3 invariant 1 / §8 item 2. -/
def symOK (g : Graph) : Prop := ∀ a lc b, b ∈ g.nbrs a lc → a ∈ g.nbrs b lc

/-! ### C4 counterexample machinery: the layer-0 lists of a build do not
depend on the level draws. We track the layer-0 adjacency as a concrete
table and show each insert transforms it by a computable table step, for
every level. -/

/-- The table of layer-0 neighbour lists. -/
def tab0 (g : Graph) : List (List ℕ) := g.nodes.map fun nd => nd.neighbors.getD 0 []

/-- The pure table analogue of the layer-0 back-link loop. -/
def adjTabStep (Vt : List (List ℚ)) (idn mc : ℕ) : List ℕ → List (List ℕ) → List (List ℕ)
  | [], t => t
  | nb :: rest, t =>
    let l1 := t.getD nb [] ++ [idn]
    let l2 := if mc < l1.length then pruneF (fun i => Vt.getD i []) (Vt.getD nb []) l1 mc
      else l1
    adjTabStep Vt idn mc rest (t.set nb l2)

/-- The running invariant of the level-independence argument: the graph's
layer-0 table is `A`, its vectors are `V`, its parameters are `m = 2`,
`efConstruction = 200`, and the well-formedness facts needed to keep the
simulation going hold. -/
def StageInv (g : Graph) (A : List (List ℕ)) (V : List (List ℚ)) : Prop :=
  g.m = 2 ∧ g.efConstruction = 200 ∧
  tab0 g = A ∧
  V.length = g.nodes.length ∧
  (∀ i, g.vecOf i = V.getD i []) ∧
  entriesBound g ∧
  (0 < g.nodes.length → g.entryPoint < g.nodes.length ∧
    g.layerCount g.entryPoint = g.maxLayer + 1) ∧
  (∀ i, i < g.nodes.length → 0 < g.layerCount i)

/-! ## persist.go: Save / Load

The binary file is modelled as a stream of typed tokens, one per
`binaryWriter` call; the `uintN(...)` conversions of Save become `% 2^N`.
This is faithful to the byte format whenever every written count fits its
width, so that Load's reads align with Save's writes (the bounds under
which the round-trip theorem is stated). -/

/-- One write of the `binaryWriter`: the 4-byte magic, a `uint8`, a
`uint16`, a `uint32`, or a `float32` (float32 values are stored exactly,
so the payload is carried as is). -/
inductive Tok where
  | magic : Tok
  | u8 (n : ℕ) : Tok
  | u16 (n : ℕ) : Tok
  | u32 (n : ℕ) : Tok
  | f32 (q : ℚ) : Tok
deriving DecidableEq, Repr

/-- The per-node section of Save (persist.go:56-68): layer count, vector
length, vector, then per layer the neighbour count and the ids. -/
def saveNode (nd : Node) : List Tok :=
  Tok.u8 (nd.neighbors.length % 256) ::
  Tok.u16 (nd.vec.length % 65536) ::
  (nd.vec.map Tok.f32 ++
    (nd.neighbors.map fun layer =>
      Tok.u16 (layer.length % 65536) :: layer.map Tok.u32).flatten)

/-- `Save` (persist.go:35-71): header then the node sections. `m`,
`efConstruction`, `efSearch` are truncated to `uint16`, `maxLayer` to
`uint8`, the node count to `uint32`; `entryPoint` is already a `uint32`
in the Go struct and is written unconverted. -/
def saveGraph (g : Graph) : List Tok :=
  Tok.magic ::
  Tok.u16 1 ::
  Tok.u32 (g.nodes.length % 4294967296) ::
  Tok.u32 g.entryPoint ::
  Tok.u8 (g.maxLayer % 256) ::
  Tok.u16 (g.m % 65536) ::
  Tok.u16 (g.efConstruction % 65536) ::
  Tok.u16 (g.efSearch % 65536) ::
  (g.nodes.map saveNode).flatten

/-- `binaryReader.readU8`: the next token must be a `uint8` write. -/
def readU8 : List Tok → Except String (ℕ × List Tok)
  | Tok.u8 n :: rest => Except.ok (n, rest)
  | _ => Except.error "read u8"

def readU16 : List Tok → Except String (ℕ × List Tok)
  | Tok.u16 n :: rest => Except.ok (n, rest)
  | _ => Except.error "read u16"

def readU32 : List Tok → Except String (ℕ × List Tok)
  | Tok.u32 n :: rest => Except.ok (n, rest)
  | _ => Except.error "read u32"

def readF32 : List Tok → Except String (ℚ × List Tok)
  | Tok.f32 q :: rest => Except.ok (q, rest)
  | _ => Except.error "read f32"

/-- `vec[j] = r.readF32()` over `j < cnt` (persist.go:109-112). -/
def readF32s : ℕ → List Tok → Except String (List ℚ × List Tok)
  | 0, ts => Except.ok ([], ts)
  | cnt + 1, ts => do
    let (q, ts1) ← readF32 ts
    let (qs, ts2) ← readF32s cnt ts1
    Except.ok (q :: qs, ts2)

/-- `neighbors[l][j] = r.readU32()` over `j < cnt` (persist.go:117-119). -/
def readU32s : ℕ → List Tok → Except String (List ℕ × List Tok)
  | 0, ts => Except.ok ([], ts)
  | cnt + 1, ts => do
    let (n, ts1) ← readU32 ts
    let (ns, ts2) ← readU32s cnt ts1
    Except.ok (n :: ns, ts2)

/-- The per-layer loop of Load (persist.go:114-120). -/
def readLayers : ℕ → List Tok → Except String (List (List ℕ) × List Tok)
  | 0, ts => Except.ok ([], ts)
  | cnt + 1, ts => do
    let (nbCount, ts1) ← readU16 ts
    let (layer, ts2) ← readU32s nbCount ts1
    let (layers, ts3) ← readLayers cnt ts2
    Except.ok (layer :: layers, ts3)

/-- The per-node loop of Load (persist.go:106-122). -/
def readNodes : ℕ → List Tok → Except String (List Node × List Tok)
  | 0, ts => Except.ok ([], ts)
  | cnt + 1, ts => do
    let (layerCount, ts1) ← readU8 ts
    let (vecLen, ts2) ← readU16 ts1
    let (vec, ts3) ← readF32s vecLen ts2
    let (neighbors, ts4) ← readLayers layerCount ts3
    let (nodes, ts5) ← readNodes cnt ts4
    Except.ok (⟨neighbors, vec⟩ :: nodes, ts5)

/-- `Load` (persist.go:74-139): check magic and version, read the header
and the nodes, reseed the RNG with the constant 42. Trailing data is
never examined (Go reads exactly what it needs and ignores the rest). -/
def loadGraph : List Tok → Except String Graph
  | Tok.magic :: ts => do
    let (version, ts1) ← readU16 ts
    if version ≠ 1 then Except.error "unsupported version" else do
      let (nodeCount, ts2) ← readU32 ts1
      let (entryPoint, ts3) ← readU32 ts2
      let (maxLayer, ts4) ← readU8 ts3
      let (m, ts5) ← readU16 ts4
      let (efConstruction, ts6) ← readU16 ts5
      let (efSearch, ts7) ← readU16 ts6
      let (nodes, _) ← readNodes nodeCount ts7
      Except.ok ⟨nodes, entryPoint, maxLayer, m, efConstruction, efSearch, 42⟩
  | _ => Except.error "invalid magic bytes"

/-- A small concrete graph exercising the persistence round trip. -/
def exG6 : Graph := ⟨[⟨[[1]], [1]⟩, ⟨[[0]], [2]⟩], 0, 0, 2, 200, 50, 42⟩

/-! ## chunker.go: chunkBytes

Text is a list of bytes (`List ℕ`); `'\n' = 10`, `' ' = 32`. Slices
`text[a:b]` become `(data.drop a).take (b - a)`; the options stay `ℤ`
as Go ints. The model is faithful on the domain where the Go code does
not panic on a reversed slice: `MaxBytes > 0` (guaranteed by ChunkFile's
defaulting) and `OverlapBytes ≥ 0`. -/

/-- `unicode.IsSpace` on ASCII, as used by `strings.TrimSpace`. -/
def isSpaceB (c : ℕ) : Bool :=
  c = 32 || c = 9 || c = 10 || c = 13 || c = 11 || c = 12

/-- The cutset `" \t\n\r"` of the `strings.TrimLeft` call (chunker.go:117). -/
def isCutB (c : ℕ) : Bool :=
  c = 32 || c = 9 || c = 10 || c = 13

/-- `strings.TrimSpace`. -/
def trimSpace (l : List ℕ) : List ℕ :=
  ((l.dropWhile isSpaceB).reverse.dropWhile isSpaceB).reverse

/-- `text[a:b]`. -/
def sliceB (data : List ℕ) (a b : ℕ) : List ℕ := (data.drop a).take (b - a)

/-- `strings.LastIndex(w, "\n\n")`: the last `i` with `w[i] = w[i+1] = '\n'`. -/
def lastIndexNL2 (w : List ℕ) : Option ℕ :=
  ((List.range (w.length - 1)).filter fun i =>
    decide (w.getD i 0 = 10 ∧ w.getD (i + 1) 0 = 10)).getLast?

/-- `strings.LastIndexByte(w, c)`. -/
def lastIndexByte (c : ℕ) (w : List ℕ) : Option ℕ :=
  ((List.range w.length).filter fun i => decide (w.getD i 0 = c)).getLast?

/-- `strings.IndexByte(w, c)`. -/
def indexByte (c : ℕ) (w : List ℕ) : Option ℕ :=
  ((List.range w.length).filter fun i => decide (w.getD i 0 = c)).head?

/-- chunker.go `Chunk` (the `Path` field is the constant argument and is
omitted). -/
structure ChunkB where
  text : List ℕ
  lineNum : ℕ
  startByte : ℕ
  endByte : ℕ
  index : ℕ
deriving DecidableEq, Repr

/-- `leadingSpaces` and the `LineNum` computation (chunker.go:117,121). -/
def lineNumAt (data : List ℕ) (start stop : ℕ) : ℕ :=
  let seg := sliceB data start stop
  let leadingSpaces := seg.length - (seg.dropWhile isCutB).length
  1 + ((data.take (start + leadingSpaces)).filter fun c => decide (c = 10)).length

/-- The split-point search of chunker.go:129-151: last paragraph break,
else last line break, else last space, else the hard window end. -/
def bestSplitAt (data : List ℕ) (start endN : ℕ) : ℕ :=
  let w := sliceB data start endN
  match lastIndexNL2 w with
  | some i => start + i + 2
  | none =>
    match lastIndexByte 10 w with
    | some i => start + i + 1
    | none =>
      match lastIndexByte 32 w with
      | some i => start + i + 1
      | none => endN

/-- The overlap computation of chunker.go:164-183: step back
`OverlapBytes` from the split (at least one byte past `start`), then
snap forward past the next line break or space. -/
def nextStartAt (data : List ℕ) (overlapB : ℤ) (start bestSplit : ℕ) : ℕ :=
  let overlapZ : ℤ := (bestSplit : ℤ) - overlapB
  if overlapZ ≤ (start : ℤ) then start + 1
  else
    let a := overlapZ.toNat
    let seg := sliceB data a bestSplit
    match indexByte 10 seg with
    | some i => a + i + 1
    | none =>
      match indexByte 32 seg with
      | some i => a + i + 1
      | none => a

/-- The main loop of `chunkBytes` (chunker.go:114-184), with explicit
fuel; `data.length + 1` is enough since `start` strictly increases. -/
def chunkLoop (data : List ℕ) (maxB overlapB : ℤ) : ℕ → ℕ → ℕ → List ChunkB
  | 0, _, _ => []
  | fuel + 1, start, chunkIdx =>
    if start < data.length then
      if (data.length : ℤ) ≤ (start : ℤ) + maxB then
        [⟨trimSpace (data.drop start), lineNumAt data start data.length,
          start, data.length, chunkIdx⟩]
      else
        let endN := ((start : ℤ) + maxB).toNat
        let bestSplit := bestSplitAt data start endN
        ⟨trimSpace (sliceB data start bestSplit), lineNumAt data start bestSplit,
          start, bestSplit, chunkIdx⟩ ::
        chunkLoop data maxB overlapB fuel (nextStartAt data overlapB start bestSplit)
          (chunkIdx + 1)
    else []

/-- `chunkBytes` (chunker.go:104-195): all-whitespace input yields
nothing; otherwise run the loop from 0 and drop the chunks whose trimmed
text is empty. -/
def chunkBytes (data : List ℕ) (maxB overlapB : ℤ) : List ChunkB :=
  if trimSpace data = [] then []
  else (chunkLoop data maxB overlapB (data.length + 1) 0 0).filter fun c =>
    decide (c.text ≠ [])

/-- The option defaulting of `ChunkFile` (chunker.go:83-85):
`MaxBytes ≤ 0` replaces both options by `DefaultOptions` (1200, 250). -/
def chunkFileB (data : List ℕ) (maxB overlapB : ℤ) : List ChunkB :=
  if maxB ≤ 0 then chunkBytes data 1200 250 else chunkBytes data maxB overlapB

/-! ## index.go: Open, AddFileCtx, Search

Strings are byte lists; the filesystem, the embedder and the JSON/binary
parsers are external effects and enter as explicit inputs (parse results,
stat results, file contents). -/

/-- index.go `ChunkMeta`. `Mtime` is an instant (ℤ). -/
structure ChunkMeta where
  path : List ℕ
  lineNum : ℕ
  startByte : ℕ
  endByte : ℕ
  chunkIndex : ℕ
  text : List ℕ
  mtime : ℤ
deriving DecidableEq, Repr

instance : Inhabited ChunkMeta := ⟨⟨[], 0, 0, 0, 0, [], 0⟩⟩

/-- `idx.fileCache[path]` lookup on an association-list model of the map. -/
def cacheLookup (cache : List (List ℕ × ℤ)) (p : List ℕ) : Option ℤ :=
  (cache.find? fun e => decide (e.1 = p)).map fun e => e.2

/-- `idx.fileCache[path] = t`. -/
def cacheSet (cache : List (List ℕ × ℤ)) (p : List ℕ) (t : ℤ) : List (List ℕ × ℤ) :=
  match cacheLookup cache p with
  | none => cache ++ [(p, t)]
  | some _ => cache.map fun e => if e.1 = p then (p, t) else e

/-- The mtime skip-cache built by Open (index.go:106-111): keep each
path's latest chunk mtime (`Mtime.After` = strictly greater). -/
def buildCache (chunks : List ChunkMeta) : List (List ℕ × ℤ) :=
  chunks.foldl
    (fun cache c =>
      match cacheLookup cache c.path with
      | none => cacheSet cache c.path c.mtime
      | some existing => if existing < c.mtime then cacheSet cache c.path c.mtime else cache)
    []

/-- The index state relevant to this model. -/
structure IndexM where
  chunks : List ChunkMeta
  graph : Graph
  fileCache : List (List ℕ × ℤ)
deriving Repr

/-- `Open` (index.go:71-114) after the embedder is up. `metaF` is the
outcome of reading+parsing `meta.json`: `none` when the file is absent
(ReadFile errors are ignored), `some (error _)` when it fails to parse.
`hnswF` likewise for `hnsw.bin` via `hnsw.Load`. The fresh default graph
stands in when `hnsw.bin` is absent. -/
def openIdx (metaF : Option (Except String (List ChunkMeta)))
    (hnswF : Option (Except String Graph)) : Except String IndexM :=
  match metaF with
  | some (Except.error _) => Except.error "corrupt meta.json"
  | mo =>
    let chunks := match mo with
      | some (Except.ok cs) => cs
      | _ => []
    match hnswF with
    | some (Except.error _) => Except.error "corrupt hnsw.bin"
    | ho =>
      let g := match ho with
        | some (Except.ok g1) => g1
        | _ => GraphNew 16 200 50
      Except.ok ⟨chunks, g, buildCache chunks⟩

/-- The outcome of the guard section of `AddFileCtx` (index.go:134-160):
either an early return carrying (`skipped`, whether a skip diagnostic was
printed) or fall-through to chunking and embedding. -/
inductive AddFileResult where
  | done (skipped : Bool) (diag : Bool)
  | proceeds
deriving DecidableEq, Repr

/-- The guard section of `AddFileCtx`: unsupported path → `(false, nil)`
with NO diagnostic; stat failure → diagnostic, `(false, nil)`; oversized
file → diagnostic, `(false, nil)`; cache hit on equal mtime →
`(true, nil)`; otherwise continue into the embed/insert pipeline.
`statRes` is `none` when `os.Stat` fails, else `some (size, mtime)`. -/
def addFileEarly (supported : Bool) (statRes : Option (ℤ × ℤ)) (maxFileSizeBytes : ℤ)
    (cache : List (List ℕ × ℤ)) (path : List ℕ) : AddFileResult :=
  if !supported then .done false false
  else
    match statRes with
    | none => .done false true
    | some (size, mtime) =>
      if maxFileSizeBytes < size then .done false true
      else
        match cacheLookup cache path with
        | some cached => if cached = mtime then .done true false else .proceeds
        | none => .proceeds

/-- `strings.ToLower` on an ASCII byte. -/
def toLowerB (c : ℕ) : ℕ := if 65 ≤ c ∧ c ≤ 90 then c + 32 else c

/-- `strings.Fields(s)`: split on whitespace, dropping empty fields. -/
def fieldsB (s : List ℕ) : List (List ℕ) :=
  (s.splitOnP isSpaceB).filter fun w => decide (w ≠ [])

/-- `strings.Contains(hay, nee)`. -/
def containsSub (hay nee : List ℕ) : Bool :=
  (List.range (hay.length + 1)).any fun i => nee.isPrefixOf (hay.drop i)

/-- The keyword boost of one hit (index.go:272-287): open the source
file, read the chunk's byte window, and add `0.05` per lowercased query
word of length `> 2` contained in the lowercased window; failure to open
or a short read leaves the score unboosted. `files` maps a path to its
current content (`none` = open fails). -/
def boostOf (files : List ℕ → Option (List ℕ)) (queryWords : List (List ℕ))
    (meta : ChunkMeta) : ℚ :=
  match files meta.path with
  | none => 0
  | some content =>
    if meta.startByte + (meta.endByte - meta.startByte) ≤ content.length then
      ((queryWords.filter fun w => decide (2 < w.length) &&
        containsSub ((sliceB content meta.startByte
          (meta.startByte + (meta.endByte - meta.startByte))).map toLowerB) w).length : ℚ)
        * (1 / 20)
    else 0

/-- One reranked hit (the `scoredHit` of index.go:258-262, minus the
cached text, which the result does not carry). -/
structure ScoredHit where
  meta : ChunkMeta
  score : ℚ
deriving DecidableEq, Repr

/-- index.go `SearchResult`. -/
structure IndexResult where
  meta : ChunkMeta
  score : ℚ
deriving DecidableEq, Repr

/-- The dedup walk (index.go:299-316): take hits in order, at most one
per path, stopping at `k` results. -/
def dedupTake : ℕ → List ScoredHit → List (List ℕ) → List IndexResult
  | _, [], _ => []
  | 0, _ :: _, _ => []
  | b + 1, h :: rest, seen =>
    if decide (h.meta.path ∈ seen) then dedupTake (b + 1) rest seen
    else ⟨h.meta, h.score⟩ :: dedupTake b rest (h.meta.path :: seen)

/-- `Search` (index.go:236-317) after the query embeds to `queryVec`:
fetch `min(5k, count)` graph hits (none when that is 0), drop ids beyond
the metadata table, boost each by the keyword match count, sort
descending by boosted score, and walk with per-path dedup. -/
def searchIdx (chunks : List ChunkMeta) (g : Graph) (files : List ℕ → Option (List ℕ))
    (queryVec : List ℚ) (query : List ℕ) (k : ℕ) : List IndexResult :=
  let fetchK := min (k * 5) chunks.length
  if fetchK = 0 then []
  else
    let hits := g.search queryVec fetchK
    let queryWords := fieldsB (query.map toLowerB)
    let reranked := (hits.filter fun h => decide (h.id < chunks.length)).map fun h =>
      ScoredHit.mk (chunks.getD h.id default)
        (h.score + boostOf files queryWords (chunks.getD h.id default))
    dedupTake k (sortByDesc ScoredHit.score reranked) []

/-! ## Theorems -/

theorem extractMaxBy_ne_none {α : Type} (key : α → ℚ) (x : α) (xs : List α) :
    extractMaxBy key (x :: xs) ≠ none := by
  simp only [extractMaxBy]
  cases hx : extractMaxBy key xs with
  | none => simp
  | some p => obtain ⟨mx, r⟩ := p; by_cases h : key x < key mx <;> simp [h]

theorem extractMaxBy_length {α : Type} (key : α → ℚ) :
    ∀ (l : List α) (c : α) (r : List α),
      extractMaxBy key l = some (c, r) → r.length + 1 = l.length := by
  intro l
  induction l with
  | nil => intro c r h; simp [extractMaxBy] at h
  | cons x xs ih =>
    intro c r h
    simp only [extractMaxBy] at h
    cases hx : extractMaxBy key xs with
    | none =>
      rw [hx] at h
      cases xs with
      | nil =>
        simp at h
        simp [h.2]
      | cons y ys => exact absurd hx (extractMaxBy_ne_none key y ys)
    | some p =>
      rw [hx] at h
      obtain ⟨mx, rest'⟩ := p
      by_cases hlt : key x < key mx
      · simp [hlt] at h
        obtain ⟨hc, hr⟩ := h
        subst hc; subst hr
        simpa using ih mx rest' hx
      · simp [hlt] at h
        obtain ⟨hc, hr⟩ := h
        subst hc; subst hr
        rfl

/-! ## Basic preservation lemmas for the insert pipeline -/

theorem listModify_length {α : Type} :
    ∀ (l : List α) (i : ℕ) (f : α → α), (listModify l i f).length = l.length := by
  intro l
  induction l with
  | nil => intro i f; rfl
  | cons x xs ih =>
    intro i f
    cases i with
    | zero => rfl
    | succ j => simpa [listModify] using ih j f

theorem listModify_map {α β : Type} (p : α → β) :
    ∀ (l : List α) (i : ℕ) (f : α → α), (∀ a, p (f a) = p a) →
      (listModify l i f).map p = l.map p := by
  intro l
  induction l with
  | nil => intro i f _; rfl
  | cons x xs ih =>
    intro i f hf
    cases i with
    | zero => simp [listModify, hf]
    | succ j => simp [listModify, ih j f hf]

theorem getD_listModify_ne {α : Type} [Inhabited α] :
    ∀ (l : List α) (i j : ℕ) (f : α → α), i ≠ j →
      (listModify l j f).getD i default = l.getD i default := by
  intro l
  induction l with
  | nil => intro i j f _; rfl
  | cons x xs ih =>
    intro i j f hij
    cases j with
    | zero =>
      cases i with
      | zero => exact absurd rfl hij
      | succ i' => simp [listModify]
    | succ j' =>
      cases i with
      | zero => simp [listModify]
      | succ i' =>
        simp only [listModify, List.getD_cons_succ]
        exact ih i' j' f (by omega)

theorem getD_listModify_self {α : Type} [Inhabited α] :
    ∀ (l : List α) (j : ℕ) (f : α → α), j < l.length →
      (listModify l j f).getD j default = f (l.getD j default) := by
  intro l
  induction l with
  | nil => intro j f h; simp at h
  | cons x xs ih =>
    intro j f h
    cases j with
    | zero => rfl
    | succ j' =>
      simp only [listModify, List.getD_cons_succ]
      exact ih j' f (by simpa using h)

theorem listModify_ge {α : Type} :
    ∀ (l : List α) (j : ℕ) (f : α → α), l.length ≤ j → listModify l j f = l := by
  intro l
  induction l with
  | nil => intro j f _; rfl
  | cons x xs ih =>
    intro j f h
    cases j with
    | zero => simp at h
    | succ j' => simp [listModify, ih j' f (by simpa using h)]

/-- Composing two node-only rewrites of a graph. -/
theorem graph_withNodes_chain {g g1 g2 : Graph} {ns1 ns2 : List Node}
    (h1 : g1 = { g with nodes := ns1 }) (hl1 : ns1.length = g.nodes.length)
    (hv1 : ns1.map (·.vec) = g.nodes.map (·.vec))
    (h2 : g2 = { g1 with nodes := ns2 }) (hl2 : ns2.length = g1.nodes.length)
    (hv2 : ns2.map (·.vec) = g1.nodes.map (·.vec)) :
    g2 = { g with nodes := ns2 } ∧ ns2.length = g.nodes.length ∧
      ns2.map (·.vec) = g.nodes.map (·.vec) := by
  subst h1; subst h2
  exact ⟨rfl, hl2.trans hl1, hv2.trans hv1⟩

/-- `setNbrsAt` only rewrites one node's `neighbors`; everything the other
claims read (length, vectors, scalar fields) is untouched. -/
theorem setNbrsAt_spec (g : Graph) (i lc : ℕ) (v : List ℕ) :
    ∃ ns : List Node,
      setNbrsAt g i lc v = { g with nodes := ns } ∧
      ns.length = g.nodes.length ∧ ns.map (·.vec) = g.nodes.map (·.vec) := by
  refine ⟨_, rfl, listModify_length _ _ _, listModify_map _ _ _ _ ?_⟩
  intro a; rfl

theorem appendNbr_spec (g : Graph) (nb lc id : ℕ) :
    ∃ ns : List Node,
      appendNbr g nb lc id = { g with nodes := ns } ∧
      ns.length = g.nodes.length ∧ ns.map (·.vec) = g.nodes.map (·.vec) :=
  setNbrsAt_spec g nb lc (g.nbrs nb lc ++ [id])

theorem backlinkAll_spec (id lc mc : ℕ) :
    ∀ (sel : List ℕ) (g : Graph),
      ∃ ns : List Node,
        (backlinkAll id lc mc sel g).1 = { g with nodes := ns } ∧
        ns.length = g.nodes.length ∧ ns.map (·.vec) = g.nodes.map (·.vec) := by
  intro sel
  induction sel with
  | nil => intro g; exact ⟨g.nodes, rfl, rfl, rfl⟩
  | cons nb rest ih =>
    intro g
    obtain ⟨ns1, h1, hl1, hv1⟩ := appendNbr_spec g nb lc id
    by_cases hcap : mc < ((appendNbr g nb lc id).nbrs nb lc).length
    · obtain ⟨ns2, h2, hl2, hv2⟩ := setNbrsAt_spec (appendNbr g nb lc id) nb lc
        (pruneF (appendNbr g nb lc id).vecOf ((appendNbr g nb lc id).vecOf nb)
          ((appendNbr g nb lc id).nbrs nb lc) mc)
      obtain ⟨hm, hml, hmv⟩ := graph_withNodes_chain h1 hl1 hv1 h2 hl2 hv2
      obtain ⟨ns3, h3, hl3, hv3⟩ := ih (setNbrsAt (appendNbr g nb lc id) nb lc
        (pruneF (appendNbr g nb lc id).vecOf ((appendNbr g nb lc id).vecOf nb)
          ((appendNbr g nb lc id).nbrs nb lc) mc))
      obtain ⟨hf, hfl, hfv⟩ := graph_withNodes_chain hm hml hmv h3 hl3 hv3
      refine ⟨ns3, ?_, hfl, hfv⟩
      simpa only [backlinkAll, hcap, if_pos] using hf
    · obtain ⟨ns3, h3, hl3, hv3⟩ := ih (appendNbr g nb lc id)
      obtain ⟨hf, hfl, hfv⟩ := graph_withNodes_chain h1 hl1 hv1 h3 hl3 hv3
      refine ⟨ns3, ?_, hfl, hfv⟩
      simpa only [backlinkAll, hcap, if_neg, not_false_iff] using hf

theorem insertStep_spec (v : List ℚ) (id lc : ℕ) (g : Graph) (ep : ℕ) :
    ∃ ns : List Node,
      (insertStep v id lc g ep).1.1 = { g with nodes := ns } ∧
      ns.length = g.nodes.length ∧ ns.map (·.vec) = g.nodes.map (·.vec) := by
  obtain ⟨ns1, h1, hl1, hv1⟩ := setNbrsAt_spec g id lc
    (selectNeighbours (g.searchLayer v ep g.efConstruction lc) g.m)
  obtain ⟨ns2, h2, hl2, hv2⟩ := backlinkAll_spec id lc
    (if lc = 0 then 2 * g.m else g.m)
    (selectNeighbours (g.searchLayer v ep g.efConstruction lc) g.m)
    (setNbrsAt g id lc (selectNeighbours (g.searchLayer v ep g.efConstruction lc) g.m))
  obtain ⟨hf, hfl, hfv⟩ := graph_withNodes_chain h1 hl1 hv1 h2 hl2 hv2
  exact ⟨ns2, hf, hfl, hfv⟩

theorem insertLoop_spec (v : List ℚ) (id : ℕ) :
    ∀ (lc : ℕ) (g : Graph) (ep : ℕ),
      ∃ ns : List Node,
        (insertLoop v id lc g ep).1 = { g with nodes := ns } ∧
        ns.length = g.nodes.length ∧ ns.map (·.vec) = g.nodes.map (·.vec) := by
  intro lc
  induction lc with
  | zero => intro g ep; simpa [insertLoop] using insertStep_spec v id 0 g ep
  | succ lc' ih =>
    intro g ep
    obtain ⟨ns1, h1, hl1, hv1⟩ := insertStep_spec v id (lc' + 1) g ep
    obtain ⟨ns2, h2, hl2, hv2⟩ := ih (insertStep v id (lc' + 1) g ep).1.1
      (insertStep v id (lc' + 1) g ep).2
    obtain ⟨hf, hfl, hfv⟩ := graph_withNodes_chain h1 hl1 hv1 h2 hl2 hv2
    exact ⟨ns2, by simpa only [insertLoop] using hf, hfl, hfv⟩

/-- `Insert` appends exactly one node carrying the given vector, and
leaves the parameters and the RNG seed alone. -/
theorem insertLeveled_spec (g : Graph) (v : List ℚ) (level : ℕ) :
    (g.insertLeveled v level).1.nodes.length = g.nodes.length + 1 ∧
    (g.insertLeveled v level).1.nodes.map (·.vec) = g.nodes.map (·.vec) ++ [v] ∧
    (g.insertLeveled v level).1.m = g.m ∧
    (g.insertLeveled v level).1.efConstruction = g.efConstruction ∧
    (g.insertLeveled v level).1.efSearch = g.efSearch ∧
    (g.insertLeveled v level).1.rngSeed = g.rngSeed := by
  simp only [Graph.insertLeveled]
  by_cases h0 : g.nodes.length = 0
  · simp [h0]
  · simp only [h0, if_neg, not_false_iff]
    set g1 : Graph := { g with nodes := g.nodes ++ [⟨List.replicate (level + 1) [], v⟩] }
      with hg1
    obtain ⟨ns, hns, hl, hv⟩ := insertLoop_spec v g.nodes.length (min level g.maxLayer) g1
      (g1.descend v g.maxLayer level g.entryPoint)
    by_cases hlev : g.maxLayer < level
    · simp only [hlev, if_pos]
      rw [hns]
      simp only [hg1] at hl hv ⊢
      simp at hl hv
      simp [hl, hv]
    · simp only [hlev, if_neg, not_false_iff]
      rw [hns]
      simp only [hg1] at hl hv ⊢
      simp at hl hv
      simp [hl, hv]

theorem insertL_len (g : Graph) (v : List ℚ) (level : ℕ) :
    (g.insertL v level).nodes.length = g.nodes.length + 1 :=
  (insertLeveled_spec g v level).1

/-! ## C10: constructor defaulting -/

/-- C10: `new(m, ef_construction, ef_search)` silently replaces every
non-positive argument by its default (16, 200, 50), so the constructed
graph's parameters are strictly positive (in particular `ln m` is taken
of a positive number when the level factor `ml = 1/ln(m)` is derived);
no argument is rejected: the constructor is total and always returns the
empty graph with the fixed RNG seed 42. -/
theorem c10_new_defaults (m ec es : ℤ) :
    (GraphNew m ec es).m = (if m ≤ 0 then 16 else m.toNat) ∧
    (GraphNew m ec es).efConstruction = (if ec ≤ 0 then 200 else ec.toNat) ∧
    (GraphNew m ec es).efSearch = (if es ≤ 0 then 50 else es.toNat) ∧
    0 < (GraphNew m ec es).m ∧
    0 < (GraphNew m ec es).efConstruction ∧
    0 < (GraphNew m ec es).efSearch ∧
    (GraphNew m ec es).nodes = [] ∧
    (GraphNew m ec es).rngSeed = 42 := by
  refine ⟨rfl, rfl, rfl, ?_, ?_, ?_, rfl, rfl⟩ <;>
    simp only [GraphNew] <;> split_ifs <;> omega

/-! ## C9: determinism of builds -/

/-- C9: the two ingredients of build determinism. The level RNG is the
only stateful input of `Insert`; it is created by `New` from the fixed
constant seed 42, so two builds over the same insertion sequence consume
the same level stream, and building is a pure function of (parameters,
level stream, vectors): the two graphs are identical componentwise and
every search agrees identifier for identifier. -/
theorem c9_build_deterministic (m ec es : ℤ) (levels : ℕ → ℕ)
    (vecs : List (List ℚ)) (g1 g2 : Graph)
    (h1 : g1 = buildL (GraphNew m ec es) levels vecs)
    (h2 : g2 = buildL (GraphNew m ec es) levels vecs) :
    g1 = g2 ∧ g1.nodes = g2.nodes ∧ g1.entryPoint = g2.entryPoint ∧
    g1.maxLayer = g2.maxLayer ∧ (GraphNew m ec es).rngSeed = 42 ∧
    (∀ q k, g1.search q k = g2.search q k) := by
  subst h1; subst h2
  exact ⟨rfl, rfl, rfl, rfl, rfl, fun _ _ => rfl⟩

/-- Witness for C9 at a concrete build. -/
theorem c9_build_deterministic_witness :
    buildL (GraphNew 16 200 50) (fun _ => 0) [[1]] =
      buildL (GraphNew 16 200 50) (fun _ => 0) [[1]] ∧
    (buildL (GraphNew 16 200 50) (fun _ => 0) [[1]]).search [1] 1 =
      (buildL (GraphNew 16 200 50) (fun _ => 0) [[1]]).search [1] 1 := by
  obtain ⟨h, _, _, _, _, hs⟩ := c9_build_deterministic 16 200 50 (fun _ => 0) [[1]]
    (buildL (GraphNew 16 200 50) (fun _ => 0) [[1]])
    (buildL (GraphNew 16 200 50) (fun _ => 0) [[1]]) rfl rfl
  exact ⟨h, hs [1] 1⟩

/-- C3 counterexample: the claim — inserting a vector whose dimension
differs from the established dimension fails and leaves the graph
unchanged — is false: `Insert` (hnsw.go:97-160) checks nothing and has no
error channel (its return type is empty), so inserting the 2-dimensional
vector `[1,0]` into a 1-node graph of dimension 3 changes the graph (a
second node is appended). There is no `DimensionMismatch` anywhere in the
code. -/
theorem c3_counterexample :
    ¬ (∀ (g : Graph) (v : List ℚ) (level : ℕ),
        0 < g.nodes.length → v.length ≠ establishedDim g → g.insertL v level = g) := by
  intro h
  have h1 : (0 : ℕ) < exGraph3.nodes.length := by decide
  have h2 : ([1, 0] : List ℚ).length ≠ establishedDim exGraph3 := by decide
  have h3 := congrArg (fun g : Graph => g.nodes.length) (h exGraph3 [1, 0] 0 h1 h2)
  simp only [insertL_len] at h3
  omega

/-- `Insert` appends the node and stores the vector as given, for every
graph and every vector (hnsw.go:97-106; nothing later removes it). -/
theorem insertL_stores (g : Graph) (v : List ℚ) (level : ℕ) :
    (g.insertL v level).nodes.length = g.nodes.length + 1 ∧
    ((g.insertL v level).node g.nodes.length).vec = v := by
  refine ⟨insertL_len g v level, ?_⟩
  simp only [Graph.insertL, Graph.node]
  have hv := (insertLeveled_spec g v level).2.1
  have key : (((g.insertLeveled v level).1.nodes.map (·.vec)).getD g.nodes.length []) = v := by
    rw [hv, List.getD_append_right _ _ _ _ (by simp)]
    simp
  have hm : (((g.insertLeveled v level).1.nodes.map (·.vec)).getD g.nodes.length []) =
      ((g.insertLeveled v level).1.nodes.getD g.nodes.length default).vec := by
    have := List.getD_map (l := (g.insertLeveled v level).1.nodes)
      (d := (default : Node)) (n := g.nodes.length) (f := fun nd : Node => nd.vec)
    exact this
  rw [hm] at key
  exact key

/-- A build stores exactly the inserted vectors, in order. -/
theorem buildAux_map_vec (levels : ℕ → ℕ) :
    ∀ (vecs : List (List ℚ)) (i0 : ℕ) (g : Graph),
      (buildAux levels vecs i0 g).1.nodes.map (·.vec) = g.nodes.map (·.vec) ++ vecs := by
  intro vecs
  induction vecs with
  | nil => intro i0 g; simp [buildAux]
  | cons v vs ih =>
    intro i0 g
    simp only [buildAux]
    rw [ih (i0 + 1) (g.insertLeveled v (levels i0)).1]
    rw [(insertLeveled_spec g v (levels i0)).2.1]
    simp

/-- C3 (amended): `Insert` performs no dimension check and has no error
channel; no `DimensionMismatch` exists anywhere in the code. On a
non-empty graph built from vectors of one dimension `d`, inserting a
SHORTER vector is never rejected: the node count grows by one and the
mismatched vector is stored as given — provided no neighbour list
overflows during that insert. The hypotheses delimit exactly the
mismatched executions Go completes instead of crashing: a LONGER vector
makes `sim` (hnsw.go:91) read past a stored vector's end during the
insert's beam searches — an index-out-of-range panic — and a prune
during the insert rescores with `sim(self.vec, ·)` against the short
newcomer, reading past ITS end, the same panic. Within the hypotheses,
`sim` is only ever called with the shorter vector first, where the model
agrees with Go term for term. -/
theorem c3_insert_unchecked (m ec es : ℤ) (levels : ℕ → ℕ) (vecs : List (List ℚ))
    (d : ℕ) (v : List ℚ) (level : ℕ)
    (hvecs : ∀ w ∈ vecs, w.length = d)
    (h0 : 0 < (buildL (GraphNew m ec es) levels vecs).nodes.length)
    (hshort : v.length < d)
    (hnp : ((buildL (GraphNew m ec es) levels vecs).insertLeveled v level).2 = false) :
    v.length ≠ establishedDim (buildL (GraphNew m ec es) levels vecs) ∧
    ((buildL (GraphNew m ec es) levels vecs).insertL v level).nodes.length =
      (buildL (GraphNew m ec es) levels vecs).nodes.length + 1 ∧
    (((buildL (GraphNew m ec es) levels vecs).insertL v level).node
      (buildL (GraphNew m ec es) levels vecs).nodes.length).vec = v := by
  have hmap : (buildL (GraphNew m ec es) levels vecs).nodes.map (·.vec) = vecs := by
    unfold buildL
    rw [buildAux_map_vec]
    simp [GraphNew]
  have hlen : (buildL (GraphNew m ec es) levels vecs).nodes.length = vecs.length := by
    have := congrArg List.length hmap
    simpa using this
  have hed : establishedDim (buildL (GraphNew m ec es) levels vecs) = d := by
    have hne : vecs ≠ [] := by
      intro hv
      have hl0 : vecs.length = 0 := by rw [hv]; rfl
      omega
    have h2 : (((buildL (GraphNew m ec es) levels vecs).nodes.map (·.vec)).getD 0 []) =
        (((buildL (GraphNew m ec es) levels vecs).nodes.getD 0 default).vec) :=
      List.getD_map (l := (buildL (GraphNew m ec es) levels vecs).nodes)
        (d := (default : Node)) (n := 0) (f := fun nd : Node => nd.vec)
    show ((buildL (GraphNew m ec es) levels vecs).node 0).vec.length = d
    simp only [Graph.node]
    rw [← h2, hmap]
    obtain ⟨w, rest, hv⟩ := List.exists_cons_of_ne_nil hne
    rw [hv, List.getD_cons_zero]
    exact hvecs w (by rw [hv]; exact List.mem_cons_self _ _)
  obtain ⟨hl, hs⟩ := insertL_stores (buildL (GraphNew m ec es) levels vecs) v level
  exact ⟨by rw [hed]; omega, hl, hs⟩

/-- Witness for C3's amended theorem: a prune-free mismatched (shorter)
insert into a one-node graph of dimension 3, built from a fresh graph. -/
theorem c3_insert_unchecked_witness :
    ((∀ w ∈ ([[1, 0, 0]] : List (List ℚ)), w.length = 3) ∧
      0 < (buildL (GraphNew 16 200 50) (fun _ => 0) [[1, 0, 0]]).nodes.length ∧
      ([1, 0] : List ℚ).length < 3 ∧
      ((buildL (GraphNew 16 200 50) (fun _ => 0) [[1, 0, 0]]).insertLeveled [1, 0] 0).2 =
        false) ∧
    (([1, 0] : List ℚ).length ≠
        establishedDim (buildL (GraphNew 16 200 50) (fun _ => 0) [[1, 0, 0]]) ∧
      ((buildL (GraphNew 16 200 50) (fun _ => 0) [[1, 0, 0]]).insertL [1, 0] 0).nodes.length =
        (buildL (GraphNew 16 200 50) (fun _ => 0) [[1, 0, 0]]).nodes.length + 1 ∧
      (((buildL (GraphNew 16 200 50) (fun _ => 0) [[1, 0, 0]]).insertL [1, 0] 0).node
        (buildL (GraphNew 16 200 50) (fun _ => 0) [[1, 0, 0]]).nodes.length).vec = [1, 0]) :=
  ⟨⟨by decide, by with_unfolding_all decide, by decide, by with_unfolding_all decide⟩,
   c3_insert_unchecked 16 200 50 (fun _ => 0) [[1, 0, 0]] 3 [1, 0] 0 (by decide)
     (by with_unfolding_all decide) (by decide) (by with_unfolding_all decide)⟩

theorem listModify_eq_self {α : Type} [Inhabited α] :
    ∀ (l : List α) (j : ℕ) (f : α → α), f (l.getD j default) = l.getD j default →
      listModify l j f = l := by
  intro l
  induction l with
  | nil => intro j f _; rfl
  | cons x xs ih =>
    intro j f h
    cases j with
    | zero => simpa [listModify] using h
    | succ j' => simp [listModify, ih j' f (by simpa using h)]

theorem nbrs_setNbrsAt_self (g : Graph) (j lc : ℕ) (v : List ℕ)
    (h : inRangeN g j lc) : (setNbrsAt g j lc v).nbrs j lc = v := by
  obtain ⟨hj, hlc⟩ := h
  simp only [setNbrsAt, Graph.nbrs, Graph.node] at *
  rw [getD_listModify_self _ _ _ hj]
  simp only [List.getD_eq_getElem?_getD]
  rw [List.getElem?_set_self (by simpa using hlc)]
  rfl

theorem setNbrsAt_noop (g : Graph) (j lc : ℕ) (v : List ℕ)
    (h : ¬ inRangeN g j lc) : setNbrsAt g j lc v = g := by
  by_cases hj : j < g.nodes.length
  · have hlen : (g.nodes.getD j default).neighbors.length ≤ lc := by
      simp only [inRangeN, not_and, not_lt] at h
      exact h hj
    simp only [setNbrsAt]
    rw [listModify_eq_self g.nodes j _ (by rw [List.set_eq_of_length_le hlen])]
  · simp only [setNbrsAt]
    rw [listModify_ge _ _ _ (by omega)]

theorem nbrs_setNbrsAt_ne (g : Graph) (j lc : ℕ) (v : List ℕ) (i lc' : ℕ)
    (h : i ≠ j ∨ lc' ≠ lc) : (setNbrsAt g j lc v).nbrs i lc' = g.nbrs i lc' := by
  rcases h with hij | hlc
  · simp only [setNbrsAt, Graph.nbrs, Graph.node]
    rw [getD_listModify_ne _ _ _ _ hij]
  · by_cases hij : i = j
    · subst hij
      by_cases hi : i < g.nodes.length
      · simp only [setNbrsAt, Graph.nbrs, Graph.node]
        rw [getD_listModify_self _ _ _ hi]
        simp only [List.getD_eq_getElem?_getD]
        rw [List.getElem?_set_ne (by omega)]
      · simp only [setNbrsAt, Graph.nbrs, Graph.node]
        rw [listModify_ge _ _ _ (by omega)]
    · simp only [setNbrsAt, Graph.nbrs, Graph.node]
      rw [getD_listModify_ne _ _ _ _ hij]

theorem layerCount_setNbrsAt (g : Graph) (j lc : ℕ) (v : List ℕ) (i : ℕ) :
    (setNbrsAt g j lc v).layerCount i = g.layerCount i := by
  by_cases hij : i = j
  · subst hij
    by_cases hi : i < g.nodes.length
    · simp only [setNbrsAt, Graph.layerCount, Graph.node]
      rw [getD_listModify_self _ _ _ hi]
      simp
    · simp only [setNbrsAt, Graph.layerCount, Graph.node]
      rw [listModify_ge _ _ _ (by omega)]
  · simp only [setNbrsAt, Graph.layerCount, Graph.node]
    rw [getD_listModify_ne _ _ _ _ hij]

theorem inRangeN_setNbrsAt (g : Graph) (j lc : ℕ) (v : List ℕ) (i lc' : ℕ) :
    inRangeN (setNbrsAt g j lc v) i lc' ↔ inRangeN g i lc' := by
  have hn : (setNbrsAt g j lc v).nodes.length = g.nodes.length := by
    obtain ⟨ns, h, hl, _⟩ := setNbrsAt_spec g j lc v
    rw [h]; exact hl
  have hc := layerCount_setNbrsAt g j lc v i
  simp only [inRangeN, Graph.layerCount] at *
  rw [hn, hc]

theorem nbrs_appendNbr_self (g : Graph) (nb lc id : ℕ) (h : inRangeN g nb lc) :
    (appendNbr g nb lc id).nbrs nb lc = g.nbrs nb lc ++ [id] :=
  nbrs_setNbrsAt_self g nb lc (g.nbrs nb lc ++ [id]) h

theorem nbrs_appendNbr_ne (g : Graph) (nb lc id i lc' : ℕ) (h : i ≠ nb ∨ lc' ≠ lc) :
    (appendNbr g nb lc id).nbrs i lc' = g.nbrs i lc' :=
  nbrs_setNbrsAt_ne g nb lc (g.nbrs nb lc ++ [id]) i lc' h

theorem appendNbr_noop (g : Graph) (nb lc id : ℕ) (h : ¬ inRangeN g nb lc) :
    appendNbr g nb lc id = g :=
  setNbrsAt_noop g nb lc (g.nbrs nb lc ++ [id]) h

theorem inRangeN_appendNbr (g : Graph) (nb lc id i lc' : ℕ) :
    inRangeN (appendNbr g nb lc id) i lc' ↔ inRangeN g i lc' :=
  inRangeN_setNbrsAt g nb lc (g.nbrs nb lc ++ [id]) i lc'

theorem pruneF_length (vecf : ℕ → List ℚ) (selfVec : List ℚ) (nbs : List ℕ)
    (maxConn : ℕ) : (pruneF vecf selfVec nbs maxConn).length ≤ maxConn := by
  simp only [pruneF, List.length_map, List.length_take]
  omega

theorem selectNeighbours_length (cands : List Cand) (m : ℕ) :
    (selectNeighbours cands m).length ≤ m := by
  simp only [selectNeighbours, List.length_map, List.length_take]
  omega

theorem backlinkAll_cap (id lc mc : ℕ) :
    ∀ (sel : List ℕ) (g : Graph), (∀ i, (g.nbrs i lc).length ≤ mc) →
      ∀ i, (((backlinkAll id lc mc sel g).1).nbrs i lc).length ≤ mc := by
  intro sel
  induction sel with
  | nil => intro g h i; exact h i
  | cons nb rest ih =>
    intro g h i
    by_cases hcap : mc < ((appendNbr g nb lc id).nbrs nb lc).length
    · have hr : inRangeN g nb lc := by
        by_contra hr
        have hnoop : appendNbr g nb lc id = g := setNbrsAt_noop g nb lc _ hr
        rw [hnoop] at hcap
        exact absurd (h nb) (by omega)
      have hr1 : inRangeN (appendNbr g nb lc id) nb lc :=
        (inRangeN_setNbrsAt g nb lc _ nb lc).mpr hr
      have hmid : ∀ i', ((setNbrsAt (appendNbr g nb lc id) nb lc
          (pruneF (appendNbr g nb lc id).vecOf ((appendNbr g nb lc id).vecOf nb)
            ((appendNbr g nb lc id).nbrs nb lc) mc)).nbrs i' lc).length ≤ mc := by
        intro i'
        by_cases hi : i' = nb
        · subst hi
          rw [nbrs_setNbrsAt_self _ _ _ _ hr1]
          exact pruneF_length _ _ _ _
        · rw [nbrs_setNbrsAt_ne _ _ _ _ _ _ (Or.inl hi)]
          rw [nbrs_appendNbr_ne _ _ _ _ _ _ (Or.inl hi)]
          exact h i'
      have := ih _ hmid i
      simpa only [backlinkAll, hcap, if_pos] using this
    · have hmid : ∀ i', ((appendNbr g nb lc id).nbrs i' lc).length ≤ mc := by
        intro i'
        by_cases hi : i' = nb
        · subst hi; omega
        · rw [nbrs_appendNbr_ne _ _ _ _ _ _ (Or.inl hi)]
          exact h i'
      have := ih _ hmid i
      simpa only [backlinkAll, hcap, if_neg, not_false_iff] using this

theorem backlinkAll_nbrs_ne (id lc mc : ℕ) :
    ∀ (sel : List ℕ) (g : Graph) (i lc' : ℕ), lc' ≠ lc →
      ((backlinkAll id lc mc sel g).1).nbrs i lc' = g.nbrs i lc' := by
  intro sel
  induction sel with
  | nil => intro g i lc' _; rfl
  | cons nb rest ih =>
    intro g i lc' hne
    by_cases hcap : mc < ((appendNbr g nb lc id).nbrs nb lc).length
    · have := ih (setNbrsAt (appendNbr g nb lc id) nb lc
        (pruneF (appendNbr g nb lc id).vecOf ((appendNbr g nb lc id).vecOf nb)
          ((appendNbr g nb lc id).nbrs nb lc) mc)) i lc' hne
      rw [nbrs_setNbrsAt_ne _ _ _ _ _ _ (Or.inr hne),
          nbrs_appendNbr_ne _ _ _ _ _ _ (Or.inr hne)] at this
      simpa only [backlinkAll, hcap, if_pos] using this
    · have := ih (appendNbr g nb lc id) i lc' hne
      rw [nbrs_appendNbr_ne _ _ _ _ _ _ (Or.inr hne)] at this
      simpa only [backlinkAll, hcap, if_neg, not_false_iff] using this

theorem insertStep_m (v : List ℚ) (id lc : ℕ) (g : Graph) (ep : ℕ) :
    (insertStep v id lc g ep).1.1.m = g.m := by
  obtain ⟨ns, h, _, _⟩ := insertStep_spec v id lc g ep
  rw [h]

theorem insertStep_cap (v : List ℚ) (id lc : ℕ) (g : Graph) (ep : ℕ)
    (h : ∀ i lc', (g.nbrs i lc').length ≤ (if lc' = 0 then 2 * g.m else g.m)) :
    ∀ i lc', (((insertStep v id lc g ep).1.1).nbrs i lc').length ≤
      (if lc' = 0 then 2 * g.m else g.m) := by
  intro i lc'
  simp only [insertStep]
  have hsel : ∀ i', ((setNbrsAt g id lc
      (selectNeighbours (g.searchLayer v ep g.efConstruction lc) g.m)).nbrs i' lc).length ≤
      (if lc = 0 then 2 * g.m else g.m) := by
    intro i'
    by_cases hi : i' = id
    · subst hi
      by_cases hr : inRangeN g i' lc
      · rw [nbrs_setNbrsAt_self _ _ _ _ hr]
        have := selectNeighbours_length (g.searchLayer v ep g.efConstruction lc) g.m
        split_ifs <;> omega
      · rw [setNbrsAt_noop _ _ _ _ hr]
        exact h i' lc
    · rw [nbrs_setNbrsAt_ne _ _ _ _ _ _ (Or.inl hi)]
      exact h i' lc
  by_cases hlc : lc' = lc
  · subst hlc
    exact backlinkAll_cap id lc' _ _ _ hsel i
  · rw [backlinkAll_nbrs_ne _ _ _ _ _ _ _ hlc]
    rw [nbrs_setNbrsAt_ne _ _ _ _ _ _ (Or.inr hlc)]
    exact h i lc'

theorem insertLoop_m (v : List ℚ) (id lc : ℕ) (g : Graph) (ep : ℕ) :
    (insertLoop v id lc g ep).1.m = g.m := by
  obtain ⟨ns, h, _, _⟩ := insertLoop_spec v id lc g ep
  rw [h]

theorem insertLoop_cap (v : List ℚ) (id : ℕ) :
    ∀ (lc : ℕ) (g : Graph) (ep : ℕ),
      (∀ i lc', (g.nbrs i lc').length ≤ (if lc' = 0 then 2 * g.m else g.m)) →
      ∀ i lc', (((insertLoop v id lc g ep).1).nbrs i lc').length ≤
        (if lc' = 0 then 2 * g.m else g.m) := by
  intro lc
  induction lc with
  | zero =>
    intro g ep h i lc'
    simpa only [insertLoop] using insertStep_cap v id 0 g ep h i lc'
  | succ lc0 ih =>
    intro g ep h i lc'
    have hstep := insertStep_cap v id (lc0 + 1) g ep h
    have hm := insertStep_m v id (lc0 + 1) g ep
    rw [← hm] at hstep
    have := ih (insertStep v id (lc0 + 1) g ep).1.1 (insertStep v id (lc0 + 1) g ep).2
      hstep i lc'
    rw [hm] at this
    simpa only [insertLoop] using this

theorem nbrs_append_lt (g : Graph) (nd : Node) (i lc : ℕ) (h : i < g.nodes.length) :
    ({ g with nodes := g.nodes ++ [nd] } : Graph).nbrs i lc = g.nbrs i lc := by
  simp only [Graph.nbrs, Graph.node]
  rw [List.getD_append _ _ _ _ h]

theorem nbrs_replicate_empty (g : Graph) (level : ℕ) (v : List ℚ) (lc : ℕ) :
    ({ g with nodes := g.nodes ++ [⟨List.replicate (level + 1) [], v⟩] } : Graph).nbrs
      g.nodes.length lc = [] := by
  simp only [Graph.nbrs, Graph.node]
  rw [List.getD_append_right _ _ _ _ (le_refl _)]
  simp only [Nat.sub_self, List.getD_cons_zero]
  simp only [List.getD_eq_getElem?_getD, List.getElem?_replicate]
  split_ifs <;> rfl

theorem nbrs_ge (g : Graph) (i lc : ℕ) (h : g.nodes.length ≤ i) : g.nbrs i lc = [] := by
  simp only [Graph.nbrs, Graph.node]
  rw [List.getD_eq_default _ _ h]
  rfl

theorem insertLeveled_cap (g : Graph) (v : List ℚ) (level : ℕ)
    (h : ∀ i lc, (g.nbrs i lc).length ≤ (if lc = 0 then 2 * g.m else g.m)) :
    ∀ i lc, (((g.insertLeveled v level).1).nbrs i lc).length ≤
      (if lc = 0 then 2 * g.m else g.m) := by
  intro i lc
  have hg1 : ∀ i lc, (({ g with nodes := g.nodes ++ [⟨List.replicate (level + 1) [], v⟩] } :
      Graph).nbrs i lc).length ≤ (if lc = 0 then 2 * g.m else g.m) := by
    intro i lc
    rcases lt_trichotomy i g.nodes.length with hi | hi | hi
    · rw [nbrs_append_lt _ _ _ _ hi]; exact h i lc
    · subst hi; rw [nbrs_replicate_empty]; simp
    · rw [nbrs_ge _ _ _ (by simp; omega)]; simp
  simp only [Graph.insertLeveled]
  by_cases h0 : g.nodes.length = 0
  · simp only [h0, if_pos]
    exact hg1 i lc
  · simp only [h0, if_neg, not_false_iff]
    have hloop := insertLoop_cap v g.nodes.length (min level g.maxLayer)
      { g with nodes := g.nodes ++ [⟨List.replicate (level + 1) [], v⟩] }
      (Graph.descend { g with nodes := g.nodes ++ [⟨List.replicate (level + 1) [], v⟩] }
        v g.maxLayer level g.entryPoint) hg1 i lc
    by_cases hlev : g.maxLayer < level
    · simp only [hlev, if_pos]
      exact hloop
    · simp only [hlev, if_neg, not_false_iff]
      exact hloop

theorem insertLeveled_m (g : Graph) (v : List ℚ) (level : ℕ) :
    (g.insertLeveled v level).1.m = g.m :=
  (insertLeveled_spec g v level).2.2.1

theorem buildAux_cap (levels : ℕ → ℕ) :
    ∀ (vecs : List (List ℚ)) (i0 : ℕ) (g : Graph),
      (∀ i lc, (g.nbrs i lc).length ≤ (if lc = 0 then 2 * g.m else g.m)) →
      ∀ i lc, (((buildAux levels vecs i0 g).1).nbrs i lc).length ≤
        (if lc = 0 then 2 * g.m else g.m) := by
  intro vecs
  induction vecs with
  | nil => intro i0 g h i lc; exact h i lc
  | cons v vs ih =>
    intro i0 g h i lc
    have hstep := insertLeveled_cap g v (levels i0) h
    have hm := insertLeveled_m g v (levels i0)
    rw [← hm] at hstep
    have := ih (i0 + 1) (g.insertLeveled v (levels i0)).1 hstep i lc
    rw [hm] at this
    simpa only [buildAux] using this

/-- C5: after any completed sequence of inserts into a fresh graph (any
vectors, any level draws), every node's layer-`lc` neighbour list has at
most `m` entries for `lc > 0` and at most `2·m` entries for `lc = 0`:
the new node receives at most `m` neighbours per layer
(`selectNeighbours`), and every back-link that overflows a list is
immediately pruned back to the layer capacity (hnsw.go:141-148). -/
theorem c5_capacity_bound (m ec es : ℤ) (levels : ℕ → ℕ) (vecs : List (List ℚ)) :
    ∀ i lc, ((buildL (GraphNew m ec es) levels vecs).nbrs i lc).length ≤
      (if lc = 0 then 2 * (buildL (GraphNew m ec es) levels vecs).m
       else (buildL (GraphNew m ec es) levels vecs).m) := by
  intro i lc
  have hbase : ∀ i lc, ((GraphNew m ec es).nbrs i lc).length ≤
      (if lc = 0 then 2 * (GraphNew m ec es).m else (GraphNew m ec es).m) := by
    intro i lc
    rw [nbrs_ge _ _ _ (by simp [GraphNew])]
    simp
  have hm : (buildL (GraphNew m ec es) levels vecs).m = (GraphNew m ec es).m := by
    unfold buildL
    generalize (GraphNew m ec es) = g0
    suffices hsuf : ∀ (vs : List (List ℚ)) (i0 : ℕ) (g : Graph),
        (buildAux levels vs i0 g).1.m = g.m by exact hsuf vecs 0 g0
    intro vs
    induction vs with
    | nil => intro i0 g; rfl
    | cons v vs2 ih =>
      intro i0 g
      simpa only [buildAux, insertLeveled_m] using
        (ih (i0 + 1) (g.insertLeveled v (levels i0)).1).trans (insertLeveled_m g v (levels i0))
  rw [hm]
  exact buildAux_cap levels vecs 0 (GraphNew m ec es) hbase i lc

/-! ## Membership lemmas for the search and prune machinery -/

theorem extractMaxBy_perm {α : Type} (key : α → ℚ) :
    ∀ (l : List α) (c : α) (r : List α),
      extractMaxBy key l = some (c, r) → l.Perm (c :: r) := by
  intro l
  induction l with
  | nil => intro c r h; simp [extractMaxBy] at h
  | cons x xs ih =>
    intro c r h
    simp only [extractMaxBy] at h
    cases hx : extractMaxBy key xs with
    | none =>
      rw [hx] at h
      cases xs with
      | nil => simp at h; simp [h.1, h.2]
      | cons y ys => exact absurd hx (extractMaxBy_ne_none key y ys)
    | some p =>
      rw [hx] at h
      obtain ⟨mx, rest'⟩ := p
      by_cases hlt : key x < key mx
      · simp [hlt] at h
        obtain ⟨hc, hr⟩ := h
        subst hc; subst hr
        have hp := ih mx rest' hx
        exact (hp.cons x).trans (List.Perm.swap mx x rest')
      · simp [hlt] at h
        obtain ⟨hc, hr⟩ := h
        subst hc; subst hr
        exact List.Perm.refl _

theorem sortByDescAux_perm {α : Type} (key : α → ℚ) :
    ∀ (n : ℕ) (l : List α), l.length ≤ n → l.Perm (sortByDescAux key n l) := by
  intro n
  induction n with
  | zero =>
    intro l hl
    have hnil : l = [] := List.length_eq_zero.mp (by omega)
    subst hnil
    simp [sortByDescAux]
  | succ n ih =>
    intro l hl
    cases l with
    | nil => simp [sortByDescAux, extractMaxBy]
    | cons x xs =>
      simp only [sortByDescAux]
      cases hx : extractMaxBy key (x :: xs) with
      | none => exact absurd hx (extractMaxBy_ne_none key x xs)
      | some p =>
        obtain ⟨c, rest⟩ := p
        have hperm := extractMaxBy_perm key (x :: xs) c rest hx
        have hlen := extractMaxBy_length key (x :: xs) c rest hx
        have hrec := ih rest (by simp at hl hlen ⊢; omega)
        exact hperm.trans (hrec.cons c)

theorem sortByDesc_perm {α : Type} (key : α → ℚ) (l : List α) :
    l.Perm (sortByDesc key l) :=
  sortByDescAux_perm key l.length l (le_refl _)

theorem mem_sortByDesc {α : Type} (key : α → ℚ) (l : List α) (a : α) :
    a ∈ sortByDesc key l ↔ a ∈ l :=
  ⟨fun h => (sortByDesc_perm key l).mem_iff.mpr h,
   fun h => (sortByDesc_perm key l).mem_iff.mp h⟩

/-- Elements surviving `pruneNeighbours` come from the input list. -/
theorem pruneF_subset (vecf : ℕ → List ℚ) (selfVec : List ℚ) (nbs : List ℕ)
    (maxConn : ℕ) (b : ℕ) (h : b ∈ pruneF vecf selfVec nbs maxConn) : b ∈ nbs := by
  simp only [pruneF, List.mem_map] at h
  obtain ⟨c, hc, hcb⟩ := h
  have hc2 : c ∈ sortByDesc Cand.dist (nbs.map fun n => Cand.mk n (sim selfVec (vecf n))) :=
    List.mem_of_mem_take hc
  rw [mem_sortByDesc] at hc2
  simp only [List.mem_map] at hc2
  obtain ⟨n, hn, hnc⟩ := hc2
  subst hcb
  rw [← hnc]
  exact hn

/-- Everything `slVisit` adds to the state carries an id from the visited
neighbour list. -/
theorem slVisit_ids (vecf : ℕ → List ℚ) (q : List ℚ) (ef : ℕ) (P : ℕ → Prop) :
    ∀ (nbs : List ℕ) (st : SLState),
      (∀ b ∈ nbs, P b) →
      (∀ c ∈ st.cpool, P c.id) → (∀ c ∈ st.w, P c.id) →
      (∀ c ∈ (slVisit vecf q ef nbs st).cpool, P c.id) ∧
      (∀ c ∈ (slVisit vecf q ef nbs st).w, P c.id) := by
  intro nbs
  induction nbs with
  | nil => intro st _ hC hW; exact ⟨hC, hW⟩
  | cons nb rest ih =>
    intro st hnbs hC hW
    simp only [slVisit]
    by_cases hv : st.visited.contains nb
    · simp only [hv, if_pos]
      exact ih st (fun b hb => hnbs b (List.mem_cons_of_mem _ hb)) hC hW
    · simp only [hv, if_neg, not_false_iff, Bool.false_eq_true]
      by_cases hpush : st.w.length < ef ∨ st.worst < sim q (vecf nb)
      · simp only [hpush, if_pos]
        refine ih _ (fun b hb => hnbs b (List.mem_cons_of_mem _ hb)) ?_ ?_
        · intro c hc
          simp only [List.mem_append, List.mem_singleton] at hc
          rcases hc with hc | hc
          · exact hC c hc
          · subst hc; exact hnbs nb (List.mem_cons_self _ _)
        · intro c hc
          have hbase : ∀ c' ∈ st.w ++ [Cand.mk nb (sim q (vecf nb))], P c'.id := by
            intro c' hc'
            simp only [List.mem_append, List.mem_singleton] at hc'
            rcases hc' with hc' | hc'
            · exact hW c' hc'
            · subst hc'; exact hnbs nb (List.mem_cons_self _ _)
          by_cases hover : ef < (st.w ++ [Cand.mk nb (sim q (vecf nb))]).length
          · simp only [hover, if_pos] at hc
            -- swap-removal keeps a sublist of the original plus its own last element
            have hmem : c ∈ (st.w ++ [Cand.mk nb (sim q (vecf nb))]).set
                (firstMinIdx (st.w ++ [Cand.mk nb (sim q (vecf nb))]))
                ((st.w ++ [Cand.mk nb (sim q (vecf nb))]).getLastD (Cand.mk 0 0)) :=
              List.mem_of_mem_dropLast hc
            rcases List.mem_or_eq_of_mem_set hmem with hmem2 | hmem2
            · exact hbase c hmem2
            · subst hmem2
              cases hwl : st.w ++ [Cand.mk nb (sim q (vecf nb))] with
              | nil => simp at hwl
              | cons z zs =>
                have hin : (z :: zs).getLastD (Cand.mk 0 0) ∈ z :: zs := by
                  rw [List.getLastD_eq_getLast?]
                  cases hlast : (z :: zs).getLast? with
                  | none => simp at hlast
                  | some w =>
                    simp only [Option.getD_some]
                    exact List.mem_of_getLast?_eq_some hlast
                rw [← hwl] at hin ⊢
                exact hbase _ hin
          · simp only [hover, if_neg, not_false_iff] at hc
            exact hbase c hc
      · simp only [hpush, if_neg, not_false_iff]
        exact ih _ (fun b hb => hnbs b (List.mem_cons_of_mem _ hb)) hC hW

/-- Every id `slLoop` returns is the start point or occurs in some
adjacency list. -/
theorem slLoop_ids (adj : ℕ → List ℕ) (vecf : ℕ → List ℚ) (q : List ℚ) (ef : ℕ)
    (P : ℕ → Prop) (hadj : ∀ i b, b ∈ adj i → P b) :
    ∀ (fuel : ℕ) (st : SLState),
      (∀ c ∈ st.cpool, P c.id) → (∀ c ∈ st.w, P c.id) →
      ∀ c ∈ slLoop adj vecf q ef fuel st, P c.id := by
  intro fuel
  induction fuel with
  | zero =>
    intro st _ hW c hc
    simp only [slLoop] at hc
    rw [mem_sortByDesc] at hc
    exact hW c hc
  | succ fuel ih =>
    intro st hC hW c hc
    simp only [slLoop] at hc
    cases hx : extractMaxBy Cand.dist st.cpool with
    | none =>
      rw [hx] at hc
      rw [mem_sortByDesc] at hc
      exact hW c hc
    | some p =>
      obtain ⟨cm, rest⟩ := p
      rw [hx] at hc
      have hc2 : c ∈ (if ef ≤ st.w.length ∧ cm.dist < st.worst
          then sortByDesc Cand.dist st.w
          else slLoop adj vecf q ef fuel
            (slVisit vecf q ef (adj cm.id) { st with cpool := rest })) := hc
      by_cases hbrk : ef ≤ st.w.length ∧ cm.dist < st.worst
      · rw [if_pos hbrk] at hc2
        rw [mem_sortByDesc] at hc2
        exact hW c hc2
      · rw [if_neg hbrk] at hc2
        have hrest : ∀ c' ∈ rest, P c'.id := by
          intro c' hc'
          exact hC c' ((extractMaxBy_perm Cand.dist st.cpool cm rest hx).mem_iff.mpr
            (List.mem_cons_of_mem _ hc'))
        obtain ⟨hC2, hW2⟩ := slVisit_ids vecf q ef P (adj cm.id)
          { st with cpool := rest } (fun b hb => hadj cm.id b hb) hrest hW
        exact ih _ hC2 hW2 c hc2

/-- The ids returned by `searchLayerF` satisfy any predicate holding of
the start point and of all adjacency entries. -/
theorem searchLayerF_ids (adj : ℕ → List ℕ) (vecf : ℕ → List ℚ) (q : List ℚ)
    (ep ef fuel : ℕ) (P : ℕ → Prop) (hadj : ∀ i b, b ∈ adj i → P b) (hep : P ep) :
    ∀ c ∈ searchLayerF adj vecf q ep ef fuel, P c.id := by
  intro c hc
  refine slLoop_ids adj vecf q ef P hadj fuel _ ?_ ?_ c hc
  · intro c' hc'
    simp only [List.mem_singleton] at hc'
    subst hc'; exact hep
  · intro c' hc'
    simp only [List.mem_singleton] at hc'
    subst hc'; exact hep

/-- The id returned by the greedy hill climb satisfies any predicate
holding of the start point and of all adjacency entries. -/
theorem greedyScan_ids (vecf : ℕ → List ℚ) (q : List ℚ) (P : ℕ → Prop) :
    ∀ (nbs : List ℕ) (best : ℕ) (bestSim : ℚ) (ch : Bool),
      (∀ b ∈ nbs, P b) → P best →
      P (greedyScan vecf q nbs (best, bestSim, ch)).1 := by
  intro nbs
  induction nbs with
  | nil => intro best bestSim ch _ hb; exact hb
  | cons nb rest ih =>
    intro best bestSim ch hnbs hb
    simp only [greedyScan]
    by_cases hlt : bestSim < sim q (vecf nb)
    · simp only [hlt, if_pos]
      exact ih nb _ true (fun b hb2 => hnbs b (List.mem_cons_of_mem _ hb2))
        (hnbs nb (List.mem_cons_self _ _))
    · simp only [hlt, if_neg, not_false_iff]
      exact ih best _ ch (fun b hb2 => hnbs b (List.mem_cons_of_mem _ hb2)) hb

theorem greedyF_ids (adj : ℕ → List ℕ) (vecf : ℕ → List ℚ) (q : List ℚ)
    (P : ℕ → Prop) (hadj : ∀ i b, b ∈ adj i → P b) :
    ∀ (fuel : ℕ) (best : ℕ) (bestSim : ℚ), P best →
      P (greedyF adj vecf q fuel best bestSim) := by
  intro fuel
  induction fuel with
  | zero => intro best bestSim hb; exact hb
  | succ fuel ih =>
    intro best bestSim hb
    simp only [greedyF]
    have hscan := greedyScan_ids vecf q P (adj best) best bestSim false
      (fun b hb2 => hadj best b hb2) hb
    cases hg : greedyScan vecf q (adj best) (best, bestSim, false) with
    | mk b rest =>
      obtain ⟨s, ch⟩ := rest
      rw [hg] at hscan
      by_cases hch : ch
      · simp only [hch, if_pos]
        exact ih b s hscan
      · simp only [hch, if_neg, not_false_iff]
        exact hb

theorem descendAux_ids (g : Graph) (q : List ℚ) (P : ℕ → Prop)
    (hadj : ∀ i lc b, b ∈ g.nbrs i lc → P b) :
    ∀ (lo cnt ep : ℕ), P ep → P (descendAux g q lo cnt ep) := by
  intro lo cnt
  induction cnt with
  | zero => intro ep hep; exact hep
  | succ cnt ih =>
    intro ep hep
    simp only [descendAux]
    exact ih _ (greedyF_ids (fun i => g.nbrs i (lo + cnt + 1)) g.vecOf q P
      (fun i b hb => hadj i (lo + cnt + 1) b hb) (g.layerSize (lo + cnt + 1) + 2) ep
      (sim q (g.vecOf ep)) hep)

/-- Membership in a `setNbrsAt` list: the entry was there before or is in
the written list. -/
theorem mem_nbrs_setNbrsAt (g : Graph) (j lc : ℕ) (v : List ℕ) (a lc' b : ℕ)
    (h : b ∈ (setNbrsAt g j lc v).nbrs a lc') : b ∈ g.nbrs a lc' ∨ b ∈ v := by
  by_cases hij : a = j
  · by_cases hlc : lc' = lc
    · by_cases hr : inRangeN g j lc
      · rw [hij, hlc] at h
        rw [nbrs_setNbrsAt_self g j lc v hr] at h
        exact Or.inr h
      · rw [setNbrsAt_noop g j lc v hr] at h
        exact Or.inl h
    · rw [nbrs_setNbrsAt_ne g j lc v a lc' (Or.inr hlc)] at h
      exact Or.inl h
  · rw [nbrs_setNbrsAt_ne g j lc v a lc' (Or.inl hij)] at h
    exact Or.inl h

theorem mem_nbrs_appendNbr (g : Graph) (nb lc id a lc' b : ℕ)
    (h : b ∈ (appendNbr g nb lc id).nbrs a lc') :
    (∃ a2 lc2, b ∈ g.nbrs a2 lc2) ∨ b = id := by
  rcases mem_nbrs_setNbrsAt g nb lc (g.nbrs nb lc ++ [id]) a lc' b h with h2 | h2
  · exact Or.inl ⟨a, lc', h2⟩
  · simp only [List.mem_append, List.mem_singleton] at h2
    rcases h2 with h2 | h2
    · exact Or.inl ⟨nb, lc, h2⟩
    · exact Or.inr h2

/-- Membership after the back-link loop: the entry occurred somewhere in
the graph before, or is the inserted id (pruning only removes entries;
appends only add `id`). -/
theorem mem_nbrs_backlinkAll (id lc mc : ℕ) :
    ∀ (sel : List ℕ) (g : Graph) (a lc' b : ℕ),
      b ∈ ((backlinkAll id lc mc sel g).1).nbrs a lc' →
      (∃ a2 lc2, b ∈ g.nbrs a2 lc2) ∨ b = id := by
  intro sel
  induction sel with
  | nil => intro g a lc' b h; exact Or.inl ⟨a, lc', h⟩
  | cons nb rest ih =>
    intro g a lc' b h
    by_cases hcap : mc < ((appendNbr g nb lc id).nbrs nb lc).length
    · simp only [backlinkAll, hcap, if_pos] at h
      rcases ih _ a lc' b h with ⟨a2, lc2, h2⟩ | h2
      · rcases mem_nbrs_setNbrsAt (appendNbr g nb lc id) nb lc
          (pruneF (appendNbr g nb lc id).vecOf ((appendNbr g nb lc id).vecOf nb)
            ((appendNbr g nb lc id).nbrs nb lc) mc) a2 lc2 b h2 with h3 | h3
        · exact mem_nbrs_appendNbr g nb lc id a2 lc2 b h3
        · have h4 := pruneF_subset _ _ _ _ b h3
          exact mem_nbrs_appendNbr g nb lc id nb lc b h4
      · exact Or.inr h2
    · simp only [backlinkAll, hcap, if_neg, not_false_iff] at h
      rcases ih _ a lc' b h with ⟨a2, lc2, h2⟩ | h2
      · exact mem_nbrs_appendNbr g nb lc id a2 lc2 b h2
      · exact Or.inr h2

/-- Layer-`lc` membership after the back-link loop stays at layer `lc`:
the entry was in some layer-`lc` list before, or is the inserted id. -/
theorem mem_nbrs_backlinkAll_layer (id lc mc : ℕ) :
    ∀ (sel : List ℕ) (g : Graph) (a b : ℕ),
      b ∈ ((backlinkAll id lc mc sel g).1).nbrs a lc →
      (∃ a2, b ∈ g.nbrs a2 lc) ∨ b = id := by
  intro sel
  induction sel with
  | nil => intro g a b h; exact Or.inl ⟨a, h⟩
  | cons nb rest ih =>
    intro g a b h
    have happ : ∀ (a2 b2 : ℕ), b2 ∈ (appendNbr g nb lc id).nbrs a2 lc →
        (∃ a3, b2 ∈ g.nbrs a3 lc) ∨ b2 = id := by
      intro a2 b2 h2
      rcases mem_nbrs_setNbrsAt g nb lc (g.nbrs nb lc ++ [id]) a2 lc b2 h2 with h3 | h3
      · exact Or.inl ⟨a2, h3⟩
      · simp only [List.mem_append, List.mem_singleton] at h3
        rcases h3 with h3 | h3
        · exact Or.inl ⟨nb, h3⟩
        · exact Or.inr h3
    by_cases hcap : mc < ((appendNbr g nb lc id).nbrs nb lc).length
    · simp only [backlinkAll, hcap, if_pos] at h
      rcases ih _ a b h with ⟨a2, h2⟩ | h2
      · rcases mem_nbrs_setNbrsAt (appendNbr g nb lc id) nb lc
          (pruneF (appendNbr g nb lc id).vecOf ((appendNbr g nb lc id).vecOf nb)
            ((appendNbr g nb lc id).nbrs nb lc) mc) a2 lc b h2 with h3 | h3
        · exact happ a2 b h3
        · exact happ nb b (pruneF_subset _ _ _ _ b h3)
      · exact Or.inr h2
    · simp only [backlinkAll, hcap, if_neg, not_false_iff] at h
      rcases ih _ a b h with ⟨a2, h2⟩ | h2
      · exact happ a2 b h2
      · exact Or.inr h2

theorem layerCount_appendNbr (g : Graph) (nb lc id i : ℕ) :
    (appendNbr g nb lc id).layerCount i = g.layerCount i :=
  layerCount_setNbrsAt g nb lc (g.nbrs nb lc ++ [id]) i

theorem layerCount_backlinkAll (id lc mc : ℕ) :
    ∀ (sel : List ℕ) (g : Graph) (i : ℕ),
      ((backlinkAll id lc mc sel g).1).layerCount i = g.layerCount i := by
  intro sel
  induction sel with
  | nil => intro g i; rfl
  | cons nb rest ih =>
    intro g i
    by_cases hcap : mc < ((appendNbr g nb lc id).nbrs nb lc).length
    · simp only [backlinkAll, hcap, if_pos]
      rw [ih, layerCount_setNbrsAt, layerCount_appendNbr]
    · simp only [backlinkAll, hcap, if_neg, not_false_iff]
      rw [ih, layerCount_appendNbr]

theorem len_setNbrsAt (g : Graph) (j lc : ℕ) (v : List ℕ) :
    (setNbrsAt g j lc v).nodes.length = g.nodes.length := by
  obtain ⟨ns, h, hl, _⟩ := setNbrsAt_spec g j lc v
  rw [h]; exact hl

theorem len_backlinkAll (id lc mc : ℕ) (sel : List ℕ) (g : Graph) :
    ((backlinkAll id lc mc sel g).1).nodes.length = g.nodes.length := by
  obtain ⟨ns, h, hl, _⟩ := backlinkAll_spec id lc mc sel g
  rw [h]; exact hl

theorem layerCount_insertStep (v : List ℚ) (id lc : ℕ) (g : Graph) (ep i : ℕ) :
    ((insertStep v id lc g ep).1.1).layerCount i = g.layerCount i := by
  simp only [insertStep]
  rw [layerCount_backlinkAll, layerCount_setNbrsAt]

theorem len_insertStep (v : List ℚ) (id lc : ℕ) (g : Graph) (ep : ℕ) :
    ((insertStep v id lc g ep).1.1).nodes.length = g.nodes.length := by
  obtain ⟨ns, h, hl, _⟩ := insertStep_spec v id lc g ep
  rw [h]; exact hl

theorem layerCount_insertLoop (v : List ℚ) (id : ℕ) :
    ∀ (lc : ℕ) (g : Graph) (ep i : ℕ),
      ((insertLoop v id lc g ep).1).layerCount i = g.layerCount i := by
  intro lc
  induction lc with
  | zero => intro g ep i; simpa only [insertLoop] using layerCount_insertStep v id 0 g ep i
  | succ lc0 ih =>
    intro g ep i
    have h1 := layerCount_insertStep v id (lc0 + 1) g ep i
    have h2 := ih (insertStep v id (lc0 + 1) g ep).1.1 (insertStep v id (lc0 + 1) g ep).2 i
    simpa only [insertLoop, h1] using h2

theorem len_insertLoop (v : List ℚ) (id lc : ℕ) (g : Graph) (ep : ℕ) :
    ((insertLoop v id lc g ep).1).nodes.length = g.nodes.length := by
  obtain ⟨ns, h, hl, _⟩ := insertLoop_spec v id lc g ep
  rw [h]; exact hl

theorem mem_selectNeighbours (cands : List Cand) (m b : ℕ)
    (h : b ∈ selectNeighbours cands m) : ∃ c ∈ cands, c.id = b := by
  simp only [selectNeighbours, List.mem_map] at h
  obtain ⟨c, hc, hcb⟩ := h
  exact ⟨c, List.mem_of_mem_take hc, hcb⟩

/-- The candidate ids returned by a layer-`lc` beam search satisfy any
predicate holding of the start point and of all layer-`lc` entries. -/
theorem graphSearchLayer_ids (g : Graph) (q : List ℚ) (ep ef lc : ℕ) (P : ℕ → Prop)
    (hadj : ∀ i b, b ∈ g.nbrs i lc → P b) (hep : P ep) :
    ∀ c ∈ g.searchLayer q ep ef lc, P c.id :=
  searchLayerF_ids (fun i => g.nbrs i lc) g.vecOf q ep ef (g.layerSize lc + 2) P hadj hep

theorem insertStep_entriesBound (v : List ℚ) (id lc : ℕ) (g : Graph) (ep : ℕ)
    (hB : entriesBound g)
    (hid : id < g.nodes.length ∧ lc < g.layerCount id)
    (hep : ep < g.nodes.length ∧ lc < g.layerCount ep) :
    entriesBound (insertStep v id lc g ep).1.1 ∧
    ((insertStep v id lc g ep).2 < g.nodes.length ∧
      lc < g.layerCount (insertStep v id lc g ep).2) := by
  have hcands : ∀ c ∈ g.searchLayer v ep g.efConstruction lc,
      c.id < g.nodes.length ∧ lc < g.layerCount c.id :=
    graphSearchLayer_ids g v ep g.efConstruction lc _
      (fun i b hb => hB i lc b hb) hep
  have hsel : ∀ b ∈ selectNeighbours (g.searchLayer v ep g.efConstruction lc) g.m,
      b < g.nodes.length ∧ lc < g.layerCount b := by
    intro b hb
    obtain ⟨c, hc, hcb⟩ := mem_selectNeighbours _ _ _ hb
    rw [← hcb]
    exact hcands c hc
  constructor
  · intro a lc' b hb
    simp only [insertStep] at hb
    have hlen2 : ((insertStep v id lc g ep).1.1).nodes.length = g.nodes.length :=
      len_insertStep v id lc g ep
    by_cases hlc : lc' = lc
    · subst hlc
      rcases mem_nbrs_backlinkAll_layer id lc' _ _ _ a b hb with ⟨a2, h2⟩ | h2
      · rcases mem_nbrs_setNbrsAt g id lc' _ a2 lc' b h2 with h3 | h3
        · have := hB a2 lc' b h3
          rw [len_insertStep, layerCount_insertStep]
          exact this
        · have := hsel b h3
          rw [len_insertStep, layerCount_insertStep]
          exact this
      · subst h2
        rw [len_insertStep, layerCount_insertStep]
        exact hid
    · rw [backlinkAll_nbrs_ne _ _ _ _ _ _ _ hlc,
          nbrs_setNbrsAt_ne _ _ _ _ _ _ (Or.inr hlc)] at hb
      have := hB a lc' b hb
      rw [len_insertStep, layerCount_insertStep]
      exact this
  · simp only [insertStep]
    cases hcl : g.searchLayer v ep g.efConstruction lc with
    | nil => exact hep
    | cons c cs =>
      have := hcands c (by rw [hcl]; exact List.mem_cons_self _ _)
      exact this

theorem insertLoop_entriesBound (v : List ℚ) (id : ℕ) :
    ∀ (lc : ℕ) (g : Graph) (ep : ℕ),
      entriesBound g →
      id < g.nodes.length → lc < g.layerCount id →
      ep < g.nodes.length → lc < g.layerCount ep →
      entriesBound (insertLoop v id lc g ep).1 := by
  intro lc
  induction lc with
  | zero =>
    intro g ep hB hid1 hid2 hep1 hep2
    simpa only [insertLoop] using
      (insertStep_entriesBound v id 0 g ep hB ⟨hid1, hid2⟩ ⟨hep1, hep2⟩).1
  | succ lc0 ih =>
    intro g ep hB hid1 hid2 hep1 hep2
    obtain ⟨hB2, hep2a, hep2b⟩ :=
      insertStep_entriesBound v id (lc0 + 1) g ep hB ⟨hid1, hid2⟩ ⟨hep1, hep2⟩
    have hlen := len_insertStep v id (lc0 + 1) g ep
    have hlcf := layerCount_insertStep v id (lc0 + 1) g ep
    have := ih (insertStep v id (lc0 + 1) g ep).1.1 (insertStep v id (lc0 + 1) g ep).2
      hB2 (by omega) (by rw [hlcf]; omega) (by omega) (by rw [hlcf]; omega)
    simpa only [insertLoop] using this

theorem layerCount_append_lt (g : Graph) (nd : Node) (i : ℕ) (h : i < g.nodes.length) :
    ({ g with nodes := g.nodes ++ [nd] } : Graph).layerCount i = g.layerCount i := by
  simp only [Graph.layerCount, Graph.node]
  rw [List.getD_append _ _ _ _ h]

theorem layerCount_append_self (g : Graph) (nd : Node) :
    ({ g with nodes := g.nodes ++ [nd] } : Graph).layerCount g.nodes.length =
      nd.neighbors.length := by
  simp only [Graph.layerCount, Graph.node]
  rw [List.getD_append_right _ _ _ _ (le_refl _)]
  simp

/-- Appending the fresh node preserves the entry bound. -/
theorem entriesBound_append (g : Graph) (level : ℕ) (v : List ℚ)
    (hB : entriesBound g) :
    entriesBound ({ g with nodes := g.nodes ++ [⟨List.replicate (level + 1) [], v⟩] } :
      Graph) := by
  intro a lc b hb
  rcases lt_trichotomy a g.nodes.length with ha | ha | ha
  · rw [nbrs_append_lt _ _ _ _ ha] at hb
    obtain ⟨h1, h2⟩ := hB a lc b hb
    constructor
    · simp only [List.length_append, List.length_singleton]
      omega
    · rw [layerCount_append_lt _ _ _ (by omega)]
      exact h2
  · subst ha
    rw [nbrs_replicate_empty] at hb
    simp at hb
  · rw [nbrs_ge _ _ _ (by simp only [List.length_append, List.length_singleton]; omega)] at hb
    simp at hb

/-- Layered variant of `descendAux_ids`: the descent from layer `lo+cnt`
down to `lo+1` only walks lists at layers above `lo`. -/
theorem descendAux_ids_layered (g : Graph) (q : List ℚ) (P : ℕ → Prop) (lo : ℕ)
    (hadj : ∀ i lc b, b ∈ g.nbrs i lc → lo + 1 ≤ lc → P b) :
    ∀ (cnt ep : ℕ), P ep → P (descendAux g q lo cnt ep) := by
  intro cnt
  induction cnt with
  | zero => intro ep hep; exact hep
  | succ cnt ih =>
    intro ep hep
    simp only [descendAux]
    exact ih _ (greedyF_ids (fun i => g.nbrs i (lo + cnt + 1)) g.vecOf q P
      (fun i b hb => hadj i (lo + cnt + 1) b hb (by omega)) (g.layerSize (lo + cnt + 1) + 2)
      ep (sim q (g.vecOf ep)) hep)

/-- Unconditional well-formedness preservation of `Insert`: the entry
bound, entry-point validity, and the entry point occupying exactly the
top layer all survive, with or without pruning. -/
theorem insertLeveled_wf (g : Graph) (v : List ℚ) (level : ℕ)
    (hB : entriesBound g)
    (hE : 0 < g.nodes.length → g.entryPoint < g.nodes.length ∧
      g.layerCount g.entryPoint = g.maxLayer + 1) :
    entriesBound (g.insertLeveled v level).1 ∧
    ((g.insertLeveled v level).1.entryPoint < (g.insertLeveled v level).1.nodes.length ∧
      (g.insertLeveled v level).1.layerCount (g.insertLeveled v level).1.entryPoint =
        (g.insertLeveled v level).1.maxLayer + 1) := by
  simp only [Graph.insertLeveled]
  by_cases h0 : g.nodes.length = 0
  · simp only [h0, if_pos]
    refine ⟨?_, ?_, ?_⟩
    · intro a lc b hb
      rcases lt_trichotomy a g.nodes.length with ha | ha | ha
      · omega
      · subst ha
        have hnil : ({ g with nodes := g.nodes ++ [⟨List.replicate (level + 1) [], v⟩] } :
            Graph).nbrs g.nodes.length lc = [] := nbrs_replicate_empty g level v lc
        have hb2 : b ∈ ({ g with nodes := g.nodes ++ [⟨List.replicate (level + 1) [], v⟩] } :
            Graph).nbrs g.nodes.length lc := hb
        rw [hnil] at hb2
        simp at hb2
      · rw [nbrs_ge _ _ _ (by simp only [List.length_append, List.length_singleton]; omega)] at hb
        simp at hb
    · simp only [List.length_append, List.length_singleton]
      omega
    · show ({ g with nodes := g.nodes ++ [⟨List.replicate (level + 1) [], v⟩] } :
          Graph).layerCount 0 = level + 1
      have hself := layerCount_append_self g ⟨List.replicate (level + 1) [], v⟩
      rw [h0] at hself
      rw [hself]
      simp
  · simp only [h0, if_neg, not_false_iff]
    obtain ⟨hE1, hE2⟩ := hE (by omega)
    have hB1 := entriesBound_append g level v hB
    have hlen1 : ({ g with nodes := g.nodes ++ [⟨List.replicate (level + 1) [], v⟩] } :
        Graph).nodes.length = g.nodes.length + 1 := by
      simp
    have hlcg1 : ∀ i, i < g.nodes.length →
        ({ g with nodes := g.nodes ++ [⟨List.replicate (level + 1) [], v⟩] } :
          Graph).layerCount i = g.layerCount i :=
      fun i hi => layerCount_append_lt g _ i hi
    have hlcid : ({ g with nodes := g.nodes ++ [⟨List.replicate (level + 1) [], v⟩] } :
        Graph).layerCount g.nodes.length = level + 1 := by
      rw [layerCount_append_self]
      simp
    set g1 : Graph := { g with nodes := g.nodes ++ [⟨List.replicate (level + 1) [], v⟩] }
    set ep0 : ℕ := g1.descend v g.maxLayer level g.entryPoint with hep0def
    have hep0 : ep0 < g1.nodes.length ∧ min level g.maxLayer < g1.layerCount ep0 := by
      by_cases hml : g.maxLayer ≤ level
      · have hcnt : g.maxLayer - level = 0 := by omega
        rw [hep0def]
        simp only [Graph.descend, hcnt, descendAux]
        refine ⟨?_, ?_⟩
        · rw [hlen1]
          omega
        · rw [hlcg1 _ hE1, hE2]
          omega
      · have hP : ep0 < g1.nodes.length ∧ level < g1.layerCount ep0 := by
          rw [hep0def]
          refine descendAux_ids_layered g1 v
            (fun x => x < g1.nodes.length ∧ level < g1.layerCount x) level ?_ _ _ ?_
          · intro i lc b hb hlc
            obtain ⟨hb1, hb2⟩ := hB1 i lc b hb
            exact ⟨hb1, by omega⟩
          · refine ⟨by omega, ?_⟩
            rw [hlcg1 _ hE1, hE2]
            omega
        exact ⟨hP.1, by omega⟩
    have hloopB := insertLoop_entriesBound v g.nodes.length (min level g.maxLayer) g1 ep0
      hB1 (by omega) (by rw [hlcid]; omega) hep0.1 hep0.2
    have hlenL := len_insertLoop v g.nodes.length (min level g.maxLayer) g1 ep0
    have hlcL := layerCount_insertLoop v g.nodes.length (min level g.maxLayer) g1 ep0
    by_cases hlev : g.maxLayer < level
    · simp only [hlev, if_pos]
      refine ⟨hloopB, ?_, ?_⟩
      · show g.nodes.length < (insertLoop v g.nodes.length (min level g.maxLayer) g1 ep0).1.nodes.length
        omega
      · show (insertLoop v g.nodes.length (min level g.maxLayer) g1 ep0).1.layerCount
            g.nodes.length = level + 1
        rw [hlcL, hlcid]
    · simp only [hlev, if_neg, not_false_iff]
      refine ⟨hloopB, ?_, ?_⟩
      · have hent : (insertLoop v g.nodes.length (min level g.maxLayer) g1 ep0).1.entryPoint =
            g.entryPoint := by
          obtain ⟨ns, hns, _, _⟩ := insertLoop_spec v g.nodes.length (min level g.maxLayer) g1 ep0
          rw [hns]
        rw [hent]
        omega
      · have hent : (insertLoop v g.nodes.length (min level g.maxLayer) g1 ep0).1.entryPoint =
            g.entryPoint := by
          obtain ⟨ns, hns, _, _⟩ := insertLoop_spec v g.nodes.length (min level g.maxLayer) g1 ep0
          rw [hns]
        have hmax : (insertLoop v g.nodes.length (min level g.maxLayer) g1 ep0).1.maxLayer =
            g.maxLayer := by
          obtain ⟨ns, hns, _, _⟩ := insertLoop_spec v g.nodes.length (min level g.maxLayer) g1 ep0
          rw [hns]
        rw [hent, hmax, hlcL, hlcg1 _ hE1, hE2]

/-- With no prune, the back-link loop only appends: memberships are
preserved. -/
theorem backlinkAll_noPrune_preserve (id lc mc : ℕ) :
    ∀ (sel : List ℕ) (g : Graph), (backlinkAll id lc mc sel g).2 = false →
      ∀ a lc' b, b ∈ g.nbrs a lc' → b ∈ ((backlinkAll id lc mc sel g).1).nbrs a lc' := by
  intro sel
  induction sel with
  | nil => intro g _ a lc' b h; exact h
  | cons nb rest ih =>
    intro g hflag a lc' b h
    by_cases hcap : mc < ((appendNbr g nb lc id).nbrs nb lc).length
    · exfalso
      simp only [backlinkAll, hcap, decide_eq_true_eq, if_pos] at hflag
      simp at hflag
    · simp only [backlinkAll, hcap, decide_eq_true_eq, if_neg, not_false_iff] at hflag ⊢
      have hflag2 : (backlinkAll id lc mc rest (appendNbr g nb lc id)).2 = false := by
        simpa using hflag
      refine ih (appendNbr g nb lc id) hflag2 a lc' b ?_
      -- membership survives the append
      by_cases han : a = nb ∧ lc' = lc
      · obtain ⟨ha, hlc⟩ := han
        subst ha; subst hlc
        by_cases hr : inRangeN g a lc'
        · rw [nbrs_appendNbr_self g a lc' id hr]
          exact List.mem_append_left _ h
        · rw [appendNbr_noop g a lc' id hr]
          exact h
      · rw [nbrs_appendNbr_ne g nb lc id a lc' (by tauto)]
        exact h

/-- With no prune, any membership after the back-link loop is an old
membership or the freshly appended id at a selected node's layer-`lc`
list. -/
theorem backlinkAll_noPrune_forward (id lc mc : ℕ) :
    ∀ (sel : List ℕ) (g : Graph), (backlinkAll id lc mc sel g).2 = false →
      ∀ a lc' b, b ∈ ((backlinkAll id lc mc sel g).1).nbrs a lc' →
        b ∈ g.nbrs a lc' ∨ (b = id ∧ lc' = lc ∧ a ∈ sel) := by
  intro sel
  induction sel with
  | nil => intro g _ a lc' b h; exact Or.inl h
  | cons nb rest ih =>
    intro g hflag a lc' b h
    by_cases hcap : mc < ((appendNbr g nb lc id).nbrs nb lc).length
    · exfalso
      simp only [backlinkAll, hcap, decide_eq_true_eq, if_pos] at hflag
      simp at hflag
    · simp only [backlinkAll, hcap, decide_eq_true_eq, if_neg, not_false_iff] at hflag h
      have hflag2 : (backlinkAll id lc mc rest (appendNbr g nb lc id)).2 = false := by
        simpa using hflag
      rcases ih (appendNbr g nb lc id) hflag2 a lc' b h with h2 | ⟨hb, hlc, ha⟩
      · by_cases han : a = nb ∧ lc' = lc
        · obtain ⟨ha, hlc⟩ := han
          subst ha; subst hlc
          by_cases hr : inRangeN g a lc'
          · rw [nbrs_appendNbr_self g a lc' id hr] at h2
            rcases List.mem_append.mp h2 with h3 | h3
            · exact Or.inl h3
            · simp only [List.mem_singleton] at h3
              exact Or.inr ⟨h3, rfl, List.mem_cons_self _ _⟩
          · rw [appendNbr_noop g a lc' id hr] at h2
            exact Or.inl h2
        · rw [nbrs_appendNbr_ne g nb lc id a lc' (by tauto)] at h2
          exact Or.inl h2
      · exact Or.inr ⟨hb, hlc, List.mem_cons_of_mem _ ha⟩

/-- With no prune, each selected in-range neighbour ends up holding the
new id in its layer-`lc` list. -/
theorem backlinkAll_noPrune_added (id lc mc : ℕ) :
    ∀ (sel : List ℕ) (g : Graph), (backlinkAll id lc mc sel g).2 = false →
      ∀ nb ∈ sel, inRangeN g nb lc → id ∈ ((backlinkAll id lc mc sel g).1).nbrs nb lc := by
  intro sel
  induction sel with
  | nil => intro g _ nb hnb; simp at hnb
  | cons nb0 rest ih =>
    intro g hflag nb hnb hr
    by_cases hcap : mc < ((appendNbr g nb0 lc id).nbrs nb0 lc).length
    · exfalso
      simp only [backlinkAll, hcap, decide_eq_true_eq, if_pos] at hflag
      simp at hflag
    · simp only [backlinkAll, hcap, decide_eq_true_eq, if_neg, not_false_iff] at hflag ⊢
      have hflag2 : (backlinkAll id lc mc rest (appendNbr g nb0 lc id)).2 = false := by
        simpa using hflag
      rcases List.mem_cons.mp hnb with hnb1 | hnb1
      · subst hnb1
        refine backlinkAll_noPrune_preserve id lc mc rest _ hflag2 nb lc id ?_
        rw [nbrs_appendNbr_self g nb lc id hr]
        simp
      · exact ih (appendNbr g nb0 lc id) hflag2 nb hnb1
          ((inRangeN_appendNbr g nb0 lc id nb lc).mpr hr)

/-- With no prune, nodes outside the selected list keep their layer-`lc`
list (and every node keeps its other layers). -/
theorem backlinkAll_noPrune_untouched (id lc mc : ℕ) :
    ∀ (sel : List ℕ) (g : Graph), (backlinkAll id lc mc sel g).2 = false →
      ∀ a, a ∉ sel → ((backlinkAll id lc mc sel g).1).nbrs a lc = g.nbrs a lc := by
  intro sel
  induction sel with
  | nil => intro g _ a _; rfl
  | cons nb rest ih =>
    intro g hflag a ha
    by_cases hcap : mc < ((appendNbr g nb lc id).nbrs nb lc).length
    · exfalso
      simp only [backlinkAll, hcap, decide_eq_true_eq, if_pos] at hflag
      simp at hflag
    · simp only [backlinkAll, hcap, decide_eq_true_eq, if_neg, not_false_iff] at hflag ⊢
      have hflag2 : (backlinkAll id lc mc rest (appendNbr g nb lc id)).2 = false := by
        simpa using hflag
      have hane : a ≠ nb := fun hcon => ha (hcon ▸ List.mem_cons_self _ _)
      rw [ih (appendNbr g nb lc id) hflag2 a (fun hcon => ha (List.mem_cons_of_mem _ hcon))]
      exact nbrs_appendNbr_ne g nb lc id a lc (Or.inl hane)

/-- One no-prune insert layer keeps the graph symmetric: the new node and
its selected neighbours are wired in both directions, nothing else at the
layer moves, and other layers are untouched. -/
theorem insertStep_sym (v : List ℚ) (id lc : ℕ) (g : Graph) (ep : ℕ)
    (hsym : symOK g) (hB : entriesBound g)
    (hid : id < g.nodes.length ∧ lc < g.layerCount id)
    (hep : ep < g.nodes.length ∧ lc < g.layerCount ep) (hepne : ep ≠ id)
    (hfreshA : ∀ a, id ∉ g.nbrs a lc)
    (hnp : (insertStep v id lc g ep).1.2 = false) :
    symOK (insertStep v id lc g ep).1.1 := by
  have hcands : ∀ c ∈ g.searchLayer v ep g.efConstruction lc,
      c.id < g.nodes.length ∧ lc < g.layerCount c.id ∧ c.id ≠ id := by
    refine graphSearchLayer_ids g v ep g.efConstruction lc
      (fun x => x < g.nodes.length ∧ lc < g.layerCount x ∧ x ≠ id) ?_ ?_
    · intro i b hb
      obtain ⟨h1, h2⟩ := hB i lc b hb
      exact ⟨h1, h2, fun hcon => hfreshA i (hcon ▸ hb)⟩
    · exact ⟨hep.1, hep.2, hepne⟩
  have hsel : ∀ b ∈ selectNeighbours (g.searchLayer v ep g.efConstruction lc) g.m,
      b < g.nodes.length ∧ lc < g.layerCount b ∧ b ≠ id := by
    intro b hb
    obtain ⟨c, hc, hcb⟩ := mem_selectNeighbours _ _ _ hb
    rw [← hcb]
    exact hcands c hc
  set sel := selectNeighbours (g.searchLayer v ep g.efConstruction lc) g.m with hseldef
  set g1 := setNbrsAt g id lc sel with hg1def
  have hrid : inRangeN g id lc := ⟨hid.1, hid.2⟩
  have hg1id : g1.nbrs id lc = sel := nbrs_setNbrsAt_self g id lc sel hrid
  have hg1ne : ∀ a lc', a ≠ id ∨ lc' ≠ lc → g1.nbrs a lc' = g.nbrs a lc' :=
    fun a lc' h => nbrs_setNbrsAt_ne g id lc sel a lc' h
  have hnp2 : (backlinkAll id lc (if lc = 0 then 2 * g.m else g.m) sel g1).2 = false := hnp
  set mc := if lc = 0 then 2 * g.m else g.m with hmcdef
  intro a lc' b hb
  have hb2 : b ∈ ((backlinkAll id lc mc sel g1).1).nbrs a lc' := hb
  show a ∈ ((backlinkAll id lc mc sel g1).1).nbrs b lc'
  by_cases hlc : lc' = lc
  · subst hlc
    rcases backlinkAll_noPrune_forward id lc' mc sel g1 hnp2 a lc' b hb2 with h2 | ⟨hbid, _, ha⟩
    · by_cases haid : a = id
      · rw [haid] at h2 ⊢
        rw [hg1id] at h2
        -- b is a selected neighbour: the back-link put a=id into b's list
        have hrb : inRangeN g1 b lc' := by
          obtain ⟨hb1, hb2', _⟩ := hsel b h2
          refine (inRangeN_setNbrsAt g id lc' sel b lc').mpr ⟨hb1, ?_⟩
          simpa [Graph.layerCount] using hb2'
        exact backlinkAll_noPrune_added id lc' mc sel g1 hnp2 b h2 hrb
      · rw [hg1ne a lc' (Or.inl haid)] at h2
        have hbid : b ≠ id := fun hcon => hfreshA a (hcon ▸ h2)
        have hba : a ∈ g.nbrs b lc' := hsym a lc' b h2
        refine backlinkAll_noPrune_preserve id lc' mc sel g1 hnp2 b lc' a ?_
        rw [hg1ne b lc' (Or.inl hbid)]
        exact hba
    · -- b = id, a ∈ sel: id's own list is sel, which contains a and is untouched
      rw [hbid]
      have hidsel : id ∉ sel := fun hcon => (hsel id hcon).2.2 rfl
      rw [backlinkAll_noPrune_untouched id lc' mc sel g1 hnp2 id hidsel, hg1id]
      exact ha
  · -- other layers never move
    rw [backlinkAll_nbrs_ne id lc mc sel g1 b lc' hlc, hg1ne b lc' (Or.inr hlc)]
    rw [backlinkAll_nbrs_ne id lc mc sel g1 a lc' hlc, hg1ne a lc' (Or.inr hlc)] at hb2
    exact hsym a lc' b hb2

theorem insertStep_ep_ne (v : List ℚ) (id lc : ℕ) (g : Graph) (ep : ℕ)
    (hfreshA : ∀ a, id ∉ g.nbrs a lc) (hepne : ep ≠ id) :
    (insertStep v id lc g ep).2 ≠ id := by
  have hcands : ∀ c ∈ g.searchLayer v ep g.efConstruction lc, c.id ≠ id :=
    graphSearchLayer_ids g v ep g.efConstruction lc (fun x => x ≠ id)
      (fun i b hb hcon => hfreshA i (hcon ▸ hb)) hepne
  simp only [insertStep]
  cases hcl : g.searchLayer v ep g.efConstruction lc with
  | nil => exact hepne
  | cons c cs => exact hcands c (by rw [hcl]; exact List.mem_cons_self _ _)

theorem insertStep_nbrs_ne_layer (v : List ℚ) (id lc : ℕ) (g : Graph) (ep : ℕ)
    (a lc' : ℕ) (hlc : lc' ≠ lc) :
    ((insertStep v id lc g ep).1.1).nbrs a lc' = g.nbrs a lc' := by
  simp only [insertStep]
  rw [backlinkAll_nbrs_ne _ _ _ _ _ _ _ hlc, nbrs_setNbrsAt_ne _ _ _ _ _ _ (Or.inr hlc)]

theorem insertLoop_sym (v : List ℚ) (id : ℕ) :
    ∀ (lc : ℕ) (g : Graph) (ep : ℕ),
      symOK g → entriesBound g →
      id < g.nodes.length → lc < g.layerCount id →
      ep < g.nodes.length → lc < g.layerCount ep → ep ≠ id →
      (∀ lc', lc' ≤ lc → ∀ a, id ∉ g.nbrs a lc') →
      (insertLoop v id lc g ep).2 = false →
      symOK (insertLoop v id lc g ep).1 := by
  intro lc
  induction lc with
  | zero =>
    intro g ep hsym hB hid1 hid2 hep1 hep2 hepne hfresh hnp
    simp only [insertLoop] at hnp ⊢
    exact insertStep_sym v id 0 g ep hsym hB ⟨hid1, hid2⟩ ⟨hep1, hep2⟩ hepne
      (hfresh 0 (le_refl 0)) hnp
  | succ lc0 ih =>
    intro g ep hsym hB hid1 hid2 hep1 hep2 hepne hfresh hnp
    simp only [insertLoop] at hnp ⊢
    have hnps : (insertStep v id (lc0 + 1) g ep).1.2 = false := by
      rcases Bool.or_eq_false_iff.mp hnp with ⟨h1, _⟩
      exact h1
    have hnpl : (insertLoop v id lc0 (insertStep v id (lc0 + 1) g ep).1.1
        (insertStep v id (lc0 + 1) g ep).2).2 = false := by
      rcases Bool.or_eq_false_iff.mp hnp with ⟨_, h2⟩
      exact h2
    have hsym2 := insertStep_sym v id (lc0 + 1) g ep hsym hB ⟨hid1, hid2⟩ ⟨hep1, hep2⟩
      hepne (hfresh (lc0 + 1) (le_refl _)) hnps
    obtain ⟨hB2, hepa, hepb⟩ := insertStep_entriesBound v id (lc0 + 1) g ep hB
      ⟨hid1, hid2⟩ ⟨hep1, hep2⟩
    have hlen := len_insertStep v id (lc0 + 1) g ep
    have hlcnt := layerCount_insertStep v id (lc0 + 1) g ep
    have hepne2 := insertStep_ep_ne v id (lc0 + 1) g ep (hfresh (lc0 + 1) (le_refl _)) hepne
    have hfresh2 : ∀ lc', lc' ≤ lc0 → ∀ a,
        id ∉ ((insertStep v id (lc0 + 1) g ep).1.1).nbrs a lc' := by
      intro lc' hlc' a
      rw [insertStep_nbrs_ne_layer v id (lc0 + 1) g ep a lc' (by omega)]
      exact hfresh lc' (by omega) a
    exact ih (insertStep v id (lc0 + 1) g ep).1.1 (insertStep v id (lc0 + 1) g ep).2
      hsym2 hB2 (by omega) (by rw [hlcnt]; omega) (by omega) (by rw [hlcnt]; omega)
      hepne2 hfresh2 hnpl

theorem insertLeveled_sym (g : Graph) (v : List ℚ) (level : ℕ)
    (hsym : symOK g) (hB : entriesBound g)
    (hE : 0 < g.nodes.length → g.entryPoint < g.nodes.length ∧
      g.layerCount g.entryPoint = g.maxLayer + 1)
    (hnp : (g.insertLeveled v level).2 = false) :
    symOK (g.insertLeveled v level).1 := by
  simp only [Graph.insertLeveled] at hnp ⊢
  by_cases h0 : g.nodes.length = 0
  · simp only [h0, if_pos]
    intro a lc b hb
    rcases lt_trichotomy a g.nodes.length with ha | ha | ha
    · omega
    · subst ha
      have hb2 : b ∈ ({ g with nodes := g.nodes ++ [⟨List.replicate (level + 1) [], v⟩] } :
          Graph).nbrs g.nodes.length lc := hb
      rw [nbrs_replicate_empty g level v lc] at hb2
      simp at hb2
    · have hb2 : b ∈ ({ g with nodes := g.nodes ++ [⟨List.replicate (level + 1) [], v⟩] } :
          Graph).nbrs a lc := hb
      rw [nbrs_ge _ _ _ (by simp only [List.length_append, List.length_singleton]; omega)]
        at hb2
      simp at hb2
  · simp only [h0, if_neg, not_false_iff] at hnp ⊢
    obtain ⟨hE1, hE2⟩ := hE (by omega)
    have hB1 := entriesBound_append g level v hB
    have hlen1 : ({ g with nodes := g.nodes ++ [⟨List.replicate (level + 1) [], v⟩] } :
        Graph).nodes.length = g.nodes.length + 1 := by
      simp
    have hlcg1 : ∀ i, i < g.nodes.length →
        ({ g with nodes := g.nodes ++ [⟨List.replicate (level + 1) [], v⟩] } :
          Graph).layerCount i = g.layerCount i :=
      fun i hi => layerCount_append_lt g _ i hi
    have hlcid : ({ g with nodes := g.nodes ++ [⟨List.replicate (level + 1) [], v⟩] } :
        Graph).layerCount g.nodes.length = level + 1 := by
      rw [layerCount_append_self]
      simp
    set g1 : Graph := { g with nodes := g.nodes ++ [⟨List.replicate (level + 1) [], v⟩] }
    have hsym1 : symOK g1 := by
      intro a lc b hb
      rcases lt_trichotomy a g.nodes.length with ha | ha | ha
      · have hb2 : b ∈ g.nbrs a lc := by
          rw [← nbrs_append_lt g ⟨List.replicate (level + 1) [], v⟩ a lc ha]
          exact hb
        have hblen := (hB a lc b hb2).1
        have : a ∈ g.nbrs b lc := hsym a lc b hb2
        rw [nbrs_append_lt g ⟨List.replicate (level + 1) [], v⟩ b lc hblen]
        exact this
      · subst ha
        rw [nbrs_replicate_empty g level v lc] at hb
        simp at hb
      · rw [nbrs_ge g1 _ _ (by rw [hlen1]; omega)] at hb
        simp at hb
    have hfresh1 : ∀ lc' a, g.nodes.length ∉ g1.nbrs a lc' := by
      intro lc' a
      rcases lt_trichotomy a g.nodes.length with ha | ha | ha
      · rw [nbrs_append_lt g ⟨List.replicate (level + 1) [], v⟩ a lc' ha]
        intro hcon
        have := (hB a lc' _ hcon).1
        omega
      · subst ha
        rw [nbrs_replicate_empty g level v lc']
        simp
      · rw [nbrs_ge g1 _ _ (by rw [hlen1]; omega)]
        simp
    set ep0 : ℕ := g1.descend v g.maxLayer level g.entryPoint with hep0def
    have hep0 : ep0 < g1.nodes.length ∧ min level g.maxLayer < g1.layerCount ep0 := by
      by_cases hml : g.maxLayer ≤ level
      · have hcnt : g.maxLayer - level = 0 := by omega
        rw [hep0def]
        simp only [Graph.descend, hcnt, descendAux]
        refine ⟨?_, ?_⟩
        · rw [hlen1]
          omega
        · rw [hlcg1 _ hE1, hE2]
          omega
      · have hP : ep0 < g1.nodes.length ∧ level < g1.layerCount ep0 := by
          rw [hep0def]
          refine descendAux_ids_layered g1 v
            (fun x => x < g1.nodes.length ∧ level < g1.layerCount x) level ?_ _ _ ?_
          · intro i lc b hb hlc
            obtain ⟨hb1, hb2⟩ := hB1 i lc b hb
            exact ⟨hb1, by omega⟩
          · refine ⟨by rw [hlen1]; omega, ?_⟩
            rw [hlcg1 _ hE1, hE2]
            omega
        exact ⟨hP.1, by omega⟩
    have hep0ne : ep0 ≠ g.nodes.length := by
      rw [hep0def]
      refine descendAux_ids g1 v (fun x => x ≠ g.nodes.length) ?_ level
        (g.maxLayer - level) g.entryPoint (by omega)
      intro i lc b hb
      intro hcon
      exact hfresh1 lc i (hcon ▸ hb)
    have hloopsym := insertLoop_sym v g.nodes.length (min level g.maxLayer) g1 ep0
      hsym1 hB1 (by rw [hlen1]; omega) (by rw [hlcid]; omega) hep0.1 hep0.2 hep0ne
      (fun lc' _ a => hfresh1 lc' a) ?flag
    case flag =>
      by_cases hlev : g.maxLayer < level
      · simpa only [hlev, if_pos] using hnp
      · simpa only [hlev, if_neg, not_false_iff] using hnp
    by_cases hlev : g.maxLayer < level
    · simp only [hlev, if_pos]
      exact hloopsym
    · simp only [hlev, if_neg, not_false_iff]
      exact hloopsym

theorem buildAux_sym (levels : ℕ → ℕ) :
    ∀ (vecs : List (List ℚ)) (i0 : ℕ) (g : Graph),
      symOK g → entriesBound g →
      (0 < g.nodes.length → g.entryPoint < g.nodes.length ∧
        g.layerCount g.entryPoint = g.maxLayer + 1) →
      (buildAux levels vecs i0 g).2 = false →
      symOK (buildAux levels vecs i0 g).1 := by
  intro vecs
  induction vecs with
  | nil => intro i0 g hsym _ _ _; exact hsym
  | cons v vs ih =>
    intro i0 g hsym hB hE hnp
    simp only [buildAux] at hnp ⊢
    obtain ⟨h1, h2⟩ := Bool.or_eq_false_iff.mp hnp
    have hsym2 := insertLeveled_sym g v (levels i0) hsym hB hE h1
    obtain ⟨hB2, hE2⟩ := insertLeveled_wf g v (levels i0) hB hE
    exact ih (i0 + 1) (g.insertLeveled v (levels i0)).1 hsym2 hB2 (fun _ => hE2) h2

/-- C4 (amended): after any completed insert sequence into a fresh graph
during which no neighbour list ever exceeded its layer capacity (so
`pruneNeighbours` never ran), the neighbour relation is symmetric at
every layer: each insert wires the new node and its selected neighbours
in both directions (hnsw.go:136-140) and nothing else moves. (When a
prune does run it drops the over-capacity node's lowest-similarity
neighbours without removing the reverse edges, hnsw.go:354-379, so
symmetry can be lost permanently — see the counterexample.) -/
theorem c4_symmetric_no_prune (m ec es : ℤ) (levels : ℕ → ℕ) (vecs : List (List ℚ))
    (h : buildPruned (GraphNew m ec es) levels vecs = false) :
    ∀ a lc b, b ∈ (buildL (GraphNew m ec es) levels vecs).nbrs a lc →
      a ∈ (buildL (GraphNew m ec es) levels vecs).nbrs b lc := by
  refine buildAux_sym levels vecs 0 (GraphNew m ec es) ?_ ?_ ?_ h
  · intro a lc b hb
    rw [nbrs_ge _ _ _ (by simp [GraphNew])] at hb
    simp at hb
  · intro a lc b hb
    rw [nbrs_ge _ _ _ (by simp [GraphNew])] at hb
    simp at hb
  · intro hcon
    simp [GraphNew] at hcon

/-- Witness for C4's amended theorem: a concrete two-vector build prunes
nothing, and the back edge of the one link is present. -/
theorem c4_symmetric_no_prune_witness :
    buildPruned (GraphNew 16 200 50) (fun _ => 0) [[1], [2]] = false ∧
    1 ∈ (buildL (GraphNew 16 200 50) (fun _ => 0) [[1], [2]]).nbrs 0 0 :=
  ⟨by decide,
   c4_symmetric_no_prune 16 200 50 (fun _ => 0) [[1], [2]] (by decide) 1 0 0 (by decide)⟩

theorem nbrs_eq_tab0 (g : Graph) (i : ℕ) : g.nbrs i 0 = (tab0 g).getD i [] := by
  have h := List.getD_map (l := g.nodes) (d := (default : Node))
    (n := i) (f := fun nd : Node => nd.neighbors.getD 0 [])
  simp only [Graph.nbrs, Graph.node, tab0]
  exact h.symm

theorem layerSize0_eq_tab0 (g : Graph) :
    g.layerSize 0 = ((tab0 g).map List.length).sum := by
  simp only [Graph.layerSize, tab0, List.map_map]
  rfl

theorem tab0_length (g : Graph) : (tab0 g).length = g.nodes.length := by
  simp [tab0]

/-- `vecOf` is pointwise stable under node-list rewrites that keep the
vectors. -/
theorem vecOf_eq_of_map_vec (g g' : Graph)
    (h : g'.nodes.map (·.vec) = g.nodes.map (·.vec)) : ∀ i, g'.vecOf i = g.vecOf i := by
  intro i
  have h1 := List.getD_map (l := g'.nodes) (d := (default : Node))
    (n := i) (f := fun nd : Node => nd.vec)
  have h2 := List.getD_map (l := g.nodes) (d := (default : Node))
    (n := i) (f := fun nd : Node => nd.vec)
  simp only [Graph.vecOf, Graph.node]
  rw [← h1, ← h2]
  rw [h]

theorem vecOf_setNbrsAt (g : Graph) (j lc : ℕ) (v : List ℕ) (i : ℕ) :
    (setNbrsAt g j lc v).vecOf i = g.vecOf i := by
  obtain ⟨ns, h, _, hv⟩ := setNbrsAt_spec g j lc v
  exact vecOf_eq_of_map_vec g (setNbrsAt g j lc v) (by rw [h]; exact hv) i

theorem vecOf_backlinkAll (id lc mc : ℕ) (sel : List ℕ) (g : Graph) (i : ℕ) :
    ((backlinkAll id lc mc sel g).1).vecOf i = g.vecOf i := by
  obtain ⟨ns, h, _, hv⟩ := backlinkAll_spec id lc mc sel g
  exact vecOf_eq_of_map_vec g _ (by rw [h]; exact hv) i

theorem vecOf_insertStep (v : List ℚ) (id lc : ℕ) (g : Graph) (ep i : ℕ) :
    ((insertStep v id lc g ep).1.1).vecOf i = g.vecOf i := by
  obtain ⟨ns, h, _, hv⟩ := insertStep_spec v id lc g ep
  exact vecOf_eq_of_map_vec g _ (by rw [h]; exact hv) i

theorem listModify_map_set {α β : Type} [Inhabited α] (p : α → β) :
    ∀ (l : List α) (j : ℕ) (f : α → α), j < l.length →
      (listModify l j f).map p = (l.map p).set j (p (f (l.getD j default))) := by
  intro l
  induction l with
  | nil => intro j f h; simp at h
  | cons x xs ih =>
    intro j f h
    cases j with
    | zero => simp [listModify]
    | succ j' =>
      simp only [listModify, List.map_cons, List.getD_cons_succ, List.set_cons_succ]
      rw [ih j' f (by simpa using h)]

/-- At layers other than 0 the table is untouched. -/
theorem tab0_setNbrsAt_ne (g : Graph) (j lc : ℕ) (v : List ℕ) (h : lc ≠ 0) :
    tab0 (setNbrsAt g j lc v) = tab0 g := by
  simp only [tab0, setNbrsAt]
  refine listModify_map _ _ _ _ ?_
  intro a
  simp only []
  rw [List.getD_eq_getElem?_getD, List.getD_eq_getElem?_getD, List.getElem?_set_ne (by omega)]

/-- Writing node `j`'s layer-0 list rewrites entry `j` of the table. -/
theorem tab0_setNbrsAt_zero (g : Graph) (j : ℕ) (w : List ℕ) (hr : inRangeN g j 0) :
    tab0 (setNbrsAt g j 0 w) = (tab0 g).set j w := by
  obtain ⟨hj, hlc⟩ := hr
  have hlc2 : 0 < (g.nodes.getD j default).neighbors.length := hlc
  simp only [tab0, setNbrsAt]
  rw [listModify_map_set _ _ _ _ hj]
  congr 1
  simp only []
  rw [List.getD_eq_getElem?_getD, List.getElem?_set_self (by simpa using hlc2)]
  rfl

theorem tab0_appendNbr_zero (g : Graph) (nb idn : ℕ) (hr : inRangeN g nb 0) :
    tab0 (appendNbr g nb 0 idn) = (tab0 g).set nb ((tab0 g).getD nb [] ++ [idn]) := by
  have h := tab0_setNbrsAt_zero g nb (g.nbrs nb 0 ++ [idn]) hr
  nth_rewrite 2 [nbrs_eq_tab0] at h
  exact h

theorem tab0_appendNbr_ne (g : Graph) (nb lc idn : ℕ) (h : lc ≠ 0) :
    tab0 (appendNbr g nb lc idn) = tab0 g :=
  tab0_setNbrsAt_ne g nb lc (g.nbrs nb lc ++ [idn]) h

theorem tab0_backlinkAll_ne (id lc mc : ℕ) (h : lc ≠ 0) :
    ∀ (sel : List ℕ) (g : Graph), tab0 (backlinkAll id lc mc sel g).1 = tab0 g := by
  intro sel
  induction sel with
  | nil => intro g; rfl
  | cons nb rest ih =>
    intro g
    by_cases hcap : mc < ((appendNbr g nb lc id).nbrs nb lc).length
    · simp only [backlinkAll, hcap, if_pos]
      rw [ih, tab0_setNbrsAt_ne _ _ _ _ h, tab0_appendNbr_ne _ _ _ _ h]
    · simp only [backlinkAll, hcap, if_neg, not_false_iff]
      rw [ih, tab0_appendNbr_ne _ _ _ _ h]

theorem tab0_insertStep_ne (v : List ℚ) (id lc : ℕ) (g : Graph) (ep : ℕ) (h : lc ≠ 0) :
    tab0 (insertStep v id lc g ep).1.1 = tab0 g := by
  simp only [insertStep]
  rw [tab0_backlinkAll_ne _ _ _ h, tab0_setNbrsAt_ne _ _ _ _ h]

/-- The layer-0 back-link loop acts on the table exactly as
`adjTabStep`. -/
theorem tab0_backlinkAll_zero (idn mc : ℕ) (Vt : List (List ℚ)) :
    ∀ (sel : List ℕ) (g : Graph),
      (∀ i, g.vecOf i = Vt.getD i []) →
      (∀ nb ∈ sel, inRangeN g nb 0) →
      tab0 (backlinkAll idn 0 mc sel g).1 = adjTabStep Vt idn mc sel (tab0 g) := by
  intro sel
  induction sel with
  | nil => intro g _ _; rfl
  | cons nb rest ih =>
    intro g hV hsel
    have hrnb : inRangeN g nb 0 := hsel nb (List.mem_cons_self _ _)
    have htab1 : tab0 (appendNbr g nb 0 idn) =
        (tab0 g).set nb ((tab0 g).getD nb [] ++ [idn]) := tab0_appendNbr_zero g nb idn hrnb
    have hnb1 : (appendNbr g nb 0 idn).nbrs nb 0 = (tab0 g).getD nb [] ++ [idn] := by
      rw [nbrs_eq_tab0, htab1]
      rw [List.getD_eq_getElem?_getD, List.getElem?_set_self
        (by rw [tab0_length]; exact hrnb.1)]
      rfl
    have hV1 : ∀ i, (appendNbr g nb 0 idn).vecOf i = Vt.getD i [] :=
      fun i => (vecOf_setNbrsAt g nb 0 _ i).trans (hV i)
    have hVf : (appendNbr g nb 0 idn).vecOf = fun i => Vt.getD i [] := funext hV1
    by_cases hcap : mc < ((appendNbr g nb 0 idn).nbrs nb 0).length
    · simp only [backlinkAll, hcap, if_pos]
      have hcap2 : mc < ((tab0 g).getD nb [] ++ [idn]).length := by
        rw [← hnb1]; exact hcap
      have hr1 : inRangeN (appendNbr g nb 0 idn) nb 0 :=
        (inRangeN_appendNbr g nb 0 idn nb 0).mpr hrnb
      have htab2 : tab0 (setNbrsAt (appendNbr g nb 0 idn) nb 0
          (pruneF (appendNbr g nb 0 idn).vecOf ((appendNbr g nb 0 idn).vecOf nb)
            ((appendNbr g nb 0 idn).nbrs nb 0) mc)) =
          ((tab0 g).set nb ((tab0 g).getD nb [] ++ [idn])).set nb
            (pruneF (fun i => Vt.getD i []) (Vt.getD nb [])
              ((tab0 g).getD nb [] ++ [idn]) mc) := by
        rw [tab0_setNbrsAt_zero _ _ _ hr1, htab1, hV1 nb, hVf, hnb1]
      have hstep : adjTabStep Vt idn mc (nb :: rest) (tab0 g) =
          adjTabStep Vt idn mc rest ((tab0 g).set nb
            (pruneF (fun i => Vt.getD i []) (Vt.getD nb [])
              ((tab0 g).getD nb [] ++ [idn]) mc)) := by
        simp only [adjTabStep, hcap2, if_pos]
      rw [hstep]
      rw [ih _ ?hv ?hr]
      case hv =>
        intro i
        exact (vecOf_setNbrsAt _ _ _ _ i).trans (hV1 i)
      case hr =>
        intro nb2 hnb2
        refine (inRangeN_setNbrsAt _ _ _ _ _ _).mpr
          ((inRangeN_appendNbr g nb 0 idn nb2 0).mpr (hsel nb2 (List.mem_cons_of_mem _ hnb2)))
      rw [htab2]
      rw [List.set_set]
    · simp only [backlinkAll, hcap, if_neg, not_false_iff]
      have hcap2 : ¬ mc < ((tab0 g).getD nb [] ++ [idn]).length := by
        rw [← hnb1]; exact hcap
      have hstep : adjTabStep Vt idn mc (nb :: rest) (tab0 g) =
          adjTabStep Vt idn mc rest ((tab0 g).set nb ((tab0 g).getD nb [] ++ [idn])) := by
        simp only [adjTabStep, hcap2, if_neg, not_false_iff]
      rw [hstep]
      rw [ih _ hV1 ?hr2]
      case hr2 =>
        intro nb2 hnb2
        exact (inRangeN_appendNbr g nb 0 idn nb2 0).mpr (hsel nb2 (List.mem_cons_of_mem _ hnb2))
      rw [htab1]

/-- One full layer-0 insert step on the table. -/
theorem tab0_insertStep_zero (v : List ℚ) (idn : ℕ) (g : Graph) (ep : ℕ)
    (Vt : List (List ℚ))
    (hV : ∀ i, g.vecOf i = Vt.getD i [])
    (hidr : inRangeN g idn 0)
    (hselr : ∀ nb ∈ selectNeighbours (g.searchLayer v ep g.efConstruction 0) g.m,
      inRangeN g nb 0) :
    tab0 (insertStep v idn 0 g ep).1.1 =
      adjTabStep Vt idn (2 * g.m)
        (selectNeighbours (g.searchLayer v ep g.efConstruction 0) g.m)
        ((tab0 g).set idn (selectNeighbours (g.searchLayer v ep g.efConstruction 0) g.m)) := by
  simp only [insertStep]
  set sel := selectNeighbours (g.searchLayer v ep g.efConstruction 0) g.m with hseldef
  have htab1 : tab0 (setNbrsAt g idn 0 sel) = (tab0 g).set idn sel :=
    tab0_setNbrsAt_zero g idn sel hidr
  rw [show (if True then 2 * g.m else g.m) = 2 * g.m from if_pos trivial]
  have h := tab0_backlinkAll_zero idn (2 * g.m) Vt sel
    (setNbrsAt g idn 0 sel)
    (fun i => (vecOf_setNbrsAt g idn 0 sel i).trans (hV i))
    (fun nb hnb => (inRangeN_setNbrsAt _ _ _ _ _ _).mpr (hselr nb hnb))
  rw [h, htab1]

/-- Through the whole per-layer insert loop, the layer-0 table transform
is determined by the (level-independent) layer-0 data alone: upper-layer
iterations leave the table alone, and the final layer-0 iteration's beam
search returns the same candidate list `C` from any entry point `< idn`. -/
theorem insertLoop_tab (v : List ℚ) (idn : ℕ) (Vt : List (List ℚ)) (C : List Cand) :
    ∀ (lc : ℕ) (g : Graph) (ep : ℕ),
      g.m = 2 → g.efConstruction = 200 →
      g.nodes.length = idn + 1 →
      (∀ i, g.vecOf i = Vt.getD i []) →
      inRangeN g idn 0 →
      (∀ i, i < idn + 1 → 0 < g.layerCount i) →
      (∀ a lc2 b, lc2 ≤ lc → b ∈ g.nbrs a lc2 → b < idn) →
      ep < idn →
      (∀ ep2, ep2 < idn → searchLayerF (fun i => (tab0 g).getD i []) (fun i => Vt.getD i [])
        v ep2 200 (((tab0 g).map List.length).sum + 2) = C) →
      (∀ b ∈ selectNeighbours C 2, b < idn) →
      tab0 (insertLoop v idn lc g ep).1 =
        adjTabStep Vt idn 4 (selectNeighbours C 2) ((tab0 g).set idn (selectNeighbours C 2)) := by
  intro lc
  induction lc with
  | zero =>
    intro g ep hm hefc hlen hV hidr hLC hlow hep hout hCsel
    have hsearch : g.searchLayer v ep g.efConstruction 0 = C := by
      show searchLayerF (fun i => g.nbrs i 0) g.vecOf v ep g.efConstruction
        (g.layerSize 0 + 2) = C
      rw [hefc, layerSize0_eq_tab0]
      rw [show (fun i => g.nbrs i 0) = (fun i => (tab0 g).getD i []) from
        funext (fun i => nbrs_eq_tab0 g i)]
      rw [show g.vecOf = (fun i => Vt.getD i []) from funext hV]
      exact hout ep hep
    have hselr : ∀ nb ∈ selectNeighbours (g.searchLayer v ep g.efConstruction 0) g.m,
        inRangeN g nb 0 := by
      intro nb hnb
      rw [hsearch, hm] at hnb
      have hb := hCsel nb hnb
      exact ⟨by omega, hLC nb (by omega)⟩
    have hres := tab0_insertStep_zero v idn g ep Vt hV hidr hselr
    rw [hsearch, hm] at hres
    have h4 : 2 * 2 = 4 := rfl
    rw [h4] at hres
    simpa only [insertLoop] using hres
  | succ lc0 ih =>
    intro g ep hm hefc hlen hV hidr hLC hlow hep hout hCsel
    set st := insertStep v idn (lc0 + 1) g ep with hstdef
    have htabst : tab0 st.1.1 = tab0 g := tab0_insertStep_ne v idn (lc0 + 1) g ep (by omega)
    have hmst : st.1.1.m = g.m := insertStep_m v idn (lc0 + 1) g ep
    have hefcst : st.1.1.efConstruction = g.efConstruction := by
      obtain ⟨ns, h, _, _⟩ := insertStep_spec v idn (lc0 + 1) g ep
      rw [hstdef, h]
    have hlenst : st.1.1.nodes.length = g.nodes.length := by
      rw [hstdef]; exact len_insertStep v idn (lc0 + 1) g ep
    have hlcst : ∀ i, st.1.1.layerCount i = g.layerCount i := by
      rw [hstdef]; exact layerCount_insertStep v idn (lc0 + 1) g ep
    have hVst : ∀ i, st.1.1.vecOf i = Vt.getD i [] :=
      fun i => (vecOf_insertStep v idn (lc0 + 1) g ep i).trans (hV i)
    have hepst : st.2 < idn := by
      have hc : ∀ c ∈ g.searchLayer v ep g.efConstruction (lc0 + 1), c.id < idn :=
        graphSearchLayer_ids g v ep g.efConstruction (lc0 + 1) (fun x => x < idn)
          (fun i b hb => hlow i (lc0 + 1) b (le_refl _) hb) hep
      rw [hstdef]
      simp only [insertStep]
      cases hcl : g.searchLayer v ep g.efConstruction (lc0 + 1) with
      | nil => exact hep
      | cons c cs => exact hc c (by rw [hcl]; exact List.mem_cons_self _ _)
    have := ih st.1.1 st.2 (hmst.trans hm) (hefcst.trans hefc) (by omega)
      hVst
      ⟨by omega, by
        show 0 < st.1.1.layerCount idn
        rw [hlcst]; exact hidr.2⟩
      (fun i hi => by rw [hlcst]; exact hLC i hi)
      (fun a lc2 b hlc2 hb => by
        rw [insertStep_nbrs_ne_layer v idn (lc0 + 1) g ep a lc2 (by omega)] at hb
        exact hlow a lc2 b (by omega) hb)
      hepst
      (by rw [htabst]; exact hout)
      hCsel
    rw [htabst] at this
    simpa only [insertLoop] using this

theorem tab0_append_replicate (g : Graph) (level : ℕ) (v : List ℚ) :
    tab0 ({ g with nodes := g.nodes ++ [⟨List.replicate (level + 1) [], v⟩] } : Graph) =
      tab0 g ++ [[]] := by
  simp only [tab0, List.map_append, List.map_cons, List.map_nil, List.replicate_succ,
    List.getD_cons_zero]

theorem vecOf_append_getD (g : Graph) (ns : List (List ℕ)) (v : List ℚ)
    (V : List (List ℚ)) (hV : ∀ i, g.vecOf i = V.getD i [])
    (hlen : V.length = g.nodes.length) (i : ℕ) :
    ({ g with nodes := g.nodes ++ [⟨ns, v⟩] } : Graph).vecOf i = (V ++ [v]).getD i [] := by
  rcases lt_trichotomy i g.nodes.length with hi | hi | hi
  · simp only [Graph.vecOf, Graph.node]
    rw [List.getD_append _ _ _ _ hi, List.getD_append _ _ _ _ (by omega)]
    have := hV i
    simp only [Graph.vecOf, Graph.node] at this
    exact this
  · simp only [Graph.vecOf, Graph.node]
    rw [List.getD_append_right _ _ _ _ (by omega), List.getD_append_right _ _ _ _ (by omega)]
    rw [hi, hlen]
    simp
  · simp only [Graph.vecOf, Graph.node]
    rw [List.getD_eq_default _ _ (by simp; omega), List.getD_eq_default _ _ (by simp; omega)]
    rfl

/-- One whole `Insert` call, seen on the layer-0 table, for a non-empty
graph whose layer-0 beam search from any entry point returns the fixed
candidate list `C`: the result is the table step `adjTabStep`,
independently of the drawn `level`. -/
theorem insertLeveled_tab (g : Graph) (v : List ℚ) (level : ℕ)
    (V : List (List ℚ)) (C : List Cand)
    (hm : g.m = 2) (hefc : g.efConstruction = 200)
    (hlen0 : 0 < g.nodes.length)
    (hVlen : V.length = g.nodes.length)
    (hV : ∀ i, g.vecOf i = V.getD i [])
    (hB : entriesBound g)
    (hE : g.entryPoint < g.nodes.length)
    (hLC : ∀ i, i < g.nodes.length → 0 < g.layerCount i)
    (hout : ∀ ep2, ep2 < g.nodes.length →
      searchLayerF (fun i => (tab0 g ++ [[]]).getD i []) (fun i => (V ++ [v]).getD i [])
        v ep2 200 (((tab0 g ++ [[]]).map List.length).sum + 2) = C)
    (hCsel : ∀ b ∈ selectNeighbours C 2, b < g.nodes.length) :
    tab0 (g.insertLeveled v level).1 =
      adjTabStep (V ++ [v]) g.nodes.length 4 (selectNeighbours C 2)
        ((tab0 g ++ [[]]).set g.nodes.length (selectNeighbours C 2)) := by
  simp only [Graph.insertLeveled]
  have h0 : ¬ (g.nodes.length = 0) := by omega
  simp only [h0, if_neg, not_false_iff]
  set g1 : Graph := { g with nodes := g.nodes ++ [⟨List.replicate (level + 1) [], v⟩] }
    with hg1def
  set ep0 : ℕ := g1.descend v g.maxLayer level g.entryPoint with hep0def
  have hg1tab : tab0 g1 = tab0 g ++ [[]] := tab0_append_replicate g level v
  have hg1len : g1.nodes.length = g.nodes.length + 1 := by
    rw [hg1def]; simp
  have hg1V : ∀ i, g1.vecOf i = (V ++ [v]).getD i [] :=
    vecOf_append_getD g _ v V hV hVlen
  have hg1low : ∀ a lc2 b, b ∈ g1.nbrs a lc2 → b < g.nodes.length := by
    intro a lc2 b hb
    rcases lt_trichotomy a g.nodes.length with ha | ha | ha
    · rw [hg1def] at hb
      rw [nbrs_append_lt _ _ _ _ ha] at hb
      exact (hB a lc2 b hb).1
    · rw [hg1def, ha] at hb
      rw [nbrs_replicate_empty] at hb
      exact absurd hb (List.not_mem_nil b)
    · rw [hg1def] at hb
      rw [nbrs_ge _ _ _ (by simp; omega)] at hb
      exact absurd hb (List.not_mem_nil b)
  have hg1LC : ∀ i, i < g.nodes.length + 1 → 0 < g1.layerCount i := by
    intro i hi
    rcases lt_or_ge i g.nodes.length with hil | hig
    · rw [hg1def, layerCount_append_lt _ _ _ hil]
      exact hLC i hil
    · have hieq : i = g.nodes.length := by omega
      rw [hg1def, hieq, layerCount_append_self]
      simp
  have hep0 : ep0 < g.nodes.length := by
    rw [hep0def]
    simp only [Graph.descend]
    exact descendAux_ids_layered g1 v (fun x => x < g.nodes.length) level
      (fun i lc b hb _ => hg1low i lc b hb) (g.maxLayer - level) g.entryPoint hE
  have hmain := insertLoop_tab v g.nodes.length (V ++ [v]) C
    (min level g.maxLayer) g1 ep0
    (by rw [hg1def]; exact hm) (by rw [hg1def]; exact hefc) hg1len hg1V
    ⟨by omega, by
      show 0 < g1.layerCount g.nodes.length
      rw [hg1def, layerCount_append_self]; simp⟩
    hg1LC
    (fun a lc2 b _ hb => hg1low a lc2 b hb)
    hep0
    (by rw [hg1tab]; exact hout)
    hCsel
  rw [hg1tab] at hmain
  by_cases hlev : g.maxLayer < level
  · simp only [hlev, if_pos]
    exact hmain
  · simp only [hlev, if_neg, not_false_iff]
    exact hmain

/-- Every node of the graph keeps a non-empty layer list through `Insert`
(the new node gets `level + 1` lists, hnsw.go:102-106). -/
theorem insertLeveled_LC (g : Graph) (v : List ℚ) (level : ℕ)
    (hLC : ∀ i, i < g.nodes.length → 0 < g.layerCount i) :
    ∀ i, i < g.nodes.length + 1 → 0 < (g.insertLeveled v level).1.layerCount i := by
  have hg1 : ∀ i, i < g.nodes.length + 1 →
      0 < ({ g with nodes := g.nodes ++ [⟨List.replicate (level + 1) [], v⟩] } :
        Graph).layerCount i := by
    intro i hi
    rcases lt_or_ge i g.nodes.length with hil | hig
    · rw [layerCount_append_lt _ _ _ hil]
      exact hLC i hil
    · have hieq : i = g.nodes.length := by omega
      rw [hieq, layerCount_append_self]
      simp
  simp only [Graph.insertLeveled]
  by_cases h0 : g.nodes.length = 0
  · simp only [h0, if_pos]
    intro i hi
    show 0 < ({ g with nodes := g.nodes ++ [⟨List.replicate (level + 1) [], v⟩] } :
      Graph).layerCount i
    exact hg1 i (by omega)
  · simp only [h0, if_neg, not_false_iff]
    intro i hi
    by_cases hlev : g.maxLayer < level
    · simp only [hlev, if_pos]
      show 0 < (insertLoop v g.nodes.length (min level g.maxLayer)
        { g with nodes := g.nodes ++ [⟨List.replicate (level + 1) [], v⟩] }
        (Graph.descend { g with nodes := g.nodes ++ [⟨List.replicate (level + 1) [], v⟩] }
          v g.maxLayer level g.entryPoint)).1.layerCount i
      rw [layerCount_insertLoop]
      exact hg1 i hi
    · simp only [hlev, if_neg, not_false_iff]
      rw [layerCount_insertLoop]
      exact hg1 i hi

theorem getD_map_vec (g : Graph) (i : ℕ) :
    g.vecOf i = (g.nodes.map (fun nd => nd.vec)).getD i [] := by
  have h := List.getD_map (l := g.nodes) (d := (default : Node))
    (n := i) (f := fun nd : Node => nd.vec)
  simp only [Graph.vecOf, Graph.node]
  exact h.symm

/-- The first insert into an empty graph yields the one-node table,
whatever level was drawn. -/
theorem StageInv_zero (g : Graph) (v : List ℚ) (level : ℕ)
    (hm : g.m = 2) (hefc : g.efConstruction = 200) (h0 : g.nodes.length = 0) :
    StageInv (g.insertLeveled v level).1 [[]] [v] := by
  have hnil : g.nodes = [] := List.length_eq_zero.mp h0
  obtain ⟨hlen, hmap, hm1, hefc1, _, _⟩ := insertLeveled_spec g v level
  have hB : entriesBound g := by
    intro a lc b hb
    have : g.nbrs a lc = [] := nbrs_ge g a lc (by omega)
    rw [this] at hb
    exact absurd hb (List.not_mem_nil b)
  obtain ⟨hB', hE'⟩ := insertLeveled_wf g v level hB (fun hpos => absurd hpos (by omega))
  have hVlen : ([v] : List (List ℚ)).length = (g.insertLeveled v level).1.nodes.length := by
    rw [hlen, h0]
    rfl
  refine ⟨hm1.trans hm, hefc1.trans hefc, ?_, hVlen, ?_, hB', fun _ => hE', ?_⟩
  · have htl : (tab0 (g.insertLeveled v level).1).length = 1 := by
      rw [tab0_length]; omega
    have hmem : ∀ l ∈ tab0 (g.insertLeveled v level).1, l = [] := by
      intro l hl
      simp only [tab0, List.mem_map] at hl
      obtain ⟨nd, hnd, hrfl⟩ := hl
      simp [Graph.insertLeveled, hnil] at hnd
      rw [hnd] at hrfl
      rw [← hrfl]
      simp [List.replicate_succ]
    cases htab : tab0 (g.insertLeveled v level).1 with
    | nil => rw [htab] at htl; simp at htl
    | cons x xs =>
      rw [htab] at htl hmem
      simp only [List.length_cons] at htl
      have hxs : xs = [] := List.length_eq_zero.mp (by omega)
      have hx : x = [] := hmem x (List.mem_cons_self _ _)
      rw [hx, hxs]
  · intro i
    rw [getD_map_vec, hmap, hnil]
    simp only [List.map_nil, List.nil_append]
  · intro i hi
    have := insertLeveled_LC g v level (fun j hj => absurd hj (by omega)) i (by omega)
    exact this

/-- One insert into a non-empty graph carries the invariant forward,
with the new table given by the (level-independent) table step. -/
theorem StageInv_step (g : Graph) (v : List ℚ) (level : ℕ) (A : List (List ℕ))
    (V : List (List ℚ)) (C : List Cand)
    (hInv : StageInv g A V)
    (hlen0 : 0 < V.length)
    (hout : ∀ ep2, ep2 < A.length →
      searchLayerF (fun i => (A ++ [[]]).getD i []) (fun i => (V ++ [v]).getD i [])
        v ep2 200 (((A ++ [[]]).map List.length).sum + 2) = C)
    (hCsel : ∀ b ∈ selectNeighbours C 2, b < A.length) :
    StageInv (g.insertLeveled v level).1
      (adjTabStep (V ++ [v]) A.length 4 (selectNeighbours C 2)
        ((A ++ [[]]).set A.length (selectNeighbours C 2)))
      (V ++ [v]) := by
  obtain ⟨hm, hefc, htab, hVlen, hV, hB, hE, hLC⟩ := hInv
  have hAlen : A.length = g.nodes.length := by rw [← htab, tab0_length]
  have hgpos : 0 < g.nodes.length := by omega
  obtain ⟨hlen, hmap, hm1, hefc1, _, _⟩ := insertLeveled_spec g v level
  obtain ⟨hB', hE'⟩ := insertLeveled_wf g v level hB (fun _ => hE hgpos)
  have hmapV : g.nodes.map (fun nd => nd.vec) = V := by
    apply List.ext_getElem
    · rw [List.length_map]; omega
    · intro i h1 h2
      rw [← List.getD_eq_getElem _ [] h1, ← List.getD_eq_getElem _ [] h2]
      rw [← getD_map_vec]
      exact hV i
  have htabres := insertLeveled_tab g v level V C hm hefc hgpos (by omega) hV hB
    (hE hgpos).1 hLC
    (by rw [htab, ← hAlen]; exact hout)
    (by rw [← hAlen]; exact hCsel)
  refine ⟨hm1.trans hm, hefc1.trans hefc, ?_, ?_, ?_, hB', fun _ => hE', ?_⟩
  · rw [htabres, htab, hAlen]
  · rw [hlen]
    simp only [List.length_append, List.length_singleton]
    omega
  · intro i
    rw [getD_map_vec, hmap, hmapV]
  · intro i hi
    rw [hlen] at hi
    exact insertLeveled_LC g v level hLC i hi

/-- `StageInv_step` with the next table and vector list given by
equations, so concrete chains can discharge them by evaluation. -/
theorem StageInv_step2 (g : Graph) (v : List ℚ) (level : ℕ) (A : List (List ℕ))
    (V : List (List ℚ)) (C : List Cand) (A2 : List (List ℕ)) (V2 : List (List ℚ))
    (hInv : StageInv g A V)
    (hlen0 : 0 < V.length)
    (hout : ∀ ep2, ep2 < A.length →
      searchLayerF (fun i => (A ++ [[]]).getD i []) (fun i => (V ++ [v]).getD i [])
        v ep2 200 (((A ++ [[]]).map List.length).sum + 2) = C)
    (hCsel : ∀ b ∈ selectNeighbours C 2, b < A.length)
    (hA2 : adjTabStep (V ++ [v]) A.length 4 (selectNeighbours C 2)
      ((A ++ [[]]).set A.length (selectNeighbours C 2)) = A2)
    (hV2 : V ++ [v] = V2) :
    StageInv (g.insertLeveled v level).1 A2 V2 := by
  rw [← hA2, ← hV2]
  exact StageInv_step g v level A V C hInv hlen0 hout hCsel

/-- For the vectors `[10],[9],[8],[7],[6],[5]` inserted into
`New(2,200,50)`, the layer-0 adjacency after the build is the same for
EVERY sequence of level draws, and it is asymmetric: node 5 lists node 0
but node 0 does not list node 5 (nodes 0 and 1 pruned their lists when
the sixth insert overflowed them, hnsw.go:141-148, dropping 5). -/
theorem c4_asym (L : ℕ → ℕ) :
    0 ∈ (buildL (GraphNew 2 200 50) L [[10], [9], [8], [7], [6], [5]]).nbrs 5 0 ∧
    5 ∉ (buildL (GraphNew 2 200 50) L [[10], [9], [8], [7], [6], [5]]).nbrs 0 0 := by
  have h1 : StageInv ((GraphNew 2 200 50).insertLeveled [10] (L 0)).1 [[]] [[10]] :=
    StageInv_zero _ _ _ rfl rfl rfl
  have h2 := StageInv_step2 _ [9] (L 1) [[]] [[10]]
    [Cand.mk 0 90] [[1], [0]] [[10], [9]]
    h1 (by decide) (by with_unfolding_all decide) (by decide)
    (by with_unfolding_all decide) rfl
  have h3 := StageInv_step2 _ [8] (L 2) [[1], [0]] [[10], [9]]
    [Cand.mk 0 80, Cand.mk 1 72] [[1, 2], [0, 2], [0, 1]] [[10], [9], [8]]
    h2 (by decide) (by with_unfolding_all decide) (by decide)
    (by with_unfolding_all decide) rfl
  have h4 := StageInv_step2 _ [7] (L 3) [[1, 2], [0, 2], [0, 1]] [[10], [9], [8]]
    [Cand.mk 0 70, Cand.mk 1 63, Cand.mk 2 56]
    [[1, 2, 3], [0, 2, 3], [0, 1], [0, 1]] [[10], [9], [8], [7]]
    h3 (by decide) (by with_unfolding_all decide) (by decide)
    (by with_unfolding_all decide) rfl
  have h5 := StageInv_step2 _ [6] (L 4) [[1, 2, 3], [0, 2, 3], [0, 1], [0, 1]]
    [[10], [9], [8], [7]]
    [Cand.mk 0 60, Cand.mk 1 54, Cand.mk 2 48, Cand.mk 3 42]
    [[1, 2, 3, 4], [0, 2, 3, 4], [0, 1], [0, 1], [0, 1]] [[10], [9], [8], [7], [6]]
    h4 (by decide) (by with_unfolding_all decide) (by decide)
    (by with_unfolding_all decide) rfl
  have h6 := StageInv_step2 _ [5] (L 5) [[1, 2, 3, 4], [0, 2, 3, 4], [0, 1], [0, 1], [0, 1]]
    [[10], [9], [8], [7], [6]]
    [Cand.mk 0 50, Cand.mk 1 45, Cand.mk 2 40, Cand.mk 3 35, Cand.mk 4 30]
    [[1, 2, 3, 4], [0, 2, 3, 4], [0, 1], [0, 1], [0, 1], [0, 1]]
    [[10], [9], [8], [7], [6], [5]]
    h5 (by decide) (by with_unfolding_all decide) (by decide)
    (by with_unfolding_all decide) rfl
  have e0 : buildL (GraphNew 2 200 50) L [[10], [9], [8], [7], [6], [5]] =
      (((((((GraphNew 2 200 50).insertLeveled [10] (L 0)).1.insertLeveled
        [9] (L 1)).1.insertLeveled [8] (L 2)).1.insertLeveled [7] (L 3)).1.insertLeveled
        [6] (L 4)).1.insertLeveled [5] (L 5)).1 := by
    simp only [buildL, buildAux]
  obtain ⟨_, _, htab, _⟩ := h6
  constructor
  · rw [e0, nbrs_eq_tab0, htab]
    decide
  · rw [e0, nbrs_eq_tab0, htab]
    decide

/-- C4 is refuted as stated: it is NOT the case that after every completed
insert sequence on a fresh graph the neighbour relation is symmetric at
every layer. With `New(2,200,50)` and the six one-dimensional vectors
`10,9,8,7,6,5`, the sixth insert overflows the layer-0 lists of nodes 0
and 1 (capacity `2m = 4`); `pruneNeighbours` then drops node 5 from both
(it has the lowest similarity) while node 5 keeps 0 and 1, leaving
`0 ∈ neighbors(5,0)` but `5 ∉ neighbors(0,0)`. By `c4_asym` this holds
for every sequence of level draws of the seeded RNG, so it holds for the
stream `rand.New(rand.NewSource(42))` actually produces. -/
theorem c4_counterexample :
    ¬ (∀ (m ec es : ℤ) (levels : ℕ → ℕ) (vecs : List (List ℚ)),
        symOK (buildL (GraphNew m ec es) levels vecs)) := by
  intro h
  obtain ⟨hin, hnotin⟩ := c4_asym (fun _ => 0)
  exact hnotin (h 2 200 50 (fun _ => 0) [[10], [9], [8], [7], [6], [5]] 5 0 0 hin)

theorem ebind_ok {α β : Type} (a : α) (f : α → Except String β) :
    (Except.ok a : Except String α).bind f = f a := rfl

theorem readF32s_roundtrip :
    ∀ (vec : List ℚ) (rest : List Tok),
      readF32s vec.length (vec.map Tok.f32 ++ rest) = Except.ok (vec, rest) := by
  intro vec
  induction vec with
  | nil => intro rest; rfl
  | cons q qs ih =>
    intro rest
    simp only [List.length_cons, List.map_cons, List.cons_append, readF32s, readF32,
      bind, ebind_ok]
    rw [ih rest]
    simp only [ebind_ok]

theorem readU32s_roundtrip :
    ∀ (l : List ℕ) (rest : List Tok),
      readU32s l.length (l.map Tok.u32 ++ rest) = Except.ok (l, rest) := by
  intro l
  induction l with
  | nil => intro rest; rfl
  | cons n ns ih =>
    intro rest
    simp only [List.length_cons, List.map_cons, List.cons_append, readU32s, readU32,
      bind, ebind_ok]
    rw [ih rest]
    simp only [ebind_ok]

theorem readLayers_roundtrip :
    ∀ (layers : List (List ℕ)) (rest : List Tok),
      (∀ l ∈ layers, l.length < 65536) →
      readLayers layers.length
        ((layers.map fun layer => Tok.u16 (layer.length % 65536) :: layer.map Tok.u32).flatten
          ++ rest) = Except.ok (layers, rest) := by
  intro layers
  induction layers with
  | nil => intro rest _; rfl
  | cons l ls ih =>
    intro rest hb
    have hl : l.length % 65536 = l.length :=
      Nat.mod_eq_of_lt (hb l (List.mem_cons_self _ _))
    simp only [List.length_cons, List.map_cons, List.flatten_cons, List.cons_append,
      List.append_assoc, readLayers, readU16, bind, ebind_ok, hl]
    rw [readU32s_roundtrip]
    simp only [ebind_ok]
    rw [ih _ (fun x hx => hb x (List.mem_cons_of_mem _ hx))]
    simp only [ebind_ok]

theorem readNodes_roundtrip :
    ∀ (nodes : List Node) (rest : List Tok),
      (∀ nd ∈ nodes, nd.neighbors.length < 256 ∧ nd.vec.length < 65536 ∧
        ∀ l ∈ nd.neighbors, l.length < 65536) →
      readNodes nodes.length ((nodes.map saveNode).flatten ++ rest) =
        Except.ok (nodes, rest) := by
  intro nodes
  induction nodes with
  | nil => intro rest _; rfl
  | cons nd nds ih =>
    intro rest hb
    obtain ⟨hlc, hvl, hnb⟩ := hb nd (List.mem_cons_self _ _)
    simp only [List.length_cons, List.map_cons, List.flatten_cons, List.cons_append,
      List.append_assoc, readNodes, saveNode, readU8, readU16, bind, ebind_ok,
      Nat.mod_eq_of_lt hlc, Nat.mod_eq_of_lt hvl]
    rw [readF32s_roundtrip]
    simp only [ebind_ok]
    rw [readLayers_roundtrip nd.neighbors _ hnb]
    simp only [ebind_ok]
    rw [ih _ (fun x hx => hb x (List.mem_cons_of_mem _ hx))]
    simp only [ebind_ok]

/-- The Save/Load round trip: for every graph whose counts fit the file
format's integer widths, Load of Save returns the same graph with the
RNG reseeded to the constant 42 (persist.go:135; Save never records the
RNG state). -/
theorem loadGraph_saveGraph (g : Graph)
    (hml : g.maxLayer < 256)
    (hm : g.m < 65536) (hec : g.efConstruction < 65536) (hes : g.efSearch < 65536)
    (hlen : g.nodes.length < 4294967296)
    (hnd : ∀ nd ∈ g.nodes, nd.neighbors.length < 256 ∧ nd.vec.length < 65536 ∧
      ∀ l ∈ nd.neighbors, l.length < 65536) :
    loadGraph (saveGraph g) = Except.ok { g with rngSeed := 42 } := by
  simp only [saveGraph, loadGraph, readU16, readU32, readU8, bind, ebind_ok,
    Nat.mod_eq_of_lt hml, Nat.mod_eq_of_lt hm, Nat.mod_eq_of_lt hec, Nat.mod_eq_of_lt hes,
    Nat.mod_eq_of_lt hlen, ne_eq, not_true_eq_false, if_false]
  rw [show (g.nodes.map saveNode).flatten =
    (g.nodes.map saveNode).flatten ++ [] from (List.append_nil _).symm]
  rw [readNodes_roundtrip g.nodes [] hnd]
  simp only [ebind_ok]

/-- The greedy descent ignores the RNG field. -/
theorem descendAux_rngSeed (g : Graph) (s : ℤ) (q : List ℚ) (lo : ℕ) :
    ∀ (cnt ep : ℕ),
      descendAux { g with rngSeed := s } q lo cnt ep = descendAux g q lo cnt ep := by
  intro cnt
  induction cnt with
  | zero => intro ep; rfl
  | succ c ih =>
    intro ep
    simp only [descendAux]
    rw [show ({ g with rngSeed := s } : Graph).greedySearchLayer q ep (lo + c + 1) =
      g.greedySearchLayer q ep (lo + c + 1) from rfl]
    exact ih _

/-- Search ignores the RNG field: reseeding changes no result. -/
theorem search_rngSeed (g : Graph) (s : ℤ) (q : List ℚ) (k : ℕ) :
    ({ g with rngSeed := s } : Graph).search q k = g.search q k := by
  simp only [Graph.search, Graph.descend]
  rw [descendAux_rngSeed]
  rw [show ∀ ep ef, ({ g with rngSeed := s } : Graph).searchLayer q ep ef 0 =
    g.searchLayer q ep ef 0 from fun ep ef => rfl]

/-- C6: saving a graph and loading it back yields a graph of the same
node count whose searches agree with the original, identifier for
identifier, for every graph whose counts fit the file format's widths
(`maxLayer` and per-node layer counts below 2^8; `m`, `efConstruction`,
`efSearch`, vector lengths and neighbour counts below 2^16; node count
below 2^32 — Save truncates with `uintN` conversions past these). The
loaded graph differs from the saved one only in its RNG, reseeded with
the constant 42, which search never consults. -/
theorem c6_save_load_roundtrip (g : Graph)
    (hml : g.maxLayer < 256)
    (hm : g.m < 65536) (hec : g.efConstruction < 65536) (hes : g.efSearch < 65536)
    (hlen : g.nodes.length < 4294967296)
    (hnd : ∀ nd ∈ g.nodes, nd.neighbors.length < 256 ∧ nd.vec.length < 65536 ∧
      ∀ l ∈ nd.neighbors, l.length < 65536) :
    ∃ g2, loadGraph (saveGraph g) = Except.ok g2 ∧
      g2.nodes.length = g.nodes.length ∧
      ∀ q k, g2.search q k = g.search q k := by
  refine ⟨{ g with rngSeed := 42 }, loadGraph_saveGraph g hml hm hec hes hlen hnd, rfl, ?_⟩
  intro q k
  exact search_rngSeed g 42 q k

/-- Witness for C6: a concrete two-node graph satisfies the width bounds
and round-trips. -/
theorem c6_save_load_roundtrip_witness :
    (exG6.maxLayer < 256 ∧ exG6.m < 65536 ∧ exG6.efConstruction < 65536 ∧
      exG6.efSearch < 65536 ∧ exG6.nodes.length < 4294967296 ∧
      (∀ nd ∈ exG6.nodes, nd.neighbors.length < 256 ∧ nd.vec.length < 65536 ∧
        ∀ l ∈ nd.neighbors, l.length < 65536)) ∧
    ∃ g2, loadGraph (saveGraph exG6) = Except.ok g2 ∧
      g2.nodes.length = exG6.nodes.length ∧
      ∀ q k, g2.search q k = exG6.search q k :=
  ⟨by decide,
   c6_save_load_roundtrip exG6 (by decide) (by decide) (by decide) (by decide) (by decide)
     (by decide)⟩

theorem head?_mem {α : Type} (l : List α) (x : α) (h : l.head? = some x) : x ∈ l := by
  cases l with
  | nil => simp at h
  | cons y ys =>
    simp only [List.head?_cons, Option.some.injEq] at h
    rw [← h]
    exact List.mem_cons_self _ _

theorem sliceB_length (data : List ℕ) (a b : ℕ) (h : b ≤ data.length) :
    (sliceB data a b).length = b - a := by
  simp only [sliceB, List.length_take, List.length_drop]
  omega

theorem lastIndexNL2_bound (w : List ℕ) (i : ℕ) (h : lastIndexNL2 w = some i) :
    i + 1 < w.length := by
  have hm := List.mem_of_getLast?_eq_some h
  have hr := (List.mem_filter.mp hm).1
  have := List.mem_range.mp hr
  omega

theorem lastIndexByte_bound (c : ℕ) (w : List ℕ) (i : ℕ) (h : lastIndexByte c w = some i) :
    i < w.length := by
  have hm := List.mem_of_getLast?_eq_some h
  have hr := (List.mem_filter.mp hm).1
  exact List.mem_range.mp hr

theorem indexByte_bound (c : ℕ) (w : List ℕ) (i : ℕ) (h : indexByte c w = some i) :
    i < w.length := by
  have hm := head?_mem _ _ h
  have hr := (List.mem_filter.mp hm).1
  exact List.mem_range.mp hr

theorem bestSplitAt_bounds (data : List ℕ) (start endN : ℕ)
    (h1 : start < endN) (h2 : endN ≤ data.length) :
    start < bestSplitAt data start endN ∧ bestSplitAt data start endN ≤ endN := by
  have hw : (sliceB data start endN).length = endN - start := sliceB_length data start endN h2
  simp only [bestSplitAt]
  cases hn2 : lastIndexNL2 (sliceB data start endN) with
  | some i =>
    have := lastIndexNL2_bound _ _ hn2
    rw [hw] at this
    refine ⟨?_, ?_⟩
    · show start < start + i + 2
      omega
    · show start + i + 2 ≤ endN
      omega
  | none =>
    cases hn1 : lastIndexByte 10 (sliceB data start endN) with
    | some i =>
      have := lastIndexByte_bound _ _ _ hn1
      rw [hw] at this
      refine ⟨?_, ?_⟩
      · show start < start + i + 1
        omega
      · show start + i + 1 ≤ endN
        omega
    | none =>
      cases hsp : lastIndexByte 32 (sliceB data start endN) with
      | some i =>
        have := lastIndexByte_bound _ _ _ hsp
        rw [hw] at this
        refine ⟨?_, ?_⟩
        · show start < start + i + 1
          omega
        · show start + i + 1 ≤ endN
          omega
      | none =>
        refine ⟨?_, ?_⟩
        · show start < endN
          omega
        · show endN ≤ endN
          omega

theorem nextStartAt_lb (data : List ℕ) (overlapB : ℤ) (start bestSplit : ℕ) :
    start + 1 ≤ nextStartAt data overlapB start bestSplit := by
  simp only [nextStartAt]
  split_ifs with hle
  · omega
  · have ha : start + 1 ≤ ((bestSplit : ℤ) - overlapB).toNat := by omega
    cases hn : indexByte 10 (sliceB data ((bestSplit : ℤ) - overlapB).toNat bestSplit) with
    | some i =>
      show start + 1 ≤ ((bestSplit : ℤ) - overlapB).toNat + i + 1
      omega
    | none =>
      cases hs : indexByte 32 (sliceB data ((bestSplit : ℤ) - overlapB).toNat bestSplit) with
      | some i =>
        show start + 1 ≤ ((bestSplit : ℤ) - overlapB).toNat + i + 1
        omega
      | none =>
        show start + 1 ≤ ((bestSplit : ℤ) - overlapB).toNat
        omega

theorem nextStartAt_ub (data : List ℕ) (overlapB : ℤ) (start bestSplit : ℕ)
    (hov : 0 ≤ overlapB) (hsb : start < bestSplit) :
    nextStartAt data overlapB start bestSplit ≤ bestSplit := by
  simp only [nextStartAt]
  split_ifs with hle
  · omega
  · have ha : ((bestSplit : ℤ) - overlapB).toNat ≤ bestSplit := by omega
    have hlen : (sliceB data ((bestSplit : ℤ) - overlapB).toNat bestSplit).length ≤
        bestSplit - ((bestSplit : ℤ) - overlapB).toNat := by
      simp only [sliceB, List.length_take, List.length_drop]
      omega
    cases hn : indexByte 10 (sliceB data ((bestSplit : ℤ) - overlapB).toNat bestSplit) with
    | some i =>
      have := indexByte_bound _ _ _ hn
      show ((bestSplit : ℤ) - overlapB).toNat + i + 1 ≤ bestSplit
      omega
    | none =>
      cases hs : indexByte 32 (sliceB data ((bestSplit : ℤ) - overlapB).toNat bestSplit) with
      | some i =>
        have := indexByte_bound _ _ _ hs
        show ((bestSplit : ℤ) - overlapB).toNat + i + 1 ≤ bestSplit
        omega
      | none =>
        show ((bestSplit : ℤ) - overlapB).toNat ≤ bestSplit
        omega

/-- The chunk loop invariant: every produced chunk starts at or after the
current position, is non-empty as a byte window, ends within the file,
and spans at most `maxB` bytes; starts strictly increase; and with enough
fuel the last produced chunk ends exactly at end of file. -/
theorem chunkLoop_spec (data : List ℕ) (maxB overlapB : ℤ)
    (hmax : 0 < maxB) (hov : 0 ≤ overlapB) :
    ∀ (fuel start idx : ℕ),
      (∀ c ∈ chunkLoop data maxB overlapB fuel start idx,
        start ≤ c.startByte ∧ c.startByte < c.endByte ∧ c.endByte ≤ data.length ∧
        (c.endByte : ℤ) - (c.startByte : ℤ) ≤ maxB) ∧
      List.Pairwise (fun a b => a.startByte < b.startByte)
        (chunkLoop data maxB overlapB fuel start idx) ∧
      (data.length ≤ start + fuel → start < data.length →
        ∃ c, (chunkLoop data maxB overlapB fuel start idx).getLast? = some c ∧
          c.endByte = data.length) := by
  intro fuel
  induction fuel with
  | zero =>
    intro start idx
    refine ⟨?_, ?_, ?_⟩
    · intro c hc; exact absurd hc (List.not_mem_nil c)
    · exact List.Pairwise.nil
    · intro h1 h2; omega
  | succ f ih =>
    intro start idx
    by_cases hs : start < data.length
    · by_cases hfin : (data.length : ℤ) ≤ (start : ℤ) + maxB
      · simp only [chunkLoop, if_pos hs, if_pos hfin]
        refine ⟨?_, ?_, ?_⟩
        · intro c hc
          simp only [List.mem_singleton] at hc
          subst hc
          exact ⟨le_refl _, hs, le_refl _, by show (data.length : ℤ) - (start : ℤ) ≤ maxB; omega⟩
        · exact List.pairwise_singleton _ _
        · intro _ _
          exact ⟨_, rfl, rfl⟩
      · simp only [chunkLoop, if_pos hs, if_neg hfin]
        set endN := ((start : ℤ) + maxB).toNat with hendN
        set bs := bestSplitAt data start endN with hbsdef
        set ns := nextStartAt data overlapB start bs with hnsdef
        have hend1 : start < endN := by omega
        have hend2 : endN ≤ data.length := by omega
        obtain ⟨hbs1, hbs2⟩ := bestSplitAt_bounds data start endN hend1 hend2
        have hlb := nextStartAt_lb data overlapB start bs
        have hub := nextStartAt_ub data overlapB start bs hov hbs1
        obtain ⟨iha, ihp, ihl⟩ := ih ns (idx + 1)
        refine ⟨?_, ?_, ?_⟩
        · intro c hc
          rcases List.mem_cons.mp hc with hc0 | hcs
          · subst hc0
            exact ⟨le_refl _, hbs1, by show bs ≤ data.length; omega,
              by show (bs : ℤ) - (start : ℤ) ≤ maxB; omega⟩
          · obtain ⟨h1, h2, h3, h4⟩ := iha c hcs
            exact ⟨by omega, h2, h3, h4⟩
        · refine List.pairwise_cons.mpr ⟨?_, ihp⟩
          intro c hc
          have := (iha c hc).1
          show start < c.startByte
          omega
        · intro hfu _
          have hns_lt : ns < data.length := by omega
          obtain ⟨c, hc1, hc2⟩ := ihl (by omega) hns_lt
          refine ⟨c, ?_, hc2⟩
          cases hl : chunkLoop data maxB overlapB f ns (idx + 1) with
          | nil => rw [hl] at hc1; simp at hc1
          | cons x xs =>
            rw [hl] at hc1
            rw [List.getLast?_cons_cons]
            exact hc1
    · simp only [chunkLoop, if_neg hs]
      exact ⟨fun c hc => absurd hc (List.not_mem_nil c), List.Pairwise.nil,
        fun h1 h2 => absurd h2 hs⟩

/-- C7 (amended): with a positive size limit (ChunkFile defaults
`MaxBytes ≤ 0` to 1200) and non-negative overlap, every chunk the
chunker emits satisfies `start_byte < end_byte ≤ file_size` and
`end_byte − start_byte ≤ max_bytes`, and `start_byte` strictly increases
across the emitted sequence; the last chunk CUT ends at end of file, but
the final empty-chunk filter (chunker.go:187-192) can drop it, so the
last EMITTED chunk ends at end of file only when the file's trailing
window is not pure whitespace — see the counterexample. -/
theorem c7_chunk_bounds (data : List ℕ) (maxB overlapB : ℤ)
    (hmax : 0 < maxB) (hov : 0 ≤ overlapB) :
    List.Pairwise (fun a b => a.startByte < b.startByte) (chunkBytes data maxB overlapB) ∧
    (∀ c ∈ chunkBytes data maxB overlapB,
      c.startByte < c.endByte ∧ c.endByte ≤ data.length ∧
      (c.endByte : ℤ) - (c.startByte : ℤ) ≤ maxB) ∧
    (data ≠ [] →
      ∃ c, (chunkLoop data maxB overlapB (data.length + 1) 0 0).getLast? = some c ∧
        c.endByte = data.length) := by
  obtain ⟨ha, hp, hl⟩ := chunkLoop_spec data maxB overlapB hmax hov (data.length + 1) 0 0
  refine ⟨?_, ?_, ?_⟩
  · simp only [chunkBytes]
    split_ifs with h0
    · exact List.Pairwise.nil
    · exact hp.sublist (List.filter_sublist _)
  · intro c hc
    simp only [chunkBytes] at hc
    split_ifs at hc with h0
    · exact absurd hc (List.not_mem_nil c)
    · obtain ⟨h1, h2, h3, h4⟩ := ha c (List.mem_of_mem_filter hc)
      exact ⟨h2, h3, h4⟩
  · intro hne
    exact hl (by omega) (List.length_pos.mpr hne)

/-- Witness for C7's amended theorem on the file `"ab\n\n  c"`. -/
theorem c7_chunk_bounds_witness :
    ((0 : ℤ) < 4 ∧ (0 : ℤ) ≤ 1) ∧
    (List.Pairwise (fun a b => a.startByte < b.startByte)
      (chunkBytes [97, 98, 10, 10, 32, 32, 99] 4 1) ∧
    (∀ c ∈ chunkBytes [97, 98, 10, 10, 32, 32, 99] 4 1,
      c.startByte < c.endByte ∧ c.endByte ≤ ([97, 98, 10, 10, 32, 32, 99] : List ℕ).length ∧
      (c.endByte : ℤ) - (c.startByte : ℤ) ≤ 4) ∧
    (([97, 98, 10, 10, 32, 32, 99] : List ℕ) ≠ [] →
      ∃ c, (chunkLoop [97, 98, 10, 10, 32, 32, 99] 4 1
          (([97, 98, 10, 10, 32, 32, 99] : List ℕ).length + 1) 0 0).getLast? = some c ∧
        c.endByte = ([97, 98, 10, 10, 32, 32, 99] : List ℕ).length)) :=
  ⟨by decide, c7_chunk_bounds [97, 98, 10, 10, 32, 32, 99] 4 1 (by decide) (by decide)⟩

/-- C7 is refuted as stated: for the 6-byte file `"ab\n\n  "` with
`MaxBytes = 4`, `OverlapBytes = 1`, the split produces the chunks
`[0,4)` (text `"ab"`) and `[4,6)` (whitespace only); the second is
dropped by the empty-text filter, so the chunker emits only `[0,4)` and
the last emitted chunk ends at byte 4, not at the file size 6. -/
theorem c7_counterexample :
    ¬ (∀ (data : List ℕ) (maxB overlapB : ℤ), data ≠ [] →
        List.Pairwise (fun a b => a.startByte < b.startByte)
          (chunkBytes data maxB overlapB) ∧
        (∀ c ∈ chunkBytes data maxB overlapB,
          c.startByte < c.endByte ∧ c.endByte ≤ data.length ∧
          (c.endByte : ℤ) - (c.startByte : ℤ) ≤ maxB) ∧
        (∀ c, (chunkBytes data maxB overlapB).getLast? = some c →
          c.endByte = data.length)) := by
  intro h
  have h2 := (h [97, 98, 10, 10, 32, 32] 4 1 (by decide)).2.2
  have hc : (chunkBytes [97, 98, 10, 10, 32, 32] 4 1).getLast? =
      some ⟨[97, 98], 1, 0, 4, 0⟩ := by decide
  exact absurd (h2 _ hc) (by decide)

/-- C1 is refuted as stated: Open performs NO comparison between the
number of metadata records and the graph's node count. Loading one
metadata record next to an empty graph succeeds. -/
theorem c1_counterexample :
    ¬ (∀ (cs : List ChunkMeta) (g : Graph) (idx : IndexM),
        openIdx (some (Except.ok cs)) (some (Except.ok g)) = Except.ok idx →
        cs.length = g.nodes.length) := by
  intro h
  have h2 := h [default] (GraphNew 16 200 50)
    ⟨[default], GraphNew 16 200 50, buildCache [default]⟩ rfl
  simp only [List.length_singleton, GraphNew, List.length_nil] at h2
  exact absurd h2 (by decide)

/-- C1 (amended): Open reports corruption exactly when `meta.json` or
`hnsw.bin` fails to parse (meta first); when both load, it returns a
usable Index unconditionally — it never compares the metadata record
count with the graph's node count (index.go:88-113 contains no such
check). -/
theorem c1_open_loads :
    (∀ (e : String) (hnswF : Option (Except String Graph)),
      openIdx (some (Except.error e)) hnswF = Except.error "corrupt meta.json") ∧
    (∀ (e : String), openIdx none (some (Except.error e)) =
      Except.error "corrupt hnsw.bin") ∧
    (∀ (cs : List ChunkMeta) (e : String),
      openIdx (some (Except.ok cs)) (some (Except.error e)) =
        Except.error "corrupt hnsw.bin") ∧
    (∀ (cs : List ChunkMeta) (g : Graph),
      openIdx (some (Except.ok cs)) (some (Except.ok g)) =
        Except.ok ⟨cs, g, buildCache cs⟩) :=
  ⟨fun _ _ => rfl, fun _ => rfl, fun _ _ => rfl, fun _ _ => rfl⟩

/-- C2 is refuted as stated: an unsupported path returns
`(skipped = false, nil)` with no diagnostic at all (index.go:134-136),
not "a diagnostic and Skipped"; stat failures and oversized files do
print diagnostics but also return `skipped = false`. -/
theorem c2_counterexample :
    ¬ (∀ (supported : Bool) (statRes : Option (ℤ × ℤ)) (maxB : ℤ)
        (cache : List (List ℕ × ℤ)) (path : List ℕ),
        (supported = false ∨ statRes = none ∨
          (∃ size mtime, statRes = some (size, mtime) ∧ maxB < size)) →
        addFileEarly supported statRes maxB cache path = AddFileResult.done true true) := by
  intro h
  have h2 := h false none 0 [] [] (Or.inl rfl)
  exact absurd h2 (by decide)

/-- C2 (amended): the guard section of AddFileCtx returns
`skipped = false` and `err = nil` for unsupported paths (silently), for
stat failures and for oversized files (the latter two with a diagnostic
on stderr); it returns `skipped = true` only on a cache hit with equal
mtime, and that without a diagnostic. -/
theorem c2_addfile_guards (supported : Bool) (statRes : Option (ℤ × ℤ))
    (maxFileSizeBytes : ℤ) (cache : List (List ℕ × ℤ)) (path : List ℕ) :
    (supported = false →
      addFileEarly supported statRes maxFileSizeBytes cache path =
        AddFileResult.done false false) ∧
    (supported = true → statRes = none →
      addFileEarly supported statRes maxFileSizeBytes cache path =
        AddFileResult.done false true) ∧
    (∀ size mtime, supported = true → statRes = some (size, mtime) →
      maxFileSizeBytes < size →
      addFileEarly supported statRes maxFileSizeBytes cache path =
        AddFileResult.done false true) ∧
    (∀ size mtime, supported = true → statRes = some (size, mtime) →
      size ≤ maxFileSizeBytes → cacheLookup cache path = some mtime →
      addFileEarly supported statRes maxFileSizeBytes cache path =
        AddFileResult.done true false) := by
  refine ⟨?_, ?_, ?_, ?_⟩
  · intro h; subst h; rfl
  · intro h1 h2; subst h1; subst h2; rfl
  · intro size mtime h1 h2 h3
    subst h1; subst h2
    simp [addFileEarly, h3]
  · intro size mtime h1 h2 h3 h4
    subst h1; subst h2
    simp [addFileEarly, h4, not_lt.mpr h3]

/-- Witness for C2's amended theorem: all four guard outcomes at
concrete inputs. -/
theorem c2_addfile_guards_witness :
    addFileEarly false none 0 [] [] = AddFileResult.done false false ∧
    addFileEarly true none 0 [] [] = AddFileResult.done false true ∧
    addFileEarly true (some (5, 7)) 4 [] [] = AddFileResult.done false true ∧
    addFileEarly true (some (3, 7)) 4 [([], 7)] [] = AddFileResult.done true false :=
  ⟨(c2_addfile_guards false none 0 [] []).1 rfl,
   (c2_addfile_guards true none 0 [] []).2.1 rfl rfl,
   (c2_addfile_guards true (some (5, 7)) 4 [] []).2.2.1 5 7 rfl rfl (by decide),
   (c2_addfile_guards true (some (3, 7)) 4 [([], 7)] []).2.2.2 3 7 rfl rfl (by decide)
     (by decide)⟩

theorem extractMaxBy_max {α : Type} (key : α → ℚ) :
    ∀ (l : List α) (c : α) (r : List α),
      extractMaxBy key l = some (c, r) → ∀ y ∈ r, key y ≤ key c := by
  intro l
  induction l with
  | nil => intro c r h; simp [extractMaxBy] at h
  | cons x xs ih =>
    intro c r h y hy
    simp only [extractMaxBy] at h
    cases hx : extractMaxBy key xs with
    | none =>
      rw [hx] at h
      simp only [Option.some.injEq, Prod.mk.injEq] at h
      obtain ⟨hc, hr⟩ := h
      subst hr
      exact absurd hy (List.not_mem_nil y)
    | some p =>
      rw [hx] at h
      obtain ⟨mx, rest'⟩ := p
      by_cases hlt : key x < key mx
      · simp only [if_pos hlt, Option.some.injEq, Prod.mk.injEq] at h
        obtain ⟨hc, hr⟩ := h
        subst hc; subst hr
        rcases List.mem_cons.mp hy with hyx | hyr
        · subst hyx; exact le_of_lt hlt
        · exact ih mx rest' hx y hyr
      · simp only [if_neg hlt, Option.some.injEq, Prod.mk.injEq] at h
        obtain ⟨hc, hr⟩ := h
        subst hc; subst hr
        have hperm := extractMaxBy_perm key xs mx rest' hx
        rcases List.mem_cons.mp (hperm.mem_iff.mp hy) with h1 | h2
        · subst h1; exact not_lt.mp hlt
        · exact le_trans (ih mx rest' hx y h2) (not_lt.mp hlt)

theorem mem_sortByDescAux {α : Type} (key : α → ℚ) :
    ∀ (n : ℕ) (l : List α) (a : α), a ∈ sortByDescAux key n l → a ∈ l := by
  intro n
  induction n with
  | zero => intro l a h; simp [sortByDescAux] at h
  | succ n ih =>
    intro l a h
    cases l with
    | nil => simp [sortByDescAux, extractMaxBy] at h
    | cons x xs =>
      simp only [sortByDescAux] at h
      cases hx : extractMaxBy key (x :: xs) with
      | none => exact absurd hx (extractMaxBy_ne_none key x xs)
      | some p =>
        obtain ⟨c, rest⟩ := p
        rw [hx] at h
        have hperm := extractMaxBy_perm key (x :: xs) c rest hx
        rcases List.mem_cons.mp h with h1 | h2
        · subst h1; exact hperm.mem_iff.mpr (List.mem_cons_self _ _)
        · exact hperm.mem_iff.mpr (List.mem_cons_of_mem _ (ih rest a h2))

/-- The descending selection sort really is descending. -/
theorem sortByDescAux_sorted {α : Type} (key : α → ℚ) :
    ∀ (n : ℕ) (l : List α),
      List.Pairwise (fun a b => key b ≤ key a) (sortByDescAux key n l) := by
  intro n
  induction n with
  | zero => intro l; simp [sortByDescAux]
  | succ n ih =>
    intro l
    cases l with
    | nil =>
      simp [sortByDescAux, extractMaxBy]
    | cons x xs =>
      simp only [sortByDescAux]
      cases hx : extractMaxBy key (x :: xs) with
      | none => exact absurd hx (extractMaxBy_ne_none key x xs)
      | some p =>
        obtain ⟨c, rest⟩ := p
        refine List.pairwise_cons.mpr ⟨?_, ih rest⟩
        intro b hb
        exact extractMaxBy_max key (x :: xs) c rest hx b (mem_sortByDescAux key n rest b hb)

theorem sortByDesc_sorted {α : Type} (key : α → ℚ) (l : List α) :
    List.Pairwise (fun a b => key b ≤ key a) (sortByDesc key l) :=
  sortByDescAux_sorted key l.length l

theorem dedupTake_length :
    ∀ (l : List ScoredHit) (b : ℕ) (seen : List (List ℕ)),
      (dedupTake b l seen).length ≤ b := by
  intro l
  induction l with
  | nil => intro b seen; cases b <;> simp [dedupTake]
  | cons h rest ih =>
    intro b seen
    cases b with
    | zero => simp [dedupTake]
    | succ b0 =>
      simp only [dedupTake]
      split_ifs with hm
      · exact le_trans (ih (b0 + 1) seen) (le_refl _)
      · simpa using Nat.succ_le_succ (ih b0 _)

theorem dedupTake_mem :
    ∀ (l : List ScoredHit) (b : ℕ) (seen : List (List ℕ)) (r : IndexResult),
      r ∈ dedupTake b l seen → ∃ sh ∈ l, r.meta = sh.meta ∧ r.score = sh.score := by
  intro l
  induction l with
  | nil => intro b seen r hr; cases b <;> simp [dedupTake] at hr
  | cons h rest ih =>
    intro b seen r hr
    cases b with
    | zero => simp [dedupTake] at hr
    | succ b0 =>
      simp only [dedupTake] at hr
      split_ifs at hr with hm
      · obtain ⟨sh, hsh, he⟩ := ih (b0 + 1) seen r hr
        exact ⟨sh, List.mem_cons_of_mem _ hsh, he⟩
      · rcases List.mem_cons.mp hr with h1 | h2
        · subst h1
          exact ⟨h, List.mem_cons_self _ _, rfl, rfl⟩
        · obtain ⟨sh, hsh, he⟩ := ih b0 _ r h2
          exact ⟨sh, List.mem_cons_of_mem _ hsh, he⟩

theorem dedupTake_path_notin :
    ∀ (l : List ScoredHit) (b : ℕ) (seen : List (List ℕ)) (r : IndexResult),
      r ∈ dedupTake b l seen → r.meta.path ∉ seen := by
  intro l
  induction l with
  | nil => intro b seen r hr; cases b <;> simp [dedupTake] at hr
  | cons h rest ih =>
    intro b seen r hr
    cases b with
    | zero => simp [dedupTake] at hr
    | succ b0 =>
      simp only [dedupTake] at hr
      split_ifs at hr with hm
      · exact ih (b0 + 1) seen r hr
      · rcases List.mem_cons.mp hr with h1 | h2
        · subst h1
          simpa using hm
        · have := ih b0 _ r h2
          intro hc
          exact this (List.mem_cons_of_mem _ hc)

/-- The dedup walk returns at most one result per path. -/
theorem dedupTake_paths_distinct :
    ∀ (l : List ScoredHit) (b : ℕ) (seen : List (List ℕ)),
      List.Pairwise (fun a b => a.meta.path ≠ b.meta.path) (dedupTake b l seen) := by
  intro l
  induction l with
  | nil => intro b seen; cases b <;> simp [dedupTake]
  | cons h rest ih =>
    intro b seen
    cases b with
    | zero => simp [dedupTake]
    | succ b0 =>
      simp only [dedupTake]
      split_ifs with hm
      · exact ih (b0 + 1) seen
      · refine List.pairwise_cons.mpr ⟨?_, ih b0 _⟩
        intro r hr
        have := dedupTake_path_notin rest b0 _ r hr
        intro hc
        exact this (by rw [← hc]; exact List.mem_cons_self _ _)

/-- The dedup walk preserves the descending score order. -/
theorem dedupTake_sorted :
    ∀ (l : List ScoredHit) (b : ℕ) (seen : List (List ℕ)),
      List.Pairwise (fun a b => ScoredHit.score b ≤ ScoredHit.score a) l →
      List.Pairwise (fun a b => b.score ≤ a.score) (dedupTake b l seen) := by
  intro l
  induction l with
  | nil => intro b seen _; cases b <;> simp [dedupTake]
  | cons h rest ih =>
    intro b seen hp
    have hhd := List.pairwise_cons.mp hp
    cases b with
    | zero => simp [dedupTake]
    | succ b0 =>
      simp only [dedupTake]
      split_ifs with hm
      · exact ih (b0 + 1) seen hhd.2
      · refine List.pairwise_cons.mpr ⟨?_, ih b0 _ hhd.2⟩
        intro r hr
        obtain ⟨sh, hsh, _, hs⟩ := dedupTake_mem rest b0 _ r hr
        show r.score ≤ h.score
        rw [hs]
        exact hhd.1 sh hsh

/-- The dedup walk keeps the FIRST hit of each path it meets: on a
descending input, every same-path input element scores at most the
returned result for that path. -/
theorem dedupTake_path_max :
    ∀ (l : List ScoredHit) (b : ℕ) (seen : List (List ℕ)),
      List.Pairwise (fun a b => ScoredHit.score b ≤ ScoredHit.score a) l →
      ∀ r ∈ dedupTake b l seen, ∀ sh ∈ l, sh.meta.path = r.meta.path →
        sh.score ≤ r.score := by
  intro l
  induction l with
  | nil => intro b seen _ r hr; cases b <;> simp [dedupTake] at hr
  | cons h rest ih =>
    intro b seen hp r hr sh hsh hpath
    have hhd := List.pairwise_cons.mp hp
    cases b with
    | zero => simp [dedupTake] at hr
    | succ b0 =>
      simp only [dedupTake] at hr
      split_ifs at hr with hm
      · rcases List.mem_cons.mp hsh with h1 | h2
        · exfalso
          have hnot := dedupTake_path_notin rest (b0 + 1) seen r hr
          rw [← hpath, h1] at hnot
          exact hnot (of_decide_eq_true hm)
        · exact ih (b0 + 1) seen hhd.2 r hr sh h2 hpath
      · rcases List.mem_cons.mp hr with hr1 | hr2
        · subst hr1
          rcases List.mem_cons.mp hsh with h1 | h2
          · subst h1; exact le_refl _
          · exact hhd.1 sh h2
        · have hnot := dedupTake_path_notin rest b0 _ r hr2
          rcases List.mem_cons.mp hsh with h1 | h2
          · exfalso
            apply hnot
            rw [← hpath, h1]
            exact List.mem_cons_self _ _
          · exact ih b0 _ hhd.2 r hr2 sh h2 hpath

/-- C8: index Search fetches `min(5k, chunkCount)` graph hits, gives
each a boosted score equal to its raw graph similarity plus 0.05 per
matched query word (lowercased, whitespace-split, length > 2, contained
case-insensitively in the chunk's current file text), sorts descending
by boosted score, and returns at most `k` results with at most one per
source path, the first hit of each path in the sorted order winning: the
returned chunk of each path carries the MAXIMUM boosted score among all
fetched hits of that path (last conjunct), so no lower-scored chunk of a
path can displace its best one. -/
theorem c8_search_pipeline (chunks : List ChunkMeta) (g : Graph)
    (files : List ℕ → Option (List ℕ)) (queryVec : List ℚ) (query : List ℕ) (k : ℕ) :
    (searchIdx chunks g files queryVec query k).length ≤ k ∧
    List.Pairwise (fun a b => a.meta.path ≠ b.meta.path)
      (searchIdx chunks g files queryVec query k) ∧
    List.Pairwise (fun a b => b.score ≤ a.score)
      (searchIdx chunks g files queryVec query k) ∧
    (∀ r ∈ searchIdx chunks g files queryVec query k,
      ∃ h ∈ g.search queryVec (min (k * 5) chunks.length),
        h.id < chunks.length ∧
        r.meta = chunks.getD h.id default ∧
        r.score = h.score + boostOf files (fieldsB (query.map toLowerB))
          (chunks.getD h.id default)) ∧
    (∀ r ∈ searchIdx chunks g files queryVec query k,
      ∀ h2 ∈ g.search queryVec (min (k * 5) chunks.length),
        h2.id < chunks.length →
        (chunks.getD h2.id default).path = r.meta.path →
        h2.score + boostOf files (fieldsB (query.map toLowerB))
          (chunks.getD h2.id default) ≤ r.score) := by
  simp only [searchIdx]
  split_ifs with h0
  · exact ⟨by simp, List.Pairwise.nil, List.Pairwise.nil,
      fun r hr => absurd hr (List.not_mem_nil r),
      fun r hr => absurd hr (List.not_mem_nil r)⟩
  · refine ⟨dedupTake_length _ _ _, dedupTake_paths_distinct _ _ _,
      dedupTake_sorted _ _ _ (sortByDesc_sorted _ _), ?_, ?_⟩
    · intro r hr
      obtain ⟨sh, hsh, hm, hs⟩ := dedupTake_mem _ _ _ r hr
      have hsh2 := (mem_sortByDesc _ _ _).mp hsh
      obtain ⟨h, hh, he⟩ := List.mem_map.mp hsh2
      have hh2 := List.mem_filter.mp hh
      refine ⟨h, hh2.1, of_decide_eq_true hh2.2, ?_, ?_⟩
      · rw [hm, ← he]
      · rw [hs, ← he]
    · intro r hr h2 hh2 hid hpath
      have hmem : (ScoredHit.mk (chunks.getD h2.id default)
          (h2.score + boostOf files (fieldsB (query.map toLowerB))
            (chunks.getD h2.id default))) ∈
          ((g.search queryVec (min (k * 5) chunks.length)).filter fun h =>
            decide (h.id < chunks.length)).map fun h =>
            ScoredHit.mk (chunks.getD h.id default)
              (h.score + boostOf files (fieldsB (query.map toLowerB))
                (chunks.getD h.id default)) :=
        List.mem_map.mpr ⟨h2, List.mem_filter.mpr ⟨hh2, decide_eq_true hid⟩, rfl⟩
      have hsorted := (mem_sortByDesc ScoredHit.score _ _).mpr hmem
      exact dedupTake_path_max _ k [] (sortByDesc_sorted _ _) r hr _ hsorted hpath

end Sift
